import Mathlib

/-! City traffic: memoized rerooting traversal (`Main.cpp`)

A shallow embedding of `Main.cpp` and theorems about it.

* `std::uint64_t` values are natural numbers; every addition the program performs is
  followed by `% UINT64_MOD`.
* The three global `std::unordered_map`s are association lists with pairwise distinct
  keys.  The order of the list stands for the (unspecified) iteration order of the hash
  table, so a statement about every iteration order quantifies over permutations.
* `operator[]` default-inserts an absent key (`mapEmplace ... default`), `emplace` never
  overwrites, `find` does not modify the map.
* The recursion of `traverseCitiesViaPath` is bounded by an explicit fuel; `none` means
  that the fuel ran out.  `traverseCitiesViaPath_terminates` shows that a fuel above the
  number of cities named in neighbour lists and absent from the working set is enough.

The definitions come first: the program, the reference recursion `refTraffic`, the graph
predicates (`Forest`, `Symmetric`, ...), the parser, and the predicates of the correctness
proof.  The theorems follow; the main results are `computeOverallTrafficResult_correct`
(the batch computes the reference maximum traffic on every forest) and
`computeOverallTrafficResult_perm` (the iteration order is irrelevant).
-/

namespace Rerooting

/-! ## Data model -/

abbrev City := Nat
abbrev Neighbourhood := List City
abbrev CityMap := List (City × Neighbourhood)
abbrev Traffic := Nat
abbrev TrafficMap := List (City × Traffic)
abbrev CityPath := City × City
abbrev CityPathTrafficCache := List (CityPath × Traffic)
abbrev CityTraffic := City × Traffic
abbrev TrafficResult := List CityTraffic

/-- Modulus of `std::uint64_t` arithmetic. -/
def UINT64_MOD : Nat := 2 ^ 64

/-! ## `std::unordered_map` operations on association lists -/

/-- Lookup of a key: `m.find(k)`, `none` standing for `m.cend()`. -/
def mapFind {κ β : Type} [DecidableEq κ] : List (κ × β) → κ → Option β
  | [], _ => none
  | (a, b) :: rest, k => if a = k then some b else mapFind rest k

/-- Insertion that keeps an existing entry: `m.emplace(k, v)`. -/
def mapEmplace {κ β : Type} [DecidableEq κ] (m : List (κ × β)) (k : κ) (v : β) : List (κ × β) :=
  match mapFind m k with
  | some _ => m
  | none => m ++ [(k, v)]

/-- Insertion or overwrite: `m[k] = v`. -/
def mapAssign {κ β : Type} [DecidableEq κ] : List (κ × β) → κ → β → List (κ × β)
  | [], k, v => [(k, v)]
  | (a, b) :: rest, k, v => if a = k then (a, v) :: rest else (a, b) :: mapAssign rest k v

/-- The keys of a map, in iteration order. -/
def mapKeys {κ β : Type} (m : List (κ × β)) : List κ := m.map Prod.fst

/-- The three global maps of the program. -/
structure State where
  cityMap : CityMap
  trafficMap : TrafficMap
  cityPathTrafficCache : CityPathTrafficCache
deriving DecidableEq

/-- A freshly loaded graph: empty working set and empty directed-edge cache. -/
def State.init (g : CityMap) : State := ⟨g, [], []⟩

/-! ## The traversal engine -/

/-- The loop of `computeTrafficFromNeighbourhood`, started with running sum `traffic`;
reading `trafficMap[neighbour]` default-inserts an absent key. -/
def computeTrafficLoop (city : City) : Neighbourhood → TrafficMap → Traffic → Traffic × TrafficMap
  | [], tm, traffic => (traffic, tm)
  | neighbour :: rest, tm, traffic =>
    if neighbour ≠ city then
      computeTrafficLoop city rest (mapEmplace tm neighbour 0)
        ((traffic + (neighbour + (mapFind tm neighbour).getD 0) % UINT64_MOD) % UINT64_MOD)
    else
      computeTrafficLoop city rest tm traffic

/-- `computeTrafficFromNeighbourhood(city, neighbourhood)`: the sum and the working set
after the reads. -/
def computeTrafficFromNeighbourhood (city : City) (neighbourhood : Neighbourhood)
    (tm : TrafficMap) : Traffic × TrafficMap :=
  computeTrafficLoop city neighbourhood tm 0

/-- The `for` loop of `traverseCitiesViaPath` over the neighbourhood of `city`; `recurse`
is the recursive call. -/
def visitNeighbours (recurse : State → CityPath → Option State) (city : City) :
    Neighbourhood → State → Option State
  | [], s => some s
  | neighbour :: rest, s =>
    match mapFind s.trafficMap neighbour with
    | some _ => visitNeighbours recurse city rest s
    | none =>
      match recurse { s with trafficMap := mapEmplace s.trafficMap neighbour 0 } (neighbour, city) with
      | none => none
      | some s1 => visitNeighbours recurse city rest s1

/-- `traverseCitiesViaPath(cityPath)`. -/
def traverseCitiesViaPath : Nat → State → CityPath → Option State
  | 0, _, _ => none
  | fuel + 1, s, cityPath =>
    match mapFind s.cityPathTrafficCache cityPath with
    | some cached =>
      some { s with trafficMap := mapAssign s.trafficMap cityPath.1 cached }
    | none =>
      let neighbourhood := (mapFind s.cityMap cityPath.1).getD []
      let s0 : State := { s with cityMap := mapEmplace s.cityMap cityPath.1 [] }
      match visitNeighbours (traverseCitiesViaPath fuel) cityPath.1 neighbourhood s0 with
      | none => none
      | some s1 =>
        let r := computeTrafficFromNeighbourhood cityPath.2 neighbourhood s1.trafficMap
        some { cityMap := s1.cityMap
               trafficMap := mapAssign r.2 cityPath.1 r.1
               cityPathTrafficCache := mapEmplace s1.cityPathTrafficCache cityPath r.1 }

/-- The maximum loop of `computeMaximumTraffic`, started with `maxTraffic`. -/
def maxTrafficLoop : Neighbourhood → TrafficMap → Traffic → Traffic × TrafficMap
  | [], tm, maxTraffic => (maxTraffic, tm)
  | neighbour :: rest, tm, maxTraffic =>
    let traffic := ((mapFind tm neighbour).getD 0 + neighbour) % UINT64_MOD
    maxTrafficLoop rest (mapEmplace tm neighbour 0)
      (if maxTraffic < traffic then traffic else maxTraffic)

/-- `computeMaximumTraffic(city)`: the returned maximum and the state afterwards. -/
def computeMaximumTraffic (fuel : Nat) (s : State) (city : City) : Option (Traffic × State) :=
  match traverseCitiesViaPath fuel s (city, 0) with
  | none => none
  | some s1 =>
    let neighbourhood := (mapFind s1.cityMap city).getD []
    let r := maxTrafficLoop neighbourhood s1.trafficMap 0
    some (r.1, { s1 with cityMap := mapEmplace s1.cityMap city [], trafficMap := r.2 })

/-- The root loop of `computeOverallTrafficResult` over the cities `cities`. -/
def overallLoop (fuel : Nat) : List City → State → TrafficResult → Option (TrafficResult × State)
  | [], s, acc => some (acc, s)
  | city :: rest, s, acc =>
    match computeMaximumTraffic fuel s city with
    | none => none
    | some (t, s1) => overallLoop fuel rest { s1 with trafficMap := [] } (acc ++ [(city, t)])

/-- `computeOverallTrafficResult()`: the roots are the keys that `cityMap` holds when the
loop starts, in iteration order, and the collected entries are sorted by city.  This is the
loop of the source whenever every neighbour is a key.  (A key can be added while the loop
runs only when some neighbour is not a key; whether the running iteration then reaches the
new key, as it does for `1:[]`, `2:[14]`, is decided by the layout of the hash table and
not by the source, so the model then evaluates the original keys only.)  Keys being
distinct, every sorting algorithm yields the order computed here. -/
def computeOverallTrafficResult (fuel : Nat) (s : State) : Option (TrafficResult × State) :=
  match overallLoop fuel (mapKeys s.cityMap) s [] with
  | none => none
  | some (res, s1) =>
    some (List.insertionSort (fun a b : CityTraffic => a.1 ≤ b.1) res, s1)

/-! ## Reference semantics and well-formed graphs -/

/-- The neighbour sequence stored for `v` (empty when `v` is not a key). -/
def neighboursOf (g : CityMap) (v : City) : Neighbourhood := (mapFind g v).getD []

/-- Sum of `m + T m` over a list of cities, defined when every `T m` is. -/
def refSum (T : City → Option Traffic) : List City → Option Nat
  | [] => some 0
  | m :: rest =>
    match T m, refSum T rest with
    | some t, some acc => some (m + t + acc)
    | _, _ => none

/-- The un-memoized recursive reference `T(n, p)`: the sum over the neighbours `m ≠ p` of
`n` of `m + T(m, n)`, modulo `2 ^ 64`; `none` when the recursion is deeper than `fuel`. -/
def refTraffic (g : CityMap) : Nat → City → City → Option Traffic
  | 0, _, _ => none
  | fuel + 1, n, p =>
    (refSum (fun m => refTraffic g fuel m n) ((neighboursOf g n).filter (fun m => m ≠ p))).map
      (fun total => total % UINT64_MOD)

/-- Maximum of `(n + T n) % 2 ^ 64` over a list of cities, `0` for the empty list. -/
def refMax (T : City → Option Traffic) : List City → Option Traffic
  | [] => some 0
  | n :: rest =>
    match T n, refMax T rest with
    | some t, some acc => some (max ((n + t) % UINT64_MOD) acc)
    | _, _ => none

/-- The reference `maxTraffic(v)`: the maximum over the neighbours `n` of `v` of
`n + T(n, v)`. -/
def refMaxTraffic (g : CityMap) (fuel : Nat) (v : City) : Option Traffic :=
  refMax (fun n => refTraffic g fuel n v) (neighboursOf g v)

/-- A walk in the graph that never returns along the edge it has just used: consecutive
cities are adjacent, and no city equals the one two places before it. -/
def IsNBWalk (g : CityMap) : List City → Prop
  | [] => True
  | [_] => True
  | a :: b :: rest =>
    b ∈ neighboursOf g a ∧ (∀ c, rest.head? = some c → c ≠ a) ∧ IsNBWalk g (b :: rest)

/-- The graph has no cycle: a walk that never turns straight back visits pairwise
distinct cities. -/
def Forest (g : CityMap) : Prop := ∀ w, IsNBWalk g w → w.Nodup

/-- The keys of the map are pairwise distinct (every `std::unordered_map` is so). -/
def UniqueKeys (g : CityMap) : Prop := (mapKeys g).Nodup

/-- Adjacency is symmetric. -/
def Symmetric (g : CityMap) : Prop := ∀ u v, v ∈ neighboursOf g u → u ∈ neighboursOf g v

/-- No city lists itself as a neighbour. -/
def NoSelfLoop (g : CityMap) : Prop := ∀ v, v ∉ neighboursOf g v

/-- No neighbour list names a city twice. -/
def NoRepeatedNeighbour (g : CityMap) : Prop := ∀ v, (neighboursOf g v).Nodup

/-- Every city named in a neighbour list is a key. -/
def NeighboursAreKeys (g : CityMap) : Prop := ∀ u v, v ∈ neighboursOf g u → v ∈ mapKeys g

/-- The sentinel `0` is not a city. -/
def NoZero (g : CityMap) : Prop := 0 ∉ mapKeys g

/-! ## The description parser

`std::istringstream` is a list of remaining characters and a fail flag.  A formatted
extraction on a failed stream does nothing; otherwise it first skips white space. -/

/-- `std::istringstream`: the unread characters and `failbit`. -/
structure IStream where
  rest : List Char
  fail : Bool
deriving DecidableEq

/-- `std::isspace` in the C locale: space, `\t`, `\n`, `\v`, `\f` and `\r`. -/
def isSpace (c : Char) : Bool :=
  c = ' ' || (9 ≤ c.toNat && c.toNat ≤ 13)

/-- Value of a run of decimal digits, most significant first, continuing from `acc`. -/
def digitsValue : List Char → Nat → Nat
  | [], acc => acc
  | c :: cs, acc => digitsValue cs (acc * 10 + (c.toNat - 48))

/-- `stream >> city` for `std::uint64_t`: `city` keeps its value on a stream that has
already failed or that holds nothing but white space (the extraction then fails before
anything is stored), becomes `0` when a character is found but no digit, and the maximum on
overflow. -/
def extractCity (st : IStream) (city : City) : City × IStream :=
  if st.fail then (city, st) else
    let body := st.rest.dropWhile isSpace
    let negative := body.head? = some '-'
    let unsigned := if body.head? = some '-' ∨ body.head? = some '+' then body.tail else body
    let digits := unsigned.takeWhile Char.isDigit
    let after := unsigned.dropWhile Char.isDigit
    if body = [] then (city, ⟨[], true⟩)
    else if digits = [] then (0, ⟨after, true⟩)
    else if UINT64_MOD ≤ digitsValue digits 0 then (UINT64_MOD - 1, ⟨after, true⟩)
    else if negative then ((UINT64_MOD - digitsValue digits 0) % UINT64_MOD, ⟨after, false⟩)
    else (digitsValue digits 0, ⟨after, false⟩)

/-- `stream >> dummy` for `char`. -/
def extractChar (st : IStream) (dummy : Char) : Char × IStream :=
  if st.fail then (dummy, st) else
    match st.rest.dropWhile isSpace with
    | [] => (dummy, ⟨[], true⟩)
    | c :: cs => (c, ⟨cs, false⟩)

/-- `description.find("[]") != std::string::npos`. -/
def containsEmptyList : List Char → Bool
  | '[' :: ']' :: _ => true
  | _ :: cs => containsEmptyList cs
  | [] => false

/-- `neighbourList.emplace_back(neighbour)` on the list stored under `city`. -/
def appendNeighbour : CityMap → City → City → CityMap
  | [], _, _ => []
  | (a, l) :: rest, city, neighbour =>
    if a = city then (a, l ++ [neighbour]) :: rest else (a, l) :: appendNeighbour rest city neighbour

/-- The `do ... while (dummy == ',')` loop of `parseInput`, appending to the list of `key`.
On a failed stream whose `dummy` holds a comma the loop repeats forever, which no fuel
covers: `none`. -/
def parseNeighbours (key : City) : Nat → IStream → City → Char → CityMap → Option CityMap
  | 0, _, _, _, _ => none
  | fuel + 1, st, city, dummy, cm =>
    let r := extractCity st city
    let cm1 := appendNeighbour cm key r.1
    let d := extractChar r.2 dummy
    if d.1 = ',' then parseNeighbours key fuel d.2 r.1 d.1 cm1 else some cm1

/-- One iteration of the outer loop of `parseInput`. -/
def parseDescription (description : String) (cm : CityMap) : Option CityMap :=
  let r := extractCity ⟨description.toList, false⟩ 0
  let cm1 := mapEmplace cm r.1 []
  if containsEmptyList description.toList then some cm1
  else
    let d1 := extractChar r.2 (Char.ofNat 0)
    let d2 := extractChar d1.2 d1.1
    parseNeighbours r.1 (description.length + 1) d2.2 r.1 d2.1 cm1

/-- `parseInput(input)`, acting on `cityMap`. -/
def parseInput : List String → CityMap → Option CityMap
  | [], cm => some cm
  | description :: rest, cm =>
    match parseDescription description cm with
    | none => none
    | some cm1 => parseInput rest cm1

/-- `resetDataStructures()`: the three maps are cleared.  Only the contents of a map are
part of the state; the bucket array that `clear()` keeps, and with it the order in which a
map filled again is iterated, is not.  A statement about a reload therefore quantifies over
every order of the reloaded graph. -/
def resetDataStructures (_ : State) : State := ⟨[], [], []⟩

/-! ## The graphs of `getTestData` -/

/-- Test case 1 of `getTestData`, in the order of its description lines. -/
def testGraph1 : CityMap :=
  [(1, [2, 7, 8]), (2, [1, 3, 6]), (3, [2, 4, 5]), (4, [3]), (5, [3]), (6, [2]), (7, [1]),
   (8, [1, 9, 12]), (9, [8, 10, 11]), (10, [9]), (11, [9]), (12, [8]), (13, [])]

/-- Test case 2 of `getTestData`. -/
def testGraph2 : CityMap :=
  [(1, [5]), (4, [5]), (3, [5]), (5, [1, 4, 3, 2]), (2, [5, 15, 7]), (7, [2, 8]), (8, [7, 38]),
   (15, [2]), (38, [8])]

/-- Test case 3 of `getTestData`: the star with centre `5`. -/
def testGraph3 : CityMap :=
  [(1, [5]), (2, [5]), (3, [5]), (4, [5]), (5, [1, 2, 3, 4])]

/-- Test case 4 of `getTestData`: the star with the two extra leaves `18` and `12`. -/
def testGraph4 : CityMap :=
  [(1, [5]), (2, [5, 18]), (3, [5, 12]), (4, [5]), (5, [1, 2, 3, 4]), (18, [2]), (12, [3])]

/-! ## Measure of the recursion -/

/-- Every city named in some neighbour list of the graph. -/
def allNeighbours : CityMap → List City
  | [] => []
  | (_, l) :: rest => l ++ allNeighbours rest

/-- The named cities that are not in the working set; each recursive call of
`traverseCitiesViaPath` is preceded by the removal of one of them. -/
def unvisited (s : State) : Finset City :=
  (allNeighbours s.cityMap).toFinset.filter (fun x => mapFind s.trafficMap x = none)

/-- The working set of `s` is contained in that of `s'`. -/
def TrafficMapGrows (s s' : State) : Prop :=
  ∀ x, mapFind s.trafficMap x ≠ none → mapFind s'.trafficMap x ≠ none

/-! ## Branches of a forest -/

/-- The branch behind the edge `v → k`: the cities that a walk which starts with `v, k` and
never turns straight back can reach. -/
def InBranch (g : CityMap) (v k x : City) : Prop :=
  ∃ w, IsNBWalk g (v :: k :: w) ∧ x ∈ k :: w

/-! ## Predicates of the correctness proof -/

/-- The reference recursion `T(n, p)` has the value `t`. -/
def IsTraffic (g : CityMap) (n p : City) (t : Traffic) : Prop :=
  ∃ fuel, refTraffic g fuel n p = some t

/-- The working set holds `T(k, v)` for the neighbour `k` of `v`. -/
def Settled (g : CityMap) (tm : TrafficMap) (v k : City) : Prop :=
  ∃ t, mapFind tm k = some t ∧ IsTraffic g k v t

/-- No city of the branch behind `v → k` is in the working set. -/
def Untouched (g : CityMap) (tm : TrafficMap) (v k : City) : Prop :=
  ∀ x, InBranch g v k x → mapFind tm x = none

/-- Every neighbour of `v` other than `p` is settled, or its whole branch is untouched. -/
def Ready (g : CityMap) (tm : TrafficMap) (v p : City) : Prop :=
  ∀ k ∈ neighboursOf g v, k ≠ p → Settled g tm v k ∨ Untouched g tm v k

/-- Every cached aggregate is the reference value of its directed edge. -/
def CacheSound (g : CityMap) (cache : CityPathTrafficCache) : Prop :=
  ∀ a b t, mapFind cache (a, b) = some t → IsTraffic g a b t

/-- The working sets `tm` and `tm'` agree on every city outside `S`. -/
def AgreeOff (S : City → Prop) (tm tm' : TrafficMap) : Prop :=
  ∀ x, ¬ S x → mapFind tm' x = mapFind tm x

/-- The hypotheses on the graph under which the traversal is correct. -/
structure TreeLike (g : CityMap) : Prop where
  forest : Forest g
  symmetric : Symmetric g
  noZero : NoZero g

/-- What a call `traverseCitiesViaPath((v, p))` from state `s` to state `s'` guarantees. -/
structure TraversePost (g : CityMap) (s s' : State) (v p : City) : Prop where
  cityMap_eq : s'.cityMap = g
  cache_sound : CacheSound g s'.cityPathTrafficCache
  cache_zero : ∀ a, mapFind s'.cityPathTrafficCache (a, 0) = mapFind s.cityPathTrafficCache (a, 0)
  settled : Settled g s'.trafficMap p v
  grows : TrafficMapGrows s s'
  frame : mapFind s.trafficMap p ≠ none → AgreeOff (InBranch g p v) s.trafficMap s'.trafficMap
  ready : Ready g s'.trafficMap v p
  ready_up : Ready g s.trafficMap p v → Ready g s'.trafficMap p v

/-- The invariant of the neighbour loop of a call `traverseCitiesViaPath((v, p))` whose
loop started in state `s0`. -/
structure LoopInv (g : CityMap) (s0 sc : State) (v p : City) : Prop where
  cityMap_eq : sc.cityMap = g
  cache_sound : CacheSound g sc.cityPathTrafficCache
  cache_zero : ∀ a, mapFind sc.cityPathTrafficCache (a, 0) = mapFind s0.cityPathTrafficCache (a, 0)
  grows : TrafficMapGrows s0 sc
  ready : Ready g sc.trafficMap v p
  up : mapFind sc.trafficMap p ≠ none ∨ Ready g sc.trafficMap p v
  frame : mapFind s0.trafficMap p ≠ none → AgreeOff (InBranch g p v) s0.trafficMap sc.trafficMap
  ready_up : Ready g s0.trafficMap p v → Ready g sc.trafficMap p v

/-- The invariant of the neighbour loop of the root call `traverseCitiesViaPath((r, 0))`
whose loop started in state `s0`. -/
structure RootInv (g : CityMap) (s0 sc : State) (r : City) : Prop where
  cityMap_eq : sc.cityMap = g
  cache_sound : CacheSound g sc.cityPathTrafficCache
  cache_zero : ∀ a, mapFind sc.cityPathTrafficCache (a, 0) = mapFind s0.cityPathTrafficCache (a, 0)
  ready : Ready g sc.trafficMap r 0

/-- What the evaluation of one root guarantees, from state `s` to state `s'`. -/
structure RootPost (g : CityMap) (s s' : State) (r : City) (t : Traffic) : Prop where
  cityMap_eq : s'.cityMap = g
  cache_sound : CacheSound g s'.cityPathTrafficCache
  cache_zero : ∀ a, a ≠ r →
    mapFind s'.cityPathTrafficCache (a, 0) = mapFind s.cityPathTrafficCache (a, 0)
  result : refMaxTraffic g g.length r = some t

/-- The conditions of a well-formed graph: distinct keys, symmetric adjacency, no
self-loop, no repeated neighbour, every neighbour a key, and no city `0`. -/
structure WellFormed (g : CityMap) : Prop where
  uniqueKeys : UniqueKeys g
  symmetric : Symmetric g
  noSelfLoop : NoSelfLoop g
  noRepeatedNeighbour : NoRepeatedNeighbour g
  neighboursAreKeys : NeighboursAreKeys g
  noZero : NoZero g

/-! ## Serialization -/

/-- `std::string::pop_back()`. -/
def popBack (s : String) : String := ⟨s.data.dropLast⟩

/-- The loop of `serializeTrafficResult`, appending to `serialized`; `std::to_string` of an
unsigned integer is its decimal rendering. -/
def serializeLoop : TrafficResult → String → String
  | [], serialized => serialized
  | (city, traffic) :: rest, serialized =>
    serializeLoop rest (serialized ++ (Nat.repr city ++ ":" ++ Nat.repr traffic ++ ","))

/-- `serializeTrafficResult(trafficResult)`. -/
def serializeTrafficResult (trafficResult : TrafficResult) : String :=
  let serialized := serializeLoop trafficResult ""
  if serialized ≠ "" then popBack serialized else serialized

/-- The renderings `city:traffic` joined by single commas, as the specification words
it. -/
def joinedRenderings (trafficResult : TrafficResult) : String :=
  String.intercalate "," (trafficResult.map (fun e => Nat.repr e.1 ++ ":" ++ Nat.repr e.2))

/-- The directed-edge cache after the batch on `testGraph3`, in the order in which the
entries were added. -/
def testGraph3Cache : CityPathTrafficCache :=
  [((1, 5), 0), ((2, 5), 0), ((3, 5), 0), ((4, 5), 0), ((5, 1), 9), ((1, 0), 14), ((5, 2), 8),
    ((2, 0), 13), ((5, 3), 7), ((3, 0), 12), ((5, 4), 6), ((4, 0), 11), ((5, 0), 10)]

/-! ## What every call keeps -/

/-- The state `s'` extends `s`: the working set has grown, every cache entry is kept, every
city keeps its neighbour sequence and every key of the graph its entry. -/
structure Extends (s s' : State) : Prop where
  grows : TrafficMapGrows s s'
  cache : ∀ k x, mapFind s.cityPathTrafficCache k = some x →
    mapFind s'.cityPathTrafficCache k = some x
  neighbours : ∀ v, neighboursOf s'.cityMap v = neighboursOf s.cityMap v
  entries : ∀ k l, mapFind s.cityMap k = some l → mapFind s'.cityMap k = some l

/-! ## The traversal with a log of its calls

The functions below are `traverseCitiesViaPath`, `computeMaximumTraffic` and
`computeOverallTrafficResult` again, returning in addition a log of the calls of
`traverseCitiesViaPath` in the order in which they return.  The log is not part of the
program; the theorems `..._erase` show that dropping it gives back the functions above. -/

/-- A completed call of `traverseCitiesViaPath`: its argument, whether the cache-miss body
was executed, and the state in which the call returned. -/
structure CallRecord where
  path : CityPath
  miss : Bool
  after : State
deriving DecidableEq

/-- The neighbour loop of `traverseCitiesViaPath`, with the log of the calls made. -/
def visitNeighboursLog (recurse : State → CityPath → Option (State × List CallRecord))
    (city : City) : Neighbourhood → State → Option (State × List CallRecord)
  | [], s => some (s, [])
  | neighbour :: rest, s =>
    match mapFind s.trafficMap neighbour with
    | some _ => visitNeighboursLog recurse city rest s
    | none =>
      match recurse { s with trafficMap := mapEmplace s.trafficMap neighbour 0 } (neighbour, city) with
      | none => none
      | some (s1, log1) =>
        match visitNeighboursLog recurse city rest s1 with
        | none => none
        | some (s2, log2) => some (s2, log1 ++ log2)

/-- `traverseCitiesViaPath(cityPath)`, with the log of the calls made, itself last. -/
def traverseCitiesViaPathLog : Nat → State → CityPath → Option (State × List CallRecord)
  | 0, _, _ => none
  | fuel + 1, s, cityPath =>
    match mapFind s.cityPathTrafficCache cityPath with
    | some cached =>
      let s' : State := { s with trafficMap := mapAssign s.trafficMap cityPath.1 cached }
      some (s', [⟨cityPath, false, s'⟩])
    | none =>
      let neighbourhood := (mapFind s.cityMap cityPath.1).getD []
      let s0 : State := { s with cityMap := mapEmplace s.cityMap cityPath.1 [] }
      match visitNeighboursLog (traverseCitiesViaPathLog fuel) cityPath.1 neighbourhood s0 with
      | none => none
      | some (s1, log) =>
        let r := computeTrafficFromNeighbourhood cityPath.2 neighbourhood s1.trafficMap
        let s' : State :=
          { cityMap := s1.cityMap
            trafficMap := mapAssign r.2 cityPath.1 r.1
            cityPathTrafficCache := mapEmplace s1.cityPathTrafficCache cityPath r.1 }
        some (s', log ++ [⟨cityPath, true, s'⟩])

/-- `computeMaximumTraffic(city)`, with the log of the calls of the traversal. -/
def computeMaximumTrafficLog (fuel : Nat) (s : State) (city : City) :
    Option (Traffic × State × List CallRecord) :=
  match traverseCitiesViaPathLog fuel s (city, 0) with
  | none => none
  | some (s1, log) =>
    let neighbourhood := (mapFind s1.cityMap city).getD []
    let r := maxTrafficLoop neighbourhood s1.trafficMap 0
    some (r.1, { s1 with cityMap := mapEmplace s1.cityMap city [], trafficMap := r.2 }, log)

/-- The evaluation of one root by the batch: the root, the state in which
`computeMaximumTraffic` was called, and the calls of the traversal it made. -/
structure RootRecord where
  city : City
  before : State
  calls : List CallRecord
deriving DecidableEq

/-- The root loop of `computeOverallTrafficResult`, with one record per root. -/
def overallLoopLog (fuel : Nat) :
    List City → State → TrafficResult → Option (TrafficResult × State × List RootRecord)
  | [], s, acc => some (acc, s, [])
  | city :: rest, s, acc =>
    match computeMaximumTrafficLog fuel s city with
    | none => none
    | some (t, s1, calls) =>
      match overallLoopLog fuel rest { s1 with trafficMap := [] } (acc ++ [(city, t)]) with
      | none => none
      | some (res, s2, roots) => some (res, s2, ⟨city, s, calls⟩ :: roots)

/-- `computeOverallTrafficResult()`, with one record per root. -/
def computeOverallTrafficResultLog (fuel : Nat) (s : State) :
    Option (TrafficResult × State × List RootRecord) :=
  match overallLoopLog fuel (mapKeys s.cityMap) s [] with
  | none => none
  | some (res, s1, roots) =>
    some (List.insertionSort (fun a b : CityTraffic => a.1 ≤ b.1) res, s1, roots)

/-- The directed edges on which the cache-miss body was executed, in order. -/
def missPaths (log : List CallRecord) : List CityPath :=
  (log.filter (fun r => r.miss)).map (fun r => r.path)

/-- All calls of the traversal made by a batch, root after root. -/
def allCalls : List RootRecord → List CallRecord
  | [] => []
  | r :: rest => r.calls ++ allCalls rest

/-- The postcondition of a call: the cache has an entry for the directed edge and the
working set holds the same value for its first city. -/
def RecordOK (r : CallRecord) : Prop :=
  ∃ x, mapFind r.after.cityPathTrafficCache r.path = some x ∧
    mapFind r.after.trafficMap r.path.1 = some x

/-- What the neighbour loop of a call guarantees about its log, from state `s` to `s'`. -/
structure LoopLog (s s' : State) (log : List CallRecord) : Prop where
  ext : Extends s s'
  keys : mapKeys s'.cityPathTrafficCache = mapKeys s.cityPathTrafficCache ++ missPaths log
  nodup : (mapKeys s.cityPathTrafficCache).Nodup → (mapKeys s'.cityPathTrafficCache).Nodup
  ok : ∀ r ∈ log, RecordOK r
  inner : ∀ r ∈ log, mapFind s.trafficMap r.path.1 = none ∧
    r.path.1 ∈ neighboursOf s.cityMap r.path.2

/-- What a call on the directed edge `p` guarantees about its log, from state `s` to
`s'`. -/
structure CallLog (s s' : State) (p : CityPath) (log : List CallRecord) : Prop where
  ext : Extends s s'
  keys : mapKeys s'.cityPathTrafficCache = mapKeys s.cityPathTrafficCache ++ missPaths log
  nodup : (mapKeys s.cityPathTrafficCache).Nodup → (mapKeys s'.cityPathTrafficCache).Nodup
  ok : ∀ r ∈ log, RecordOK r
  inner : ∀ r ∈ log, r.path = p ∨ (mapFind s.trafficMap r.path.1 = none ∧
    r.path.1 ∈ neighboursOf s.cityMap r.path.2)
  last : ∃ log' m, log = log' ++ [⟨p, m, s'⟩]

/-! ## Coverage of the directed edges -/

/-- Every neighbour `k` of `v` other than `p` that is in the working set has its directed
edge `(k, v)` in the cache. -/
def Covered (g : CityMap) (s : State) (v p : City) : Prop :=
  ∀ k ∈ neighboursOf g v, k ≠ p → mapFind s.trafficMap k ≠ none →
    mapFind s.cityPathTrafficCache (k, v) ≠ none

/-- The coverage part of the invariant of the neighbour loop of a call
`traverseCitiesViaPath((v, p))` whose loop started in state `s0`. -/
structure CovInv (g : CityMap) (s0 sc : State) (v p : City) : Prop where
  cov : Covered g sc v p
  up : mapFind sc.trafficMap p ≠ none ∨ Covered g sc p v
  keep : Covered g s0 p v → Covered g sc p v

/-! ## The directed edges of a graph -/

/-- The sentinel edges `(v, 0)`, one for each key `v` of the graph. -/
def sentinelPaths (g : CityMap) : List CityPath := (mapKeys g).map (fun v => (v, 0))

/-- The ordered pairs of adjacent cities: `(n, v)` for each neighbour `n` in the list of each
city `v`. -/
def orderedPairs : CityMap → List CityPath
  | [] => []
  | (v, l) :: rest => l.map (fun n => (n, v)) ++ orderedPairs rest

/-- The ordered pairs of adjacent cities, both taken in the set `V`. -/
def edgesWithin (g : CityMap) (V : Finset City) : Finset CityPath :=
  (V ×ˢ V).filter (fun q => q.1 ∈ neighboursOf g q.2)

/-- A cycle of 14 cities (`1:[2,14]`, `2:[1,3]`, ..., `14:[13,1]`), in the order in which
`cityMap` is iterated after the first `parseInput` of these lines: `14, 1, 2, ..., 13`
(observed with the hash table of GCC 12). -/
def cycle14First : CityMap :=
  [(14, [13, 1]), (1, [2, 14]), (2, [1, 3]), (3, [2, 4]), (4, [3, 5]), (5, [4, 6]), (6, [5, 7]),
    (7, [6, 8]), (8, [7, 9]), (9, [8, 10]), (10, [9, 11]), (11, [10, 12]), (12, [11, 13]),
    (13, [12, 14])]

/-- The same cycle, in the order in which `cityMap` is iterated after `resetDataStructures`
and a second `parseInput` of the same lines: `14, 13, ..., 1`; `clear()` keeps the bucket
array, so the second load fills another table than the first. -/
def cycle14Second : CityMap :=
  [(14, [13, 1]), (13, [12, 14]), (12, [11, 13]), (11, [10, 12]), (10, [9, 11]), (9, [8, 10]),
    (8, [7, 9]), (7, [6, 8]), (6, [5, 7]), (5, [4, 6]), (4, [3, 5]), (3, [2, 4]), (2, [1, 3]),
    (1, [2, 14])]

/-! ## Lemmas on the map operations -/

section MapLemmas
variable {κ β : Type} [DecidableEq κ]

theorem mapFind_append (m1 m2 : List (κ × β)) (k : κ) :
    mapFind (m1 ++ m2) k = (mapFind m1 k).orElse (fun _ => mapFind m2 k) := by
  induction m1 with
  | nil => simp [mapFind]
  | cons e rest ih =>
    obtain ⟨a, b⟩ := e
    by_cases h : a = k
    · simp [mapFind, h]
    · simp [mapFind, h, ih]

theorem mapFind_eq_none_iff (m : List (κ × β)) (k : κ) :
    mapFind m k = none ↔ k ∉ mapKeys m := by
  induction m with
  | nil => simp [mapFind, mapKeys]
  | cons e rest ih =>
    obtain ⟨a, b⟩ := e
    by_cases h : a = k
    · simp [mapFind, mapKeys, h]
    · have h2 : ¬ k = a := fun e => h e.symm
      simp only [mapKeys] at ih
      simp [mapFind, mapKeys, h, h2, ih]

theorem mapEmplace_of_some {m : List (κ × β)} {k : κ} {x : β} (v : β)
    (h : mapFind m k = some x) : mapEmplace m k v = m := by
  simp [mapEmplace, h]

theorem mapEmplace_of_none {m : List (κ × β)} {k : κ} (v : β)
    (h : mapFind m k = none) : mapEmplace m k v = m ++ [(k, v)] := by
  simp [mapEmplace, h]

theorem mapFind_mapEmplace_ne (m : List (κ × β)) {k j : κ} (v : β) (h : k ≠ j) :
    mapFind (mapEmplace m k v) j = mapFind m j := by
  unfold mapEmplace
  cases hk : mapFind m k with
  | some x => rfl
  | none =>
    simp only [mapFind_append, mapFind, h, if_false]
    cases mapFind m j <;> rfl

theorem mapFind_mapEmplace_self_of_none {m : List (κ × β)} {k : κ} (v : β)
    (h : mapFind m k = none) : mapFind (mapEmplace m k v) k = some v := by
  simp [mapEmplace, h, mapFind_append, mapFind]

theorem mapFind_mapEmplace_self (m : List (κ × β)) (k : κ) (v : β) :
    mapFind (mapEmplace m k v) k = some ((mapFind m k).getD v) := by
  cases h : mapFind m k with
  | some x => simp [mapEmplace, h]
  | none => simp [mapEmplace, h, mapFind_append, mapFind]

theorem mapFind_mapEmplace_ne_none (m : List (κ × β)) (k j : κ) (v : β)
    (h : mapFind m j ≠ none) : mapFind (mapEmplace m k v) j ≠ none := by
  by_cases hkj : k = j
  · subst hkj
    rw [mapFind_mapEmplace_self]
    simp
  · rwa [mapFind_mapEmplace_ne m v hkj]

theorem mapFind_mapAssign (m : List (κ × β)) (k j : κ) (v : β) :
    mapFind (mapAssign m k v) j = if k = j then some v else mapFind m j := by
  induction m with
  | nil => simp [mapAssign, mapFind]
  | cons e rest ih =>
    obtain ⟨a, b⟩ := e
    by_cases hak : a = k
    · subst hak
      by_cases haj : a = j
      · simp [mapAssign, mapFind, haj]
      · simp [mapAssign, mapFind, haj]
    · by_cases haj : a = j
      · subst haj
        have hka : ¬ k = a := fun e => hak e.symm
        simp [mapAssign, mapFind, hak, hka]
      · simp [mapAssign, mapFind, hak, haj, ih]

theorem mapFind_mapAssign_self (m : List (κ × β)) (k : κ) (v : β) :
    mapFind (mapAssign m k v) k = some v := by
  simp [mapFind_mapAssign]

theorem mapFind_mapAssign_ne (m : List (κ × β)) {k j : κ} (v : β) (h : k ≠ j) :
    mapFind (mapAssign m k v) j = mapFind m j := by
  simp [mapFind_mapAssign, h]

theorem mapKeys_mapAssign_of_some {m : List (κ × β)} {k : κ} {x : β} (v : β)
    (h : mapFind m k = some x) : mapKeys (mapAssign m k v) = mapKeys m := by
  induction m with
  | nil => simp [mapFind] at h
  | cons e rest ih =>
    obtain ⟨a, b⟩ := e
    by_cases hak : a = k
    · simp [mapAssign, mapKeys, hak]
    · simp only [mapFind, hak, if_false] at h
      have := ih h
      simp only [mapKeys] at this
      simp [mapAssign, mapKeys, hak, this]

end MapLemmas

/-! ## Fuel -/

theorem visitNeighbours_mono {r1 r2 : State → CityPath → Option State}
    (h : ∀ s p s', r1 s p = some s' → r2 s p = some s') (city : City) :
    ∀ (l : Neighbourhood) (s s' : State),
      visitNeighbours r1 city l s = some s' → visitNeighbours r2 city l s = some s' := by
  intro l
  induction l with
  | nil => intro s s' hs; simpa [visitNeighbours] using hs
  | cons n rest ih =>
    intro s s' hs
    simp only [visitNeighbours] at hs ⊢
    cases hf : mapFind s.trafficMap n with
    | some x =>
      simp only [hf] at hs ⊢
      exact ih _ _ hs
    | none =>
      simp only [hf] at hs ⊢
      cases hr : r1 { s with trafficMap := mapEmplace s.trafficMap n 0 } (n, city) with
      | none => simp [hr] at hs
      | some s1 =>
        simp only [hr] at hs
        simp only [h _ _ _ hr]
        exact ih _ _ hs

theorem traverseCitiesViaPath_succ :
    ∀ (fuel : Nat) (s : State) (p : CityPath) (s' : State),
      traverseCitiesViaPath fuel s p = some s' → traverseCitiesViaPath (fuel + 1) s p = some s' := by
  intro fuel
  induction fuel with
  | zero => intro s p s' h; simp [traverseCitiesViaPath] at h
  | succ f ih =>
    intro s p s' h
    rw [traverseCitiesViaPath] at h ⊢
    cases hc : mapFind s.cityPathTrafficCache p with
    | some c => simpa [hc] using h
    | none =>
      simp only [hc] at h ⊢
      cases hv : visitNeighbours (traverseCitiesViaPath f) p.1
          ((mapFind s.cityMap p.1).getD []) { s with cityMap := mapEmplace s.cityMap p.1 [] } with
      | none => simp [hv] at h
      | some s1 =>
        simp only [hv] at h
        simp only [visitNeighbours_mono ih p.1 _ _ _ hv]
        exact h

theorem traverseCitiesViaPath_mono {f1 f2 : Nat} (hle : f1 ≤ f2) {s : State} {p : CityPath}
    {s' : State} (h : traverseCitiesViaPath f1 s p = some s') :
    traverseCitiesViaPath f2 s p = some s' := by
  induction hle with
  | refl => exact h
  | step _ ih => exact traverseCitiesViaPath_succ _ _ _ _ ih

theorem computeMaximumTraffic_mono {f1 f2 : Nat} (hle : f1 ≤ f2) {s : State} {city : City}
    {r : Traffic × State} (h : computeMaximumTraffic f1 s city = some r) :
    computeMaximumTraffic f2 s city = some r := by
  unfold computeMaximumTraffic at h ⊢
  cases ht : traverseCitiesViaPath f1 s (city, 0) with
  | none => simp [ht] at h
  | some s1 =>
    simp only [ht] at h
    simp only [traverseCitiesViaPath_mono hle ht]
    exact h

theorem overallLoop_mono {f1 f2 : Nat} (hle : f1 ≤ f2) :
    ∀ (cities : List City) (s : State) (acc : TrafficResult) (r : TrafficResult × State),
      overallLoop f1 cities s acc = some r → overallLoop f2 cities s acc = some r := by
  intro cities
  induction cities with
  | nil => intro s acc r h; simpa [overallLoop] using h
  | cons c rest ih =>
    intro s acc r h
    simp only [overallLoop] at h ⊢
    cases hm : computeMaximumTraffic f1 s c with
    | none => simp [hm] at h
    | some ts =>
      obtain ⟨t, s1⟩ := ts
      simp only [hm] at h
      simp only [computeMaximumTraffic_mono hle hm]
      exact ih _ _ _ h

theorem computeOverallTrafficResult_mono {f1 f2 : Nat} (hle : f1 ≤ f2) {s : State}
    {r : TrafficResult × State} (h : computeOverallTrafficResult f1 s = some r) :
    computeOverallTrafficResult f2 s = some r := by
  unfold computeOverallTrafficResult at h ⊢
  cases ho : overallLoop f1 (mapKeys s.cityMap) s [] with
  | none => simp [ho] at h
  | some rs =>
    obtain ⟨res, s1⟩ := rs
    simp only [ho] at h
    simp only [overallLoop_mono hle _ _ _ _ ho]
    exact h

/-! ## Vertices without neighbours -/

/-- C7: when the neighbour sequence stored for `v` is empty, `computeMaximumTraffic(v)`
returns `0`, whatever the directed-edge cache and the working set hold (one unit of fuel is
enough, as no recursive call is made). -/
theorem computeMaximumTraffic_no_neighbours (fuel : Nat) (s : State) (v : City)
    (h : mapFind s.cityMap v = some []) :
    ∃ s', computeMaximumTraffic (fuel + 1) s v = some (0, s') := by
  unfold computeMaximumTraffic
  rw [traverseCitiesViaPath]
  cases hc : mapFind s.cityPathTrafficCache (v, 0) with
  | some c => simp [h, maxTrafficLoop]
  | none =>
    simp [h, visitNeighbours, mapEmplace_of_some [] h, maxTrafficLoop]

theorem computeMaximumTraffic_no_neighbours_witness :
    mapFind (State.mk testGraph1 [(13, 7), (1, 3)] [((13, 0), 99)]).cityMap 13 = some [] ∧
      ∃ s', computeMaximumTraffic (0 + 1)
        (State.mk testGraph1 [(13, 7), (1, 3)] [((13, 0), 99)]) 13 = some (0, s') :=
  ⟨by decide, computeMaximumTraffic_no_neighbours 0 _ 13 (by decide)⟩

/-! ## Absent cities, self-loops and the sentinel -/

/-- C8 (as stated, refuted): with `1:[2]` and no line for `2`, `computeMaximumTraffic(1)`
returns the value `2`; the absent city `2` has been added to the graph with an empty
neighbour list and resolved to `0`. -/
theorem absent_neighbour_returns_value :
    computeMaximumTraffic 2 (State.init [(1, [2])]) 1 =
      some (2, ⟨[(1, [2]), (2, [])], [(2, 0), (1, 2)], [((2, 1), 0), ((1, 0), 2)]⟩) := by
  decide

/-- C8 (amended): resolving a city that is not a key never fails.  On a cache miss
`operator[]` adds it to the graph with an empty neighbour list, its aggregate `0` is cached
for the directed edge and recorded in the working set. -/
theorem traverseCitiesViaPath_absent_city (fuel : Nat) (s : State) (n c : City)
    (habs : mapFind s.cityMap n = none) (hmiss : mapFind s.cityPathTrafficCache (n, c) = none) :
    traverseCitiesViaPath (fuel + 1) s (n, c) =
      some ⟨s.cityMap ++ [(n, [])], mapAssign s.trafficMap n 0,
        s.cityPathTrafficCache ++ [((n, c), 0)]⟩ := by
  rw [traverseCitiesViaPath]
  simp [hmiss, habs, visitNeighbours, computeTrafficFromNeighbourhood, computeTrafficLoop,
    mapEmplace_of_none]

theorem traverseCitiesViaPath_absent_city_witness :
    mapFind (State.mk [(1, [2])] [(2, 0)] []).cityMap 2 = none ∧
    mapFind (State.mk [(1, [2])] [(2, 0)] []).cityPathTrafficCache (2, 1) = none ∧
    traverseCitiesViaPath (0 + 1) (State.mk [(1, [2])] [(2, 0)] []) (2, 1) =
      some ⟨[(1, [2])] ++ [(2, [])], mapAssign [(2, 0)] 2 0, [] ++ [((2, 1), 0)]⟩ :=
  ⟨by decide, by decide,
    traverseCitiesViaPath_absent_city 0 (State.mk [(1, [2])] [(2, 0)] []) 2 1
      (by decide) (by decide)⟩

theorem getD_mapFind_mapEmplace_zero (tm : TrafficMap) (k n : City) :
    (mapFind (mapEmplace tm k 0) n).getD 0 = (mapFind tm n).getD 0 := by
  by_cases h : k = n
  · subst h
    rw [mapFind_mapEmplace_self]
    cases mapFind tm k <;> rfl
  · rw [mapFind_mapEmplace_ne tm 0 h]

theorem add_mod_mod_add (a b c : Nat) :
    ((a + b % UINT64_MOD) % UINT64_MOD + c) % UINT64_MOD = (a + (b + c)) % UINT64_MOD := by
  simp only [UINT64_MOD]
  omega

theorem computeTrafficLoop_fst (city : City) :
    ∀ (l : Neighbourhood) (tm : TrafficMap) (acc : Traffic), acc < UINT64_MOD →
      (computeTrafficLoop city l tm acc).1 =
        (acc + ((l.filter (fun n => n ≠ city)).map
          (fun n => n + (mapFind tm n).getD 0)).sum) % UINT64_MOD := by
  intro l
  induction l with
  | nil =>
    intro tm acc hacc
    simp [computeTrafficLoop, Nat.mod_eq_of_lt hacc]
  | cons n rest ih =>
    intro tm acc hacc
    by_cases hn : n = city
    · simp [computeTrafficLoop, hn, ih tm acc hacc]
    · have hpos : 0 < UINT64_MOD := by decide
      rw [computeTrafficLoop, if_pos hn, ih _ _ (Nat.mod_lt _ hpos)]
      simp only [getD_mapFind_mapEmplace_zero]
      have hf : List.filter (fun n => decide (n ≠ city)) (n :: rest) =
          n :: List.filter (fun n => decide (n ≠ city)) rest := by
        simp [List.filter, hn]
      rw [hf, List.map_cons, List.sum_cons]
      exact add_mod_mod_add _ _ _

/-- C9 (as stated, refuted): the single-city graph `1:[1]` yields maximum traffic `2` for
city `1`, not `0`: the self-loop is summed. -/
theorem self_loop_is_summed :
    (computeOverallTrafficResult 2 (State.init [(1, [1])])).map Prod.fst = some [(1, 2)] := by
  decide

/-- C9 (amended): on a cache miss the aggregate recorded for `vertex` is the sum, modulo
`2 ^ 64`, of `n + workingSet[n]` over the neighbours `n ≠ excluded` of `vertex`, read from
the working set left by the visits of the neighbours (an absent entry counts `0`); a
neighbour equal to `vertex` itself is summed like any other. -/
theorem traverseCitiesViaPath_miss_aggregate (fuel : Nat) (s s' : State) (vertex excluded : City)
    (hmiss : mapFind s.cityPathTrafficCache (vertex, excluded) = none)
    (h : traverseCitiesViaPath (fuel + 1) s (vertex, excluded) = some s') :
    ∃ s1, visitNeighbours (traverseCitiesViaPath fuel) vertex (neighboursOf s.cityMap vertex)
        { s with cityMap := mapEmplace s.cityMap vertex [] } = some s1 ∧
      mapFind s'.trafficMap vertex =
        some ((((neighboursOf s.cityMap vertex).filter (fun n => n ≠ excluded)).map
          (fun n => n + (mapFind s1.trafficMap n).getD 0)).sum % UINT64_MOD) := by
  rw [traverseCitiesViaPath] at h
  simp only [hmiss] at h
  unfold neighboursOf
  cases hv : visitNeighbours (traverseCitiesViaPath fuel) vertex
      ((mapFind s.cityMap vertex).getD []) { s with cityMap := mapEmplace s.cityMap vertex [] } with
  | none => simp [hv] at h
  | some s1 =>
    simp only [hv, Option.some.injEq] at h
    refine ⟨s1, rfl, ?_⟩
    subst h
    simp only [mapFind_mapAssign_self, computeTrafficFromNeighbourhood]
    rw [computeTrafficLoop_fst _ _ _ _ (by decide)]
    simp

theorem traverseCitiesViaPath_miss_aggregate_witness :
    mapFind (State.init [(1, [1])]).cityPathTrafficCache (1, 0) = none ∧
    traverseCitiesViaPath (1 + 1) (State.init [(1, [1])]) (1, 0) =
      some ⟨[(1, [1])], [(1, 1)], [((1, 1), 0), ((1, 0), 1)]⟩ ∧
    ∃ s1, visitNeighbours (traverseCitiesViaPath 1) 1 (neighboursOf (State.init [(1, [1])]).cityMap 1)
        { State.init [(1, [1])] with cityMap := mapEmplace (State.init [(1, [1])]).cityMap 1 [] } =
          some s1 ∧
      mapFind (State.mk [(1, [1])] [(1, 1)] [((1, 1), 0), ((1, 0), 1)]).trafficMap 1 =
        some ((((neighboursOf (State.init [(1, [1])]).cityMap 1).filter (fun n => n ≠ 0)).map
          (fun n => n + (mapFind s1.trafficMap n).getD 0)).sum % UINT64_MOD) :=
  ⟨by decide, by decide,
    traverseCitiesViaPath_miss_aggregate 1 (State.init [(1, [1])])
      ⟨[(1, [1])], [(1, 1)], [((1, 1), 0), ((1, 0), 1)]⟩ 1 0 (by decide) (by decide)⟩

/-! ## The parser and the sentinel -/

theorem mapKeys_appendNeighbour (cm : CityMap) (city neighbour : City) :
    mapKeys (appendNeighbour cm city neighbour) = mapKeys cm := by
  induction cm with
  | nil => rfl
  | cons e rest ih =>
    obtain ⟨a, l⟩ := e
    simp only [mapKeys] at ih
    by_cases h : a = city
    · simp [appendNeighbour, mapKeys, h]
    · simp [appendNeighbour, mapKeys, h, ih]

theorem mapKeys_parseNeighbours (key : City) :
    ∀ (fuel : Nat) (st : IStream) (city : City) (dummy : Char) (cm cm' : CityMap),
      parseNeighbours key fuel st city dummy cm = some cm' → mapKeys cm' = mapKeys cm := by
  intro fuel
  induction fuel with
  | zero => intro st city dummy cm cm' h; simp [parseNeighbours] at h
  | succ f ih =>
    intro st city dummy cm cm' h
    rw [parseNeighbours] at h
    split at h
    · rw [ih _ _ _ _ _ h, mapKeys_appendNeighbour]
    · simp only [Option.some.injEq] at h
      rw [← h, mapKeys_appendNeighbour]

theorem mem_mapKeys_mapEmplace_self (cm : CityMap) (k : City) (v : Neighbourhood) :
    k ∈ mapKeys (mapEmplace cm k v) := by
  by_contra h
  rw [← mapFind_eq_none_iff, mapFind_mapEmplace_self] at h
  simp at h

theorem mem_mapKeys_mapEmplace (cm : CityMap) (k j : City) (v : Neighbourhood)
    (h : j ∈ mapKeys cm) : j ∈ mapKeys (mapEmplace cm k v) := by
  by_contra hc
  rw [← mapFind_eq_none_iff] at hc
  exact mapFind_mapEmplace_ne_none cm k j v (by rwa [ne_eq, mapFind_eq_none_iff, not_not]) hc

theorem parseDescription_keys (description : String) (cm cm' : CityMap)
    (h : parseDescription description cm = some cm') :
    (extractCity ⟨description.toList, false⟩ 0).1 ∈ mapKeys cm' ∧
      ∀ j, j ∈ mapKeys cm → j ∈ mapKeys cm' := by
  unfold parseDescription at h
  simp only at h
  split at h
  · simp only [Option.some.injEq] at h
    subst h
    exact ⟨mem_mapKeys_mapEmplace_self _ _ _, fun j hj => mem_mapKeys_mapEmplace _ _ _ _ hj⟩
  · rw [mapKeys_parseNeighbours _ _ _ _ _ _ _ h]
    exact ⟨mem_mapKeys_mapEmplace_self _ _ _, fun j hj => mem_mapKeys_mapEmplace _ _ _ _ hj⟩

theorem parseInput_keys_mono :
    ∀ (input : List String) (cm cm' : CityMap), parseInput input cm = some cm' →
      ∀ j, j ∈ mapKeys cm → j ∈ mapKeys cm' := by
  intro input
  induction input with
  | nil => intro cm cm' h j hj; simp only [parseInput, Option.some.injEq] at h; rwa [← h]
  | cons d rest ih =>
    intro cm cm' h j hj
    simp only [parseInput] at h
    cases hd : parseDescription d cm with
    | none => simp [hd] at h
    | some cm1 =>
      simp only [hd] at h
      exact ih _ _ h j ((parseDescription_keys d cm cm1 hd).2 j hj)

/-- C10 (as stated, refuted): the lines `0:[1]` and `1:[0]` are accepted by `parseInput`,
which yields a graph with city `0`, and the batch runs on that graph and returns a
result. -/
theorem sentinel_city_is_accepted :
    parseInput ["0:[1]", "1:[0]"] [] = some [(0, [1]), (1, [0])] ∧
      (computeOverallTrafficResult 3 (State.init [(0, [1]), (1, [0])])).map Prod.fst =
        some [(0, 1), (1, 0)] := by
  decide

/-- C10 (amended): `parseInput` checks no identifier.  Whenever it returns, the city read
at the start of each description line is a key of the graph, whatever its value; a line
that starts with `0` therefore makes `0` a city, and nothing stands between `parseInput`
and the traversal. -/
theorem parseInput_adds_every_city :
    ∀ (input : List String) (cm cm' : CityMap), parseInput input cm = some cm' →
      ∀ description, description ∈ input →
        (extractCity ⟨description.toList, false⟩ 0).1 ∈ mapKeys cm' := by
  intro input
  induction input with
  | nil => intro cm cm' _ d hd; simp at hd
  | cons d rest ih =>
    intro cm cm' h description hmem
    simp only [parseInput] at h
    cases hd : parseDescription d cm with
    | none => simp [hd] at h
    | some cm1 =>
      simp only [hd] at h
      rcases List.mem_cons.1 hmem with heq | hrest
      · subst heq
        exact parseInput_keys_mono rest cm1 cm' h _ (parseDescription_keys _ cm cm1 hd).1
      · exact ih cm1 cm' h description hrest

theorem parseInput_adds_every_city_witness :
    parseInput ["0:[]", "1:[0]"] [] = some [(0, []), (1, [0])] ∧ "0:[]" ∈ ["0:[]", "1:[0]"] ∧
      (extractCity ⟨"0:[]".toList, false⟩ 0).1 ∈ mapKeys [(0, ([] : Neighbourhood)), (1, [0])] :=
  ⟨by decide, by decide,
    parseInput_adds_every_city ["0:[]", "1:[0]"] [] [(0, []), (1, [0])] (by decide) "0:[]"
      (by decide)⟩

/-! ## The test data, in the order of the description lines -/

theorem parseInput_testGraph1 :
    parseInput ["1:[2,7,8]", "2:[1,3,6]", "3:[2,4,5]", "4:[3]", "5:[3]", "6:[2]", "7:[1]",
      "8:[1,9,12]", "9:[8,10,11]", "10:[9]", "11:[9]", "12:[8]", "13:[]"] [] = some testGraph1 := by
  decide

theorem parseInput_testGraph3 :
    parseInput ["1:[5]", "2:[5]", "3:[5]", "4:[5]", "5:[1,2,3,4]"] [] = some testGraph3 := by
  decide

theorem parseInput_testGraph4 :
    parseInput ["1:[5]", "2:[5,18]", "3:[5,12]", "4:[5]", "5:[1,2,3,4]", "18:[2]", "12:[3]"] [] =
      some testGraph4 := by
  decide

/-! ## Results for larger fuel -/

theorem computeOverallTrafficResult_fst_mono {f1 f2 : Nat} (hle : f1 ≤ f2) {s : State}
    {res : TrafficResult} (h : (computeOverallTrafficResult f1 s).map Prod.fst = some res) :
    (computeOverallTrafficResult f2 s).map Prod.fst = some res := by
  cases hr : computeOverallTrafficResult f1 s with
  | none => simp [hr] at h
  | some r =>
    rw [computeOverallTrafficResult_mono hle hr]
    rw [hr] at h
    exact h

/-! ## Termination -/

theorem allNeighbours_append (g1 g2 : CityMap) :
    allNeighbours (g1 ++ g2) = allNeighbours g1 ++ allNeighbours g2 := by
  induction g1 with
  | nil => rfl
  | cons e rest ih =>
    obtain ⟨a, l⟩ := e
    simp [allNeighbours, ih]

theorem allNeighbours_mapEmplace_nil (g : CityMap) (k : City) :
    allNeighbours (mapEmplace g k []) = allNeighbours g := by
  unfold mapEmplace
  cases mapFind g k with
  | some x => rfl
  | none => simp [allNeighbours_append, allNeighbours]

theorem mem_allNeighbours_of_mapFind {g : CityMap} {k : City} {l : Neighbourhood}
    (h : mapFind g k = some l) {x : City} (hx : x ∈ l) : x ∈ allNeighbours g := by
  induction g with
  | nil => simp [mapFind] at h
  | cons e rest ih =>
    obtain ⟨a, l0⟩ := e
    by_cases hak : a = k
    · simp only [mapFind, hak, if_true, Option.some.injEq] at h
      subst h
      simp [allNeighbours, hx]
    · simp only [mapFind, hak, if_false] at h
      simp [allNeighbours, ih h]

theorem mem_allNeighbours_of_mem_neighboursOf {g : CityMap} {k x : City}
    (hx : x ∈ neighboursOf g k) : x ∈ allNeighbours g := by
  unfold neighboursOf at hx
  cases h : mapFind g k with
  | none => simp [h] at hx
  | some l =>
    rw [h] at hx
    exact mem_allNeighbours_of_mapFind h hx

theorem unvisited_card_le {s s' : State}
    (hg : allNeighbours s'.cityMap = allNeighbours s.cityMap) (hd : TrafficMapGrows s s') :
    (unvisited s').card ≤ (unvisited s).card := by
  apply Finset.card_le_card
  intro x hx
  simp only [unvisited, Finset.mem_filter, List.mem_toFinset] at hx ⊢
  refine ⟨hg ▸ hx.1, ?_⟩
  by_contra hc
  exact hd x hc hx.2

theorem unvisited_card_lt_of_emplace {s : State} {n : City}
    (hn : n ∈ allNeighbours s.cityMap) (hf : mapFind s.trafficMap n = none) :
    (unvisited { s with trafficMap := mapEmplace s.trafficMap n 0 }).card < (unvisited s).card := by
  apply Finset.card_lt_card
  rw [Finset.ssubset_iff_of_subset]
  · refine ⟨n, ?_, ?_⟩
    · simp [unvisited, hn, hf]
    · simp [unvisited, mapFind_mapEmplace_self]
  · intro x hx
    simp only [unvisited, Finset.mem_filter, List.mem_toFinset] at hx ⊢
    refine ⟨hx.1, ?_⟩
    by_contra hc
    exact mapFind_mapEmplace_ne_none _ n x 0 hc hx.2

theorem computeTrafficLoop_grows (city : City) :
    ∀ (l : Neighbourhood) (tm : TrafficMap) (acc : Traffic) (x : City),
      mapFind tm x ≠ none → mapFind (computeTrafficLoop city l tm acc).2 x ≠ none := by
  intro l
  induction l with
  | nil => intro tm acc x h; simpa [computeTrafficLoop] using h
  | cons n rest ih =>
    intro tm acc x h
    rw [computeTrafficLoop]
    split
    · exact ih _ _ _ (mapFind_mapEmplace_ne_none _ _ _ _ h)
    · exact ih _ _ _ h

theorem visitNeighbours_terminates {recurse : State → CityPath → Option State} {fuel : Nat}
    (hrec : ∀ s p, (unvisited s).card < fuel → ∃ s', recurse s p = some s' ∧
      allNeighbours s'.cityMap = allNeighbours s.cityMap ∧ TrafficMapGrows s s')
    (city : City) :
    ∀ (l : Neighbourhood) (s : State), (∀ x ∈ l, x ∈ allNeighbours s.cityMap) →
      (unvisited s).card ≤ fuel →
      ∃ s', visitNeighbours recurse city l s = some s' ∧
        allNeighbours s'.cityMap = allNeighbours s.cityMap ∧ TrafficMapGrows s s' := by
  intro l
  induction l with
  | nil => intro s _ _; exact ⟨s, rfl, rfl, fun x h => h⟩
  | cons n rest ih =>
    intro s hl hcard
    simp only [visitNeighbours]
    cases hf : mapFind s.trafficMap n with
    | some t =>
      exact ih s (fun x hx => hl x (List.mem_cons_of_mem _ hx)) hcard
    | none =>
      have hn : n ∈ allNeighbours s.cityMap := hl n (List.mem_cons_self _ _)
      have hlt := unvisited_card_lt_of_emplace hn hf
      obtain ⟨s1, hs1, hg1, hd1⟩ := hrec { s with trafficMap := mapEmplace s.trafficMap n 0 }
        (n, city) (by omega)
      simp only [hs1]
      have hg1' : allNeighbours s1.cityMap = allNeighbours s.cityMap := hg1
      have hcard1 : (unvisited s1).card ≤ fuel := by
        have := unvisited_card_le hg1 hd1
        omega
      obtain ⟨s2, hs2, hg2, hd2⟩ := ih s1
        (fun x hx => hg1' ▸ hl x (List.mem_cons_of_mem _ hx)) hcard1
      refine ⟨s2, hs2, hg2.trans hg1', ?_⟩
      intro x hx
      exact hd2 x (hd1 x (mapFind_mapEmplace_ne_none _ _ _ _ hx))

theorem traverseCitiesViaPath_terminates :
    ∀ (fuel : Nat) (s : State) (p : CityPath), (unvisited s).card < fuel →
      ∃ s', traverseCitiesViaPath fuel s p = some s' ∧
        allNeighbours s'.cityMap = allNeighbours s.cityMap ∧ TrafficMapGrows s s' := by
  intro fuel
  induction fuel with
  | zero => intro s p h; omega
  | succ f ih =>
    intro s p hcard
    rw [traverseCitiesViaPath]
    cases hc : mapFind s.cityPathTrafficCache p with
    | some c =>
      refine ⟨_, rfl, rfl, ?_⟩
      intro x hx
      simp only [mapFind_mapAssign]
      split
      · simp
      · exact hx
    | none =>
      simp only
      have hsub : ∀ x ∈ (mapFind s.cityMap p.1).getD [],
          x ∈ allNeighbours ({ s with cityMap := mapEmplace s.cityMap p.1 [] } : State).cityMap := by
        intro x hx
        simp only [allNeighbours_mapEmplace_nil]
        exact mem_allNeighbours_of_mem_neighboursOf hx
      have hcard0 : (unvisited ({ s with cityMap := mapEmplace s.cityMap p.1 [] } : State)).card ≤ f := by
        have : unvisited ({ s with cityMap := mapEmplace s.cityMap p.1 [] } : State) = unvisited s := by
          simp [unvisited, allNeighbours_mapEmplace_nil]
        rw [this]
        omega
      obtain ⟨s1, hs1, hg1, hd1⟩ := visitNeighbours_terminates ih p.1 _ _ hsub hcard0
      simp only [hs1]
      refine ⟨_, rfl, ?_, ?_⟩
      · simpa [allNeighbours_mapEmplace_nil] using hg1
      · intro x hx
        simp only [mapFind_mapAssign]
        split
        · simp
        · exact computeTrafficLoop_grows _ _ _ _ _ (hd1 x hx)

/-! ## Checking a concrete graph -/

theorem forall_neighboursOf {Q : City → Neighbourhood → Prop} (g : CityMap)
    (hnil : ∀ u, Q u []) (h : ∀ e ∈ g, Q e.1 (neighboursOf g e.1)) :
    ∀ u, Q u (neighboursOf g u) := by
  intro u
  by_cases hu : u ∈ mapKeys g
  · simp only [mapKeys, List.mem_map] at hu
    obtain ⟨e, he, rfl⟩ := hu
    exact h e he
  · have hnone : mapFind g u = none := (mapFind_eq_none_iff g u).2 hu
    simpa [neighboursOf, hnone] using hnil u

theorem neighboursAreKeys_of_entries (g : CityMap)
    (h : ∀ e ∈ g, ∀ v ∈ neighboursOf g e.1, v ∈ mapKeys g) : NeighboursAreKeys g :=
  forall_neighboursOf (Q := fun _ l => ∀ v ∈ l, v ∈ mapKeys g) g (fun _ v hv => by simp at hv) h

theorem symmetric_of_entries (g : CityMap)
    (h : ∀ e ∈ g, ∀ v ∈ neighboursOf g e.1, e.1 ∈ neighboursOf g v) : Symmetric g :=
  forall_neighboursOf (Q := fun u l => ∀ v ∈ l, u ∈ neighboursOf g v) g
    (fun _ v hv => by simp at hv) h

theorem noSelfLoop_of_entries (g : CityMap)
    (h : ∀ e ∈ g, e.1 ∉ neighboursOf g e.1) : NoSelfLoop g :=
  forall_neighboursOf (Q := fun u l => u ∉ l) g (fun _ => by simp) h

theorem noRepeatedNeighbour_of_entries (g : CityMap)
    (h : ∀ e ∈ g, (neighboursOf g e.1).Nodup) : NoRepeatedNeighbour g :=
  forall_neighboursOf (Q := fun _ l => l.Nodup) g (fun _ => List.nodup_nil) h

/-! ## The batch returns, with one entry per city in ascending order -/

theorem computeMaximumTraffic_terminates (fuel : Nat) (s : State) (city : City)
    (h : (unvisited s).card < fuel) :
    ∃ t s', computeMaximumTraffic fuel s city = some (t, s') ∧
      allNeighbours s'.cityMap = allNeighbours s.cityMap := by
  obtain ⟨s1, hs1, hg1, _⟩ := traverseCitiesViaPath_terminates fuel s (city, 0) h
  unfold computeMaximumTraffic
  simp only [hs1]
  refine ⟨_, _, rfl, ?_⟩
  simpa [allNeighbours_mapEmplace_nil] using hg1

theorem unvisited_card_le_allNeighbours (s : State) :
    (unvisited s).card ≤ (allNeighbours s.cityMap).toFinset.card :=
  Finset.card_le_card (Finset.filter_subset _ _)

theorem overallLoop_terminates (fuel : Nat) :
    ∀ (cities : List City) (s : State) (acc : TrafficResult),
      (allNeighbours s.cityMap).toFinset.card < fuel →
      ∃ res s', overallLoop fuel cities s acc = some (res, s') ∧
        res.map Prod.fst = acc.map Prod.fst ++ cities := by
  intro cities
  induction cities with
  | nil => intro s acc _; exact ⟨acc, s, rfl, by simp⟩
  | cons c rest ih =>
    intro s acc hcard
    obtain ⟨t, s1, hs1, hg1⟩ := computeMaximumTraffic_terminates fuel s c
      (lt_of_le_of_lt (unvisited_card_le_allNeighbours s) hcard)
    simp only [overallLoop, hs1]
    have hg : allNeighbours ({ s1 with trafficMap := [] } : State).cityMap =
        allNeighbours s.cityMap := hg1
    obtain ⟨res, s2, hres, hfst⟩ := ih { s1 with trafficMap := [] } (acc ++ [(c, t)])
      (by rw [hg]; exact hcard)
    exact ⟨res, s2, hres, by simp [hfst]⟩

theorem mem_allNeighbours_iff_of_uniqueKeys {g : CityMap} (hu : UniqueKeys g) {x : City}
    (hx : x ∈ allNeighbours g) : ∃ u, x ∈ neighboursOf g u := by
  induction g with
  | nil => simp [allNeighbours] at hx
  | cons e rest ih =>
    obtain ⟨a, l⟩ := e
    simp only [allNeighbours, List.mem_append] at hx
    simp only [UniqueKeys, mapKeys, List.map_cons, List.nodup_cons] at hu
    rcases hx with hx | hx
    · exact ⟨a, by simp [neighboursOf, mapFind, hx]⟩
    · obtain ⟨u, hu2⟩ := ih hu.2 hx
      refine ⟨u, ?_⟩
      have hne : a ≠ u := by
        intro hau
        subst hau
        have hnone : mapFind rest a = none := (mapFind_eq_none_iff rest a).2 hu.1
        simp [neighboursOf, hnone] at hu2
      simpa [neighboursOf, mapFind, hne] using hu2

theorem allNeighbours_card_le {g : CityMap} (hu : UniqueKeys g) (hk : NeighboursAreKeys g) :
    (allNeighbours g).toFinset.card ≤ g.length := by
  have hsub : (allNeighbours g).toFinset ⊆ (mapKeys g).toFinset := by
    intro x hx
    rw [List.mem_toFinset] at hx ⊢
    obtain ⟨u, hxu⟩ := mem_allNeighbours_iff_of_uniqueKeys hu hx
    exact hk u x hxu
  calc (allNeighbours g).toFinset.card ≤ (mapKeys g).toFinset.card := Finset.card_le_card hsub
    _ ≤ (mapKeys g).length := List.toFinset_card_le _
    _ = g.length := by simp [mapKeys]

theorem map_fst_insertionSort (res : TrafficResult) :
    (List.insertionSort (fun a b : CityTraffic => a.1 ≤ b.1) res).map Prod.fst =
      List.insertionSort (fun a b : City => a ≤ b) (res.map Prod.fst) :=
  List.map_insertionSort (fun a b : CityTraffic => a.1 ≤ b.1) (fun a b : City => a ≤ b)
    Prod.fst res (fun _ _ _ _ => Iff.rfl)

theorem computeOverallTrafficResult_cities (fuel : Nat) (s : State)
    (hcard : (allNeighbours s.cityMap).toFinset.card < fuel) :
    ∃ res s', computeOverallTrafficResult fuel s = some (res, s') ∧
      res.map Prod.fst = List.insertionSort (fun a b : City => a ≤ b) (mapKeys s.cityMap) := by
  obtain ⟨res, s1, hres, hfst⟩ := overallLoop_terminates fuel (mapKeys s.cityMap) s [] hcard
  unfold computeOverallTrafficResult
  simp only [hres]
  refine ⟨_, _, rfl, ?_⟩
  rw [map_fst_insertionSort, hfst]
  simp

/-- C3: when every neighbour is a key (and the keys are pairwise distinct, as in every
map), the batch returns, and the cities of the returned sequence are strictly ascending
and are exactly the keys of the graph, each once. -/
theorem computeOverallTrafficResult_sorted (fuel : Nat) (s : State)
    (hunique : UniqueKeys s.cityMap) (hkeys : NeighboursAreKeys s.cityMap)
    (hfuel : s.cityMap.length < fuel) :
    ∃ res s', computeOverallTrafficResult fuel s = some (res, s') ∧
      (res.map Prod.fst).Sorted (fun a b => a < b) ∧
      (res.map Prod.fst).Perm (mapKeys s.cityMap) := by
  obtain ⟨res, s', hres, hfst⟩ := computeOverallTrafficResult_cities fuel s
    (lt_of_le_of_lt (allNeighbours_card_le hunique hkeys) hfuel)
  refine ⟨res, s', hres, ?_, ?_⟩
  · rw [hfst]
    have hsorted : List.Sorted (fun a b : City => a ≤ b)
        (List.insertionSort (fun a b : City => a ≤ b) (mapKeys s.cityMap)) :=
      List.sorted_insertionSort _ _
    have hnodup : (List.insertionSort (fun a b : City => a ≤ b) (mapKeys s.cityMap)).Nodup :=
      (List.perm_insertionSort _ _).nodup_iff.2 hunique
    exact hsorted.lt_of_le hnodup
  · rw [hfst]
    exact List.perm_insertionSort _ _

theorem computeOverallTrafficResult_sorted_witness :
    UniqueKeys (State.init testGraph4).cityMap ∧ NeighboursAreKeys (State.init testGraph4).cityMap ∧
      (State.init testGraph4).cityMap.length < 8 ∧
      ∃ res s', computeOverallTrafficResult 8 (State.init testGraph4) = some (res, s') ∧
        (res.map Prod.fst).Sorted (fun a b => a < b) ∧
        (res.map Prod.fst).Perm (mapKeys (State.init testGraph4).cityMap) :=
  have hu : UniqueKeys (State.init testGraph4).cityMap := by unfold UniqueKeys; decide
  have hk : NeighboursAreKeys (State.init testGraph4).cityMap :=
    neighboursAreKeys_of_entries _ (by decide)
  ⟨hu, hk, by decide, computeOverallTrafficResult_sorted 8 (State.init testGraph4) hu hk (by decide)⟩

/-! ## Walks -/

theorem isNBWalk_cons_cons (g : CityMap) (a b : City) (rest : List City) :
    IsNBWalk g (a :: b :: rest) ↔
      b ∈ neighboursOf g a ∧ (∀ c, rest.head? = some c → c ≠ a) ∧ IsNBWalk g (b :: rest) := by
  rw [IsNBWalk]

theorem head?_append_singleton_eq (l : List City) (y : City) (t : List City) :
    (l ++ y :: t).head? = (l ++ [y]).head? := by
  cases l <;> rfl

theorem IsNBWalk.snoc {g : CityMap} :
    ∀ (m : List City) (y z : City), IsNBWalk g (m ++ [y]) → z ∈ neighboursOf g y →
      (∀ p, m.getLast? = some p → p ≠ z) → IsNBWalk g (m ++ [y, z]) := by
  intro m
  induction m with
  | nil =>
    intro y z _ hz _
    simp [IsNBWalk, hz]
  | cons p m' ih =>
    intro y z h hz hlast
    cases m' with
    | nil =>
      simp only [List.cons_append, List.nil_append, isNBWalk_cons_cons] at h ⊢
      refine ⟨h.1, ?_, hz, by simp, by simp [IsNBWalk]⟩
      intro c hc
      simp only [List.head?_cons, Option.some.injEq] at hc
      subst hc
      exact fun e => hlast p (by simp) e.symm
    | cons q m'' =>
      simp only [List.cons_append, isNBWalk_cons_cons] at h ⊢
      refine ⟨h.1, ?_, ?_⟩
      · intro c hc
        rw [head?_append_singleton_eq] at hc
        exact h.2.1 c hc
      · have := ih y z (by simpa [isNBWalk_cons_cons] using h.2.2) hz
          (fun p' hp' => hlast p' (by simpa using hp'))
        simpa [isNBWalk_cons_cons] using this

theorem IsNBWalk.reverse {g : CityMap} (hsym : Symmetric g) :
    ∀ (l : List City), IsNBWalk g l → IsNBWalk g l.reverse := by
  intro l
  induction l with
  | nil => intro _; simp [IsNBWalk]
  | cons a l' ih =>
    intro h
    cases l' with
    | nil => simp [IsNBWalk]
    | cons b rest =>
      rw [isNBWalk_cons_cons] at h
      have hrev := ih h.2.2
      have : (a :: b :: rest).reverse = rest.reverse ++ [b, a] := by simp
      rw [this]
      apply IsNBWalk.snoc
      · simpa using hrev
      · exact hsym a b h.1
      · intro p hp
        rw [List.getLast?_reverse] at hp
        exact h.2.1 p hp

theorem IsNBWalk.append {g : CityMap} :
    ∀ (l : List City) (v : City) (t : List City), IsNBWalk g (l ++ [v]) → IsNBWalk g (v :: t) →
      (∀ a b, l.getLast? = some a → t.head? = some b → a ≠ b) → IsNBWalk g (l ++ v :: t) := by
  intro l
  induction l with
  | nil => intro v t _ ht _; simpa using ht
  | cons a l' ih =>
    intro v t hl ht hj
    cases l' with
    | nil =>
      simp only [List.cons_append, List.nil_append, isNBWalk_cons_cons] at hl ⊢
      refine ⟨hl.1, ?_, ht⟩
      intro c hc
      exact fun e => hj a c (by simp) hc e.symm
    | cons a' l'' =>
      simp only [List.cons_append, isNBWalk_cons_cons] at hl ⊢
      refine ⟨hl.1, ?_, ?_⟩
      · intro c hc
        rw [head?_append_singleton_eq] at hc
        exact hl.2.1 c hc
      · have := ih v t (by simpa [isNBWalk_cons_cons] using hl.2.2) ht
          (fun x y hx hy => hj x y (by simpa using hx) hy)
        simpa [isNBWalk_cons_cons] using this

theorem IsNBWalk.tail {g : CityMap} {a : City} {l : List City} (h : IsNBWalk g (a :: l)) :
    IsNBWalk g l := by
  cases l with
  | nil => simp [IsNBWalk]
  | cons b rest => exact ((isNBWalk_cons_cons g a b rest).1 h).2.2

/-! ## Branches -/

theorem Forest.noSelfLoop {g : CityMap} (hf : Forest g) : NoSelfLoop g := by
  intro v hv
  have := hf [v, v] (by simp [IsNBWalk, hv])
  simp at this

theorem InBranch.self {g : CityMap} {v k : City} (hk : k ∈ neighboursOf g v) :
    InBranch g v k k :=
  ⟨[], by simp [IsNBWalk, hk], by simp⟩

theorem InBranch.ne_start {g : CityMap} (hf : Forest g) {v k x : City} (h : InBranch g v k x) :
    x ≠ v := by
  obtain ⟨w, hw, hx⟩ := h
  have hnd := hf _ hw
  rw [List.nodup_cons] at hnd
  exact fun e => hnd.1 (e ▸ hx)

theorem InBranch.extend {g : CityMap} {v k j x : City} (hk : k ∈ neighboursOf g v)
    (hj : j ≠ v) (h : InBranch g k j x) : InBranch g v k x := by
  obtain ⟨w, hw, hx⟩ := h
  refine ⟨j :: w, ?_, List.mem_cons_of_mem _ hx⟩
  rw [isNBWalk_cons_cons]
  refine ⟨hk, ?_, hw⟩
  intro c hc
  simp only [List.head?_cons, Option.some.injEq] at hc
  exact hc ▸ hj

theorem InBranch.disjoint {g : CityMap} (hf : Forest g) (hsym : Symmetric g) {v k k' x : City}
    (hne : k ≠ k') (h : InBranch g v k x) (h' : InBranch g v k' x) : False := by
  obtain ⟨w, hw, hx⟩ := h
  obtain ⟨w', hw', hx'⟩ := h'
  have hrev := IsNBWalk.reverse hsym _ hw'
  have hrev' : IsNBWalk g ((k' :: w').reverse ++ [v]) := by simpa using hrev
  have hjoin := IsNBWalk.append (k' :: w').reverse v (k :: w) hrev' hw (by
    intro a b ha hb
    rw [List.getLast?_reverse] at ha
    simp only [List.head?_cons, Option.some.injEq] at ha hb
    rw [← ha, ← hb]
    exact fun e => hne e.symm)
  have hnd := hf _ hjoin
  rw [List.nodup_append] at hnd
  exact hnd.2.2 (List.mem_reverse.2 hx') (List.mem_cons_of_mem _ hx)

/-! ## The reference recursion -/

theorem refSum_mono {T1 T2 : City → Option Traffic}
    (h : ∀ m t, T1 m = some t → T2 m = some t) :
    ∀ (l : List City) (x : Nat), refSum T1 l = some x → refSum T2 l = some x := by
  intro l
  induction l with
  | nil => intro x hx; simpa [refSum] using hx
  | cons m rest ih =>
    intro x hx
    rw [refSum] at hx ⊢
    cases h1 : T1 m with
    | none => simp [h1] at hx
    | some t =>
      cases h2 : refSum T1 rest with
      | none => simp [h1, h2] at hx
      | some acc =>
        simp only [h1, h2] at hx
        simp only [h m t h1, ih acc h2]
        exact hx

theorem refTraffic_succ (g : CityMap) :
    ∀ (fuel : Nat) (n p : City) (t : Traffic),
      refTraffic g fuel n p = some t → refTraffic g (fuel + 1) n p = some t := by
  intro fuel
  induction fuel with
  | zero => intro n p t h; simp [refTraffic] at h
  | succ f ih =>
    intro n p t h
    rw [refTraffic] at h ⊢
    cases hs : refSum (fun m => refTraffic g f m n)
        ((neighboursOf g n).filter (fun m => m ≠ p)) with
    | none => rw [hs] at h; simp at h
    | some x =>
      rw [hs] at h
      rw [refSum_mono (fun m t hm => ih m n t hm) _ _ hs]
      exact h

theorem refTraffic_mono (g : CityMap) {f1 f2 : Nat} (hle : f1 ≤ f2) {n p : City} {t : Traffic}
    (h : refTraffic g f1 n p = some t) : refTraffic g f2 n p = some t := by
  induction hle with
  | refl => exact h
  | step _ ih => exact refTraffic_succ g _ _ _ _ ih

theorem IsTraffic.unique {g : CityMap} {n p : City} {t t' : Traffic}
    (h : IsTraffic g n p t) (h' : IsTraffic g n p t') : t = t' := by
  obtain ⟨f, hf⟩ := h
  obtain ⟨f', hf'⟩ := h'
  have h1 := refTraffic_mono g (Nat.le_max_left f f') hf
  have h2 := refTraffic_mono g (Nat.le_max_right f f') hf'
  rw [h1] at h2
  exact Option.some.inj h2

/-- A common fuel for the settled entries of a list of neighbours. -/
theorem exists_common_fuel (g : CityMap) (tm : TrafficMap) (v : City) :
    ∀ (l : List City), (∀ k ∈ l, ∃ t, mapFind tm k = some t ∧ IsTraffic g k v t) →
      ∃ fuel, ∀ k ∈ l, ∃ t, mapFind tm k = some t ∧ refTraffic g fuel k v = some t := by
  intro l
  induction l with
  | nil => intro _; exact ⟨0, fun k hk => by simp at hk⟩
  | cons a rest ih =>
    intro h
    obtain ⟨f, hf⟩ := ih (fun k hk => h k (List.mem_cons_of_mem _ hk))
    obtain ⟨t, ht, f', hf'⟩ := h a (List.mem_cons_self _ _)
    refine ⟨max f f', ?_⟩
    intro k hk
    rcases List.mem_cons.1 hk with rfl | hk
    · exact ⟨t, ht, refTraffic_mono g (Nat.le_max_right _ _) hf'⟩
    · obtain ⟨t', ht', hft'⟩ := hf k hk
      exact ⟨t', ht', refTraffic_mono g (Nat.le_max_left _ _) hft'⟩

theorem refSum_of_settled (g : CityMap) (tm : TrafficMap) (v : City) (fuel : Nat) :
    ∀ (l : List City), (∀ k ∈ l, ∃ t, mapFind tm k = some t ∧ refTraffic g fuel k v = some t) →
      refSum (fun m => refTraffic g fuel m v) l =
        some ((l.map (fun n => n + (mapFind tm n).getD 0)).sum) := by
  intro l
  induction l with
  | nil => intro _; rfl
  | cons a rest ih =>
    intro h
    obtain ⟨t, ht, hft⟩ := h a (List.mem_cons_self _ _)
    rw [refSum, hft, ih (fun k hk => h k (List.mem_cons_of_mem _ hk))]
    simp [ht]

theorem computeTrafficLoop_snd_of_present (city : City) :
    ∀ (l : Neighbourhood) (tm : TrafficMap) (acc : Traffic),
      (∀ k ∈ l, k ≠ city → mapFind tm k ≠ none) → (computeTrafficLoop city l tm acc).2 = tm := by
  intro l
  induction l with
  | nil => intro tm acc _; rfl
  | cons n rest ih =>
    intro tm acc h
    rw [computeTrafficLoop]
    split
    · rename_i hn
      have hpres := h n (List.mem_cons_self _ _) hn
      obtain ⟨x, hx⟩ := Option.ne_none_iff_exists'.1 hpres
      rw [mapEmplace_of_some 0 hx]
      exact ih tm _ (fun k hk => h k (List.mem_cons_of_mem _ hk))
    · exact ih tm _ (fun k hk => h k (List.mem_cons_of_mem _ hk))

/-- When every neighbour of `v` other than `p` is settled in the working set, the sum that
`computeTrafficFromNeighbourhood` returns is `T(v, p)` and the working set is unchanged. -/
theorem computeTrafficFromNeighbourhood_of_settled (g : CityMap) (tm : TrafficMap) (v p : City)
    (h : ∀ k ∈ neighboursOf g v, k ≠ p → ∃ t, mapFind tm k = some t ∧ IsTraffic g k v t) :
    IsTraffic g v p (computeTrafficFromNeighbourhood p (neighboursOf g v) tm).1 ∧
      (computeTrafficFromNeighbourhood p (neighboursOf g v) tm).2 = tm := by
  constructor
  · have h' : ∀ k ∈ (neighboursOf g v).filter (fun m => m ≠ p),
        ∃ t, mapFind tm k = some t ∧ IsTraffic g k v t := by
      intro k hk
      rw [List.mem_filter] at hk
      exact h k hk.1 (by simpa using hk.2)
    obtain ⟨f, hf⟩ := exists_common_fuel g tm v _ h'
    refine ⟨f + 1, ?_⟩
    rw [refTraffic, refSum_of_settled g tm v f _ hf]
    simp only [computeTrafficFromNeighbourhood, Option.map_some']
    rw [computeTrafficLoop_fst _ _ _ _ (by decide)]
    simp
  · apply computeTrafficLoop_snd_of_present
    intro k hk hkp
    obtain ⟨t, ht, _⟩ := h k hk hkp
    simp [ht]

theorem maxTrafficLoop_snd_of_present :
    ∀ (l : Neighbourhood) (tm : TrafficMap) (acc : Traffic),
      (∀ k ∈ l, mapFind tm k ≠ none) → (maxTrafficLoop l tm acc).2 = tm := by
  intro l
  induction l with
  | nil => intro tm acc _; rfl
  | cons n rest ih =>
    intro tm acc h
    rw [maxTrafficLoop]
    obtain ⟨x, hx⟩ := Option.ne_none_iff_exists'.1 (h n (List.mem_cons_self _ _))
    simp only [mapEmplace_of_some 0 hx]
    exact ih tm _ (fun k hk => h k (List.mem_cons_of_mem _ hk))

theorem max_ite_lt (acc t m : Nat) :
    max (if acc < t then t else acc) m = max acc (max t m) := by
  split <;> omega

theorem maxTrafficLoop_fst :
    ∀ (l : Neighbourhood) (tm : TrafficMap) (acc : Traffic),
      (maxTrafficLoop l tm acc).1 =
        max acc ((l.map (fun n => (n + (mapFind tm n).getD 0) % UINT64_MOD)).foldr max 0) := by
  intro l
  induction l with
  | nil => intro tm acc; simp [maxTrafficLoop]
  | cons n rest ih =>
    intro tm acc
    rw [maxTrafficLoop]
    simp only [ih, getD_mapFind_mapEmplace_zero, List.map_cons, List.foldr_cons]
    rw [Nat.add_comm ((mapFind tm n).getD 0) n]
    exact max_ite_lt _ _ _

theorem refMax_of_settled (g : CityMap) (tm : TrafficMap) (v : City) (fuel : Nat) :
    ∀ (l : List City), (∀ k ∈ l, ∃ t, mapFind tm k = some t ∧ refTraffic g fuel k v = some t) →
      refMax (fun m => refTraffic g fuel m v) l =
        some ((l.map (fun n => (n + (mapFind tm n).getD 0) % UINT64_MOD)).foldr max 0) := by
  intro l
  induction l with
  | nil => intro _; rfl
  | cons a rest ih =>
    intro h
    obtain ⟨t, ht, hft⟩ := h a (List.mem_cons_self _ _)
    rw [refMax, hft, ih (fun k hk => h k (List.mem_cons_of_mem _ hk))]
    simp [ht]

/-! ## The reference recursion is defined on a forest -/

theorem refSum_eq_none {T : City → Option Traffic} :
    ∀ (l : List City), refSum T l = none → ∃ m ∈ l, T m = none := by
  intro l
  induction l with
  | nil => intro h; simp [refSum] at h
  | cons a rest ih =>
    intro h
    rw [refSum] at h
    cases ha : T a with
    | none => exact ⟨a, List.mem_cons_self _ _, ha⟩
    | some t =>
      cases hr : refSum T rest with
      | none =>
        obtain ⟨m, hm, hTm⟩ := ih hr
        exact ⟨m, List.mem_cons_of_mem _ hm, hTm⟩
      | some acc => simp [ha, hr] at h

theorem refTraffic_none_walk (g : CityMap) :
    ∀ (fuel : Nat) (a b : City), refTraffic g fuel a b = none →
      ∃ w, w.length = fuel ∧ IsNBWalk g (a :: w) ∧ ∀ c, w.head? = some c → c ≠ b := by
  intro fuel
  induction fuel with
  | zero => intro a b _; exact ⟨[], rfl, by simp [IsNBWalk], by simp⟩
  | succ f ih =>
    intro a b h
    rw [refTraffic] at h
    have hs : refSum (fun m => refTraffic g f m a)
        ((neighboursOf g a).filter (fun m => m ≠ b)) = none := by
      cases hs : refSum (fun m => refTraffic g f m a)
          ((neighboursOf g a).filter (fun m => m ≠ b)) with
      | none => rfl
      | some x => rw [hs] at h; simp at h
    obtain ⟨m, hm, hTm⟩ := refSum_eq_none _ hs
    rw [List.mem_filter] at hm
    obtain ⟨w, hlen, hw, hhead⟩ := ih m a hTm
    refine ⟨m :: w, by simp [hlen], ?_, ?_⟩
    · rw [isNBWalk_cons_cons]
      exact ⟨hm.1, hhead, hw⟩
    · intro c hc
      simp only [List.head?_cons, Option.some.injEq] at hc
      subst hc
      simpa using hm.2

theorem IsNBWalk.subset_keys {g : CityMap} (hk : NeighboursAreKeys g) :
    ∀ (w : List City) (a : City), a ∈ mapKeys g → IsNBWalk g (a :: w) →
      ∀ x ∈ a :: w, x ∈ mapKeys g := by
  intro w
  induction w with
  | nil => intro a ha _ x hx; simp at hx; exact hx ▸ ha
  | cons b rest ih =>
    intro a ha h x hx
    rw [isNBWalk_cons_cons] at h
    rcases List.mem_cons.1 hx with rfl | hx
    · exact ha
    · exact ih b (hk a b h.1) h.2.2 x hx

theorem refTraffic_defined {g : CityMap} (hf : Forest g) (hk : NeighboursAreKeys g)
    {a : City} (ha : a ∈ mapKeys g) (b : City) : refTraffic g g.length a b ≠ none := by
  intro hnone
  obtain ⟨w, hlen, hw, _⟩ := refTraffic_none_walk g _ a b hnone
  have hnd := hf _ hw
  have hsub : (a :: w) ⊆ mapKeys g := IsNBWalk.subset_keys hk w a ha hw
  have hle := (hnd.subperm hsub).length_le
  simp [mapKeys, hlen] at hle

theorem IsTraffic.refTraffic_length {g : CityMap} (hf : Forest g) (hk : NeighboursAreKeys g)
    {a b : City} (ha : a ∈ mapKeys g) {t : Traffic} (h : IsTraffic g a b t) :
    refTraffic g g.length a b = some t := by
  obtain ⟨t', ht'⟩ := Option.ne_none_iff_exists'.1 (refTraffic_defined hf hk ha b)
  rw [ht', IsTraffic.unique h ⟨_, ht'⟩]

theorem neighboursAreKeys_of_symmetric {g : CityMap} (hsym : Symmetric g) :
    NeighboursAreKeys g := by
  intro u v hv
  have hu := hsym u v hv
  by_contra hc
  have hnone : mapFind g v = none := (mapFind_eq_none_iff g v).2 hc
  simp [neighboursOf, hnone] at hu

/-! ## Working sets that agree outside a branch -/

theorem AgreeOff.agree_refl (S : City → Prop) (tm : TrafficMap) : AgreeOff S tm tm :=
  fun _ _ => rfl

theorem AgreeOff.agree_trans {S : City → Prop} {tm1 tm2 tm3 : TrafficMap}
    (h12 : AgreeOff S tm1 tm2) (h23 : AgreeOff S tm2 tm3) : AgreeOff S tm1 tm3 :=
  fun x hx => (h23 x hx).trans (h12 x hx)

theorem AgreeOff.mono {S S' : City → Prop} {tm tm' : TrafficMap} (h : AgreeOff S tm tm')
    (hS : ∀ x, S x → S' x) : AgreeOff S' tm tm' :=
  fun x hx => h x (fun hs => hx (hS x hs))

theorem AgreeOff.agree_emplace (S : City → Prop) (tm : TrafficMap) {k : City} (hk : S k) (t : Traffic) :
    AgreeOff S tm (mapEmplace tm k t) := by
  intro x hx
  exact mapFind_mapEmplace_ne tm t (fun e => hx (e ▸ hk))

theorem AgreeOff.assign (S : City → Prop) (tm : TrafficMap) {k : City} (hk : S k) (t : Traffic) :
    AgreeOff S tm (mapAssign tm k t) := by
  intro x hx
  exact mapFind_mapAssign_ne tm t (fun e => hx (e ▸ hk))

theorem Settled.settled_agreeOff {g : CityMap} {S : City → Prop} {tm tm' : TrafficMap} {v k : City}
    (h : Settled g tm v k) (ha : AgreeOff S tm tm') (hk : ¬ S k) : Settled g tm' v k := by
  obtain ⟨t, ht, hT⟩ := h
  exact ⟨t, (ha k hk).trans ht, hT⟩

theorem Untouched.untouched_agreeOff {g : CityMap} {S : City → Prop} {tm tm' : TrafficMap} {v k : City}
    (h : Untouched g tm v k) (ha : AgreeOff S tm tm') (hS : ∀ x, S x → ¬ InBranch g v k x) :
    Untouched g tm' v k := by
  intro x hx
  rw [ha x (fun hs => hS x hs hx)]
  exact h x hx

/-- `Ready` survives a change of the working set confined to cities outside the branches it
speaks about. -/
theorem Ready.ready_agreeOff {g : CityMap} {S : City → Prop} {tm tm' : TrafficMap} {v p : City}
    (h : Ready g tm v p) (ha : AgreeOff S tm tm')
    (hS : ∀ k ∈ neighboursOf g v, k ≠ p → ∀ x, S x → ¬ InBranch g v k x) : Ready g tm' v p := by
  intro k hk hkp
  rcases h k hk hkp with hs | hu
  · exact Or.inl (hs.settled_agreeOff ha (fun hSk => hS k hk hkp k hSk (InBranch.self hk)))
  · exact Or.inr (hu.untouched_agreeOff ha (hS k hk hkp))

/-- A neighbour that is in the working set and ready is settled. -/
theorem Ready.settled_of_present {g : CityMap} {tm : TrafficMap} {v p k : City}
    (h : Ready g tm v p) (hk : k ∈ neighboursOf g v) (hkp : k ≠ p)
    (hpres : mapFind tm k ≠ none) : Settled g tm v k := by
  rcases h k hk hkp with hs | hu
  · exact hs
  · exact absurd (hu k (InBranch.self hk)) hpres

/-- A neighbour that is not in the working set has an untouched branch. -/
theorem Ready.untouched_of_absent {g : CityMap} {tm : TrafficMap} {v p k : City}
    (h : Ready g tm v p) (hk : k ∈ neighboursOf g v) (hkp : k ≠ p)
    (habs : mapFind tm k = none) : Untouched g tm v k := by
  rcases h k hk hkp with hs | hu
  · obtain ⟨t, ht, _⟩ := hs
    rw [habs] at ht
    exact absurd ht (by simp)
  · exact hu

/-- After the visit of the neighbour `k` of `v`, confined to the branch behind `v → k`, the
neighbours of `v` are ready again. -/
theorem Ready.ready_step {g : CityMap} (hg : TreeLike g) {tm tm' : TrafficMap} {v p k : City}
    (h : Ready g tm v p) (ha : AgreeOff (InBranch g v k) tm tm') (hs : Settled g tm' v k) :
    Ready g tm' v p := by
  intro k' hk' hk'p
  by_cases hkk : k' = k
  · exact Or.inl (hkk ▸ hs)
  · rcases h k' hk' hk'p with hs' | hu'
    · exact Or.inl (hs'.settled_agreeOff ha
        (fun hb => InBranch.disjoint hg.forest hg.symmetric hkk (InBranch.self hk') hb))
    · exact Or.inr (hu'.untouched_agreeOff ha
        (fun x hx hx' => InBranch.disjoint hg.forest hg.symmetric hkk hx' hx))

/-- The neighbours of `p` other than `v` stay ready while the branch behind `v → k`, for a
neighbour `k ≠ p` of `v`, is visited. -/
theorem Ready.other_side {g : CityMap} (hg : TreeLike g) {tm tm' : TrafficMap} {v p k : City}
    (h : Ready g tm p v) (hp : p ∈ neighboursOf g v) (hkp : k ≠ p)
    (ha : AgreeOff (InBranch g v k) tm tm') : Ready g tm' p v := by
  apply h.ready_agreeOff ha
  intro j hj hjv x hx hx'
  exact InBranch.disjoint hg.forest hg.symmetric hkp hx (InBranch.extend hp hjv hx')

/-- Recording a value for `v` itself does not disturb the readiness of its neighbours. -/
theorem Ready.assign_self {g : CityMap} (hg : TreeLike g) {tm : TrafficMap} {v p : City}
    (h : Ready g tm v p) (t : Traffic) : Ready g (mapAssign tm v t) v p := by
  apply h.ready_agreeOff (AgreeOff.assign (fun x => x = v) tm rfl t)
  intro k _ _ x hx hx'
  exact InBranch.ne_start hg.forest hx' hx

/-- Inserting `v` itself does not disturb the readiness of its neighbours. -/
theorem Ready.emplace_self {g : CityMap} (hg : TreeLike g) {tm : TrafficMap} {v p : City}
    (h : Ready g tm v p) (t : Traffic) : Ready g (mapEmplace tm v t) v p := by
  apply h.ready_agreeOff (AgreeOff.agree_emplace (fun x => x = v) tm rfl t)
  intro k _ _ x hx hx'
  exact InBranch.ne_start hg.forest hx' hx

/-- Recording a value for `v` does not disturb the readiness of the neighbours of `p` other
than `v`. -/
theorem Ready.assign_other {g : CityMap} (hg : TreeLike g) {tm : TrafficMap} {v p : City}
    (h : Ready g tm p v) (hv : v ∈ neighboursOf g p) (t : Traffic) :
    Ready g (mapAssign tm v t) p v := by
  apply h.ready_agreeOff (AgreeOff.assign (fun x => x = v) tm rfl t)
  intro j _ hjv x hx hx'
  subst hx
  exact InBranch.disjoint hg.forest hg.symmetric hjv hx' (InBranch.self hv)

/-- Once the fresh neighbour `k` of `v` has been inserted, the neighbours of `k` other than
`v` are ready: their branches lie in the untouched branch behind `v → k`. -/
theorem Ready.of_untouched {g : CityMap} (hg : TreeLike g) {tm : TrafficMap} {v k : City}
    (hk : k ∈ neighboursOf g v) (hu : Untouched g tm v k) (t : Traffic) :
    Ready g (mapEmplace tm k t) k v := by
  intro j hj hjv
  refine Or.inr ?_
  intro x hx
  have hxk : x ≠ k := InBranch.ne_start hg.forest hx
  rw [mapFind_mapEmplace_ne tm t (fun e => hxk e.symm)]
  exact hu x (InBranch.extend hk hjv hx)

theorem TreeLike.neighboursAreKeys {g : CityMap} (hg : TreeLike g) : NeighboursAreKeys g :=
  neighboursAreKeys_of_symmetric hg.symmetric

theorem TreeLike.neighbour_ne_zero {g : CityMap} (hg : TreeLike g) {v k : City}
    (hk : k ∈ neighboursOf g v) : k ≠ 0 := by
  intro h0
  exact hg.noZero (h0 ▸ hg.neighboursAreKeys v k hk)

/-! ## The neighbour loop -/

theorem TrafficMapGrows.grows_refl (s : State) : TrafficMapGrows s s := fun _ h => h

theorem TrafficMapGrows.grows_trans {s1 s2 s3 : State} (h12 : TrafficMapGrows s1 s2)
    (h23 : TrafficMapGrows s2 s3) : TrafficMapGrows s1 s3 :=
  fun x hx => h23 x (h12 x hx)

theorem mapFind_mapAssign_ne_none (tm : TrafficMap) (k x : City) (t : Traffic)
    (h : mapFind tm x ≠ none) : mapFind (mapAssign tm k t) x ≠ none := by
  rw [mapFind_mapAssign]
  split
  · simp
  · exact h

/-- Induction over the neighbour loop of `traverseCitiesViaPath`: a property kept by each
visit of a fresh neighbour holds at the end, the working set has grown, and every
neighbour of the list is in it. -/
theorem visitNeighbours_invariant (P : State → Prop) (recurse : State → CityPath → Option State)
    (city : City) :
    ∀ (l : Neighbourhood),
      (∀ n ∈ l, ∀ sc s2, P sc → mapFind sc.trafficMap n = none →
        recurse { sc with trafficMap := mapEmplace sc.trafficMap n 0 } (n, city) = some s2 →
        P s2 ∧ TrafficMapGrows { sc with trafficMap := mapEmplace sc.trafficMap n 0 } s2) →
      ∀ s s', P s → visitNeighbours recurse city l s = some s' →
        P s' ∧ TrafficMapGrows s s' ∧ ∀ n ∈ l, mapFind s'.trafficMap n ≠ none := by
  intro l
  induction l with
  | nil =>
    intro _ s s' hP h
    simp only [visitNeighbours, Option.some.injEq] at h
    subst h
    exact ⟨hP, TrafficMapGrows.grows_refl _, fun n hn => by simp at hn⟩
  | cons n rest ih =>
    intro hstep s s' hP h
    have hstep' : ∀ m ∈ rest, ∀ sc s2, P sc → mapFind sc.trafficMap m = none →
        recurse { sc with trafficMap := mapEmplace sc.trafficMap m 0 } (m, city) = some s2 →
        P s2 ∧ TrafficMapGrows { sc with trafficMap := mapEmplace sc.trafficMap m 0 } s2 :=
      fun m hm => hstep m (List.mem_cons_of_mem _ hm)
    simp only [visitNeighbours] at h
    cases hf : mapFind s.trafficMap n with
    | some t =>
      simp only [hf] at h
      obtain ⟨hP', hgrow, hall⟩ := ih hstep' s s' hP h
      refine ⟨hP', hgrow, ?_⟩
      intro m hm
      rcases List.mem_cons.1 hm with rfl | hm
      · exact hgrow _ (by simp [hf])
      · exact hall m hm
    | none =>
      simp only [hf] at h
      cases hr : recurse { s with trafficMap := mapEmplace s.trafficMap n 0 } (n, city) with
      | none => simp [hr] at h
      | some s1 =>
        simp only [hr] at h
        obtain ⟨hP1, hgrow1⟩ := hstep n (List.mem_cons_self _ _) s s1 hP hf hr
        obtain ⟨hP', hgrow, hall⟩ := ih hstep' s1 s' hP1 h
        have hgrow0 : TrafficMapGrows s s1 := fun x hx =>
          hgrow1 x (mapFind_mapEmplace_ne_none _ _ _ _ hx)
        refine ⟨hP', hgrow0.grows_trans hgrow, ?_⟩
        intro m hm
        rcases List.mem_cons.1 hm with rfl | hm
        · apply hgrow
          apply hgrow1
          simp [mapFind_mapEmplace_self]
        · exact hall m hm

/-! ## Correctness of a nested call -/

theorem CacheSound.cache_emplace {g : CityMap} {cache : CityPathTrafficCache} (h : CacheSound g cache)
    {v p : City} {t : Traffic} (ht : IsTraffic g v p t) :
    CacheSound g (mapEmplace cache (v, p) t) := by
  intro a b x hx
  by_cases hk : (v, p) = (a, b)
  · cases hc : mapFind cache (v, p) with
    | some y =>
      rw [mapEmplace_of_some t hc] at hx
      exact h a b x hx
    | none =>
      rw [← hk, mapFind_mapEmplace_self_of_none t hc] at hx
      simp only [Option.some.injEq] at hx
      simp only [Prod.mk.injEq] at hk
      rw [← hk.1, ← hk.2, ← hx]
      exact ht
  · rw [mapFind_mapEmplace_ne cache t hk] at hx
    exact h a b x hx

/-- One visit of a fresh neighbour `n` of `v` inside the call `(v, p)` keeps the loop
invariant, provided the recursive call `(n, v)` fulfils its contract. -/
theorem LoopInv.loop_step {g : CityMap} (hg : TreeLike g) {s0 sc s2 : State} {v p n : City}
    (hp : p ∈ neighboursOf g v) (hn : n ∈ neighboursOf g v)
    (hv0 : mapFind s0.trafficMap v ≠ none)
    (inv : LoopInv g s0 sc v p) (hfresh : mapFind sc.trafficMap n = none)
    (post : TraversePost g { sc with trafficMap := mapEmplace sc.trafficMap n 0 } s2 n v) :
    LoopInv g s0 s2 v p := by
  have hvc : mapFind sc.trafficMap v ≠ none := inv.grows v hv0
  have hv1 : mapFind (mapEmplace sc.trafficMap n 0) v ≠ none :=
    mapFind_mapEmplace_ne_none _ _ _ _ hvc
  have hagree : AgreeOff (InBranch g v n) sc.trafficMap s2.trafficMap :=
    (AgreeOff.agree_emplace _ sc.trafficMap (InBranch.self hn) 0).agree_trans (post.frame hv1)
  have hgrow : TrafficMapGrows sc s2 := fun x hx =>
    post.grows x (mapFind_mapEmplace_ne_none _ _ _ _ hx)
  have hvp : v ∈ neighboursOf g p := hg.symmetric v p hp
  refine ⟨post.cityMap_eq, post.cache_sound, ?_, inv.grows.grows_trans hgrow, ?_, ?_, ?_, ?_⟩
  · intro a
    rw [post.cache_zero a]
    exact inv.cache_zero a
  · exact Ready.ready_step hg inv.ready hagree post.settled
  · by_cases hnp : n = p
    · left
      obtain ⟨t, ht, _⟩ := post.settled
      rw [← hnp, ht]
      simp
    · rcases inv.up with hpres | hready
      · exact Or.inl (hgrow p hpres)
      · exact Or.inr (Ready.other_side hg hready hp hnp hagree)
  · intro hp0
    have hnp : n ≠ p := by
      intro e
      rw [e] at hfresh
      exact inv.grows p hp0 hfresh
    exact (inv.frame hp0).agree_trans (hagree.mono (fun x hx => InBranch.extend hvp hnp hx))
  · intro hready0
    by_cases hnp : n = p
    · rw [← hnp]
      exact post.ready
    · exact Ready.other_side hg (inv.ready_up hready0) hp hnp hagree

/-- The contract of `traverseCitiesViaPath((v, p))` on a forest, for a call made from the
loop of the caller `p`: `v` has just been inserted in the working set, the neighbours of
`v` other than `p` are ready, and `p` is in the working set or its other neighbours are
ready.  Then the call records `T(v, p)` for `v` and caches only reference values. -/
theorem traverseCitiesViaPath_post {g : CityMap} (hg : TreeLike g) :
    ∀ (fuel : Nat) (s s' : State) (v p : City), s.cityMap = g → p ∈ neighboursOf g v →
      CacheSound g s.cityPathTrafficCache → mapFind s.trafficMap v ≠ none →
      Ready g s.trafficMap v p → (mapFind s.trafficMap p ≠ none ∨ Ready g s.trafficMap p v) →
      traverseCitiesViaPath fuel s (v, p) = some s' → TraversePost g s s' v p := by
  intro fuel
  induction fuel with
  | zero => intro s s' v p _ _ _ _ _ _ h; simp [traverseCitiesViaPath] at h
  | succ f ih =>
    intro s s' v p hcm hp hcache hv hready hup h
    obtain ⟨cm, tm, cache⟩ := s
    simp only at hcm hcache hv hready hup
    subst hcm
    have hvp : v ∈ neighboursOf cm p := hg.symmetric v p hp
    have hvkey : v ∈ mapKeys cm := hg.neighboursAreKeys p v hvp
    rw [traverseCitiesViaPath] at h
    cases hc : mapFind cache (v, p) with
    | some c =>
      simp only [hc, Option.some.injEq] at h
      subst h
      exact {
        cityMap_eq := rfl
        cache_sound := hcache
        cache_zero := fun _ => rfl
        settled := ⟨c, mapFind_mapAssign_self _ _ _, hcache v p c hc⟩
        grows := fun x hx => mapFind_mapAssign_ne_none _ _ _ _ hx
        frame := fun _ => AgreeOff.assign _ _ (InBranch.self hvp) _
        ready := hready.assign_self hg c
        ready_up := fun hr => hr.assign_other hg hvp c }
    | none =>
      simp only [hc] at h
      obtain ⟨l, hl⟩ := Option.ne_none_iff_exists'.1
        (fun e => ((mapFind_eq_none_iff cm v).1 e) hvkey)
      have hnb : (mapFind cm v).getD [] = neighboursOf cm v := rfl
      rw [mapEmplace_of_some [] hl, hnb] at h
      cases hvis : visitNeighbours (traverseCitiesViaPath f) v (neighboursOf cm v)
          ⟨cm, tm, cache⟩ with
      | none => simp [hvis] at h
      | some s1 =>
        simp only [hvis, Option.some.injEq] at h
        have inv0 : LoopInv cm ⟨cm, tm, cache⟩ ⟨cm, tm, cache⟩ v p :=
          ⟨rfl, hcache, fun _ => rfl, TrafficMapGrows.grows_refl _, hready, hup,
            fun _ => AgreeOff.agree_refl _ _, fun hr => hr⟩
        obtain ⟨inv, hgrow, hall⟩ := visitNeighbours_invariant
          (fun sc => LoopInv cm ⟨cm, tm, cache⟩ sc v p) (traverseCitiesViaPath f) v
          (neighboursOf cm v) (by
            intro n hn sc s2 hinv hfresh hrec
            have hnv : v ∈ neighboursOf cm n := hg.symmetric v n hn
            have hvc : mapFind sc.trafficMap v ≠ none := hinv.grows v hv
            have post : TraversePost cm { sc with trafficMap := mapEmplace sc.trafficMap n 0 }
                s2 n v := by
              apply ih { sc with trafficMap := mapEmplace sc.trafficMap n 0 } s2 n v hinv.cityMap_eq hnv
                hinv.cache_sound _ _ _ hrec
              · simp [mapFind_mapEmplace_self]
              · by_cases hnp : n = p
                · rcases hinv.up with hpres | hr
                  · rw [hnp] at hfresh
                    exact absurd hfresh hpres
                  · rw [hnp]
                    exact hr.emplace_self hg 0
                · exact Ready.of_untouched hg hn
                    (hinv.ready.untouched_of_absent hn hnp hfresh) 0
              · exact Or.inl (mapFind_mapEmplace_ne_none _ _ _ _ hvc)
            exact ⟨LoopInv.loop_step hg hp hn hv hinv hfresh post, post.grows⟩)
          ⟨cm, tm, cache⟩ s1 inv0 hvis
        have hsettled : ∀ k ∈ neighboursOf cm v, k ≠ p →
            ∃ t, mapFind s1.trafficMap k = some t ∧ IsTraffic cm k v t :=
          fun k hk hkp => inv.ready.settled_of_present hk hkp (hall k hk)
        obtain ⟨hT, htm⟩ := computeTrafficFromNeighbourhood_of_settled cm s1.trafficMap v p hsettled
        subst h
        rw [htm]
        exact {
          cityMap_eq := inv.cityMap_eq
          cache_sound := inv.cache_sound.cache_emplace hT
          cache_zero := by
            intro a
            have hne : (v, p) ≠ (a, 0) := by
              intro e
              simp only [Prod.mk.injEq] at e
              exact hg.neighbour_ne_zero hp e.2
            rw [mapFind_mapEmplace_ne _ _ hne]
            exact inv.cache_zero a
          settled := ⟨_, mapFind_mapAssign_self _ _ _, hT⟩
          grows := fun x hx => mapFind_mapAssign_ne_none _ _ _ _ (inv.grows x hx)
          frame := fun hp0 => (inv.frame hp0).agree_trans (AgreeOff.assign _ _ (InBranch.self hvp) _)
          ready := inv.ready.assign_self hg _
          ready_up := fun hr => (inv.ready_up hr).assign_other hg hvp _ }

/-! ## Correctness of the evaluation of a root -/

theorem RootInv.root_step {g : CityMap} {s0 sc s2 : State} {r n : City} (inv : RootInv g s0 sc r)
    (post : TraversePost g { sc with trafficMap := mapEmplace sc.trafficMap n 0 } s2 n r)
    (hup : Ready g (mapEmplace sc.trafficMap n 0) r n) : RootInv g s0 s2 r := by
  refine ⟨post.cityMap_eq, post.cache_sound, ?_, ?_⟩
  · intro a
    rw [post.cache_zero a]
    exact inv.cache_zero a
  · intro k hk _
    by_cases hkn : k = n
    · exact Or.inl (hkn ▸ post.settled)
    · exact post.ready_up hup k hk hkn

theorem traverseCitiesViaPath_root {g : CityMap} (hg : TreeLike g) (fuel : Nat)
    (s s' : State) (r : City) (hcm : s.cityMap = g) (htm : s.trafficMap = [])
    (hr : r ∈ mapKeys g) (hcache : CacheSound g s.cityPathTrafficCache)
    (hmiss : mapFind s.cityPathTrafficCache (r, 0) = none)
    (h : traverseCitiesViaPath fuel s (r, 0) = some s') :
    s'.cityMap = g ∧ CacheSound g s'.cityPathTrafficCache ∧
      (∀ a, a ≠ r →
        mapFind s'.cityPathTrafficCache (a, 0) = mapFind s.cityPathTrafficCache (a, 0)) ∧
      ∀ k ∈ neighboursOf g r, Settled g s'.trafficMap r k := by
  obtain ⟨cm, tm, cache⟩ := s
  simp only at hcm htm hcache hmiss
  subst hcm htm
  cases fuel with
  | zero => simp [traverseCitiesViaPath] at h
  | succ f =>
    rw [traverseCitiesViaPath] at h
    simp only [hmiss] at h
    obtain ⟨l, hl⟩ := Option.ne_none_iff_exists'.1
      (fun e => ((mapFind_eq_none_iff cm r).1 e) hr)
    have hnb : (mapFind cm r).getD [] = neighboursOf cm r := rfl
    rw [mapEmplace_of_some [] hl, hnb] at h
    cases hvis : visitNeighbours (traverseCitiesViaPath f) r (neighboursOf cm r)
        ⟨cm, [], cache⟩ with
    | none => simp [hvis] at h
    | some s1 =>
      simp only [hvis, Option.some.injEq] at h
      have inv0 : RootInv cm ⟨cm, [], cache⟩ ⟨cm, [], cache⟩ r :=
        ⟨rfl, hcache, fun _ => rfl, fun k _ _ => Or.inr (fun _ _ => rfl)⟩
      obtain ⟨inv, _, hall⟩ := visitNeighbours_invariant
        (fun sc => RootInv cm ⟨cm, [], cache⟩ sc r) (traverseCitiesViaPath f) r
        (neighboursOf cm r) (by
          intro n hn sc s2 hinv hfresh hrec
          have hnr : r ∈ neighboursOf cm n := hg.symmetric r n hn
          have hn0 : n ≠ 0 := hg.neighbour_ne_zero hn
          have hup : Ready cm (mapEmplace sc.trafficMap n 0) r n := by
            have hready : Ready cm sc.trafficMap r n :=
              fun k hk _ => hinv.ready k hk (hg.neighbour_ne_zero hk)
            apply hready.ready_agreeOff (AgreeOff.agree_emplace (fun x => x = n) sc.trafficMap rfl 0)
            intro k _ hkn x hx hx'
            subst hx
            exact InBranch.disjoint hg.forest hg.symmetric hkn hx' (InBranch.self hn)
          have post : TraversePost cm { sc with trafficMap := mapEmplace sc.trafficMap n 0 }
              s2 n r := by
            apply traverseCitiesViaPath_post hg f
              { sc with trafficMap := mapEmplace sc.trafficMap n 0 } s2 n r hinv.cityMap_eq hnr
              hinv.cache_sound _ _ _ hrec
            · simp [mapFind_mapEmplace_self]
            · exact Ready.of_untouched hg hn (hinv.ready.untouched_of_absent hn hn0 hfresh) 0
            · exact Or.inr hup
          exact ⟨RootInv.root_step hinv post hup, post.grows⟩)
        ⟨cm, [], cache⟩ s1 inv0 hvis
      have hsettled : ∀ k ∈ neighboursOf cm r, k ≠ 0 →
          ∃ t, mapFind s1.trafficMap k = some t ∧ IsTraffic cm k r t :=
        fun k hk hk0 => inv.ready.settled_of_present hk hk0 (hall k hk)
      obtain ⟨hT, htm⟩ := computeTrafficFromNeighbourhood_of_settled cm s1.trafficMap r 0 hsettled
      subst h
      rw [htm]
      refine ⟨inv.cityMap_eq, inv.cache_sound.cache_emplace hT, ?_, ?_⟩
      · intro a har
        have hne : (r, 0) ≠ (a, 0) := by
          intro e
          simp only [Prod.mk.injEq] at e
          exact har e.1.symm
        simp only
        rw [mapFind_mapEmplace_ne _ _ hne]
        exact inv.cache_zero a
      · intro k hk
        obtain ⟨t, ht, hTk⟩ := hsettled k hk (hg.neighbour_ne_zero hk)
        have hkr : r ≠ k := fun e => hg.forest.noSelfLoop r (e ▸ hk)
        exact ⟨t, by simp only; rw [mapFind_mapAssign_ne _ _ hkr]; exact ht, hTk⟩

/-- On a forest, from an empty working set and a sound cache without an entry for
`(r, 0)`, `computeMaximumTraffic(r)` returns the reference maximum traffic of `r`. -/
theorem computeMaximumTraffic_correct {g : CityMap} (hg : TreeLike g) (fuel : Nat)
    (s s' : State) (r : City) (t : Traffic) (hcm : s.cityMap = g) (htm : s.trafficMap = [])
    (hr : r ∈ mapKeys g) (hcache : CacheSound g s.cityPathTrafficCache)
    (hmiss : mapFind s.cityPathTrafficCache (r, 0) = none)
    (h : computeMaximumTraffic fuel s r = some (t, s')) : RootPost g s s' r t := by
  unfold computeMaximumTraffic at h
  cases ht : traverseCitiesViaPath fuel s (r, 0) with
  | none => simp [ht] at h
  | some s1 =>
    simp only [ht, Option.some.injEq, Prod.mk.injEq] at h
    obtain ⟨hcm1, hcache1, hzero1, hsettled⟩ :=
      traverseCitiesViaPath_root hg fuel s s1 r hcm htm hr hcache hmiss ht
    obtain ⟨l, hl⟩ := Option.ne_none_iff_exists'.1
      (fun e => ((mapFind_eq_none_iff g r).1 e) hr)
    have hnb : (mapFind s1.cityMap r).getD [] = neighboursOf g r := by rw [hcm1]; rfl
    rw [hnb] at h
    obtain ⟨h1, h2⟩ := h
    have hlen : ∀ k ∈ neighboursOf g r,
        ∃ x, mapFind s1.trafficMap k = some x ∧ refTraffic g g.length k r = some x := by
      intro k hk
      obtain ⟨x, hx, hT⟩ := hsettled k hk
      exact ⟨x, hx, hT.refTraffic_length hg.forest hg.neighboursAreKeys
        (hg.neighboursAreKeys r k hk)⟩
    refine ⟨?_, ?_, ?_, ?_⟩
    · rw [← h2]
      simp only
      rw [hcm1, mapEmplace_of_some [] hl]
    · rw [← h2]
      exact hcache1
    · intro a har
      rw [← h2]
      exact hzero1 a har
    · rw [← h1, maxTrafficLoop_fst]
      unfold refMaxTraffic
      rw [refMax_of_settled g s1.trafficMap r g.length _ hlen]
      simp

/-! ## Correctness of the batch -/

theorem overallLoop_correct {g : CityMap} (hg : TreeLike g) (fuel : Nat) :
    ∀ (cities : List City) (s : State) (acc res : TrafficResult) (s' : State),
      s.cityMap = g → s.trafficMap = [] → CacheSound g s.cityPathTrafficCache →
      (∀ c ∈ cities, c ∈ mapKeys g) → cities.Nodup →
      (∀ c ∈ cities, mapFind s.cityPathTrafficCache (c, 0) = none) →
      (∀ e ∈ acc, refMaxTraffic g g.length e.1 = some e.2) →
      overallLoop fuel cities s acc = some (res, s') →
      (∀ e ∈ res, refMaxTraffic g g.length e.1 = some e.2) ∧ s'.cityMap = g ∧
        CacheSound g s'.cityPathTrafficCache := by
  intro cities
  induction cities with
  | nil =>
    intro s acc res s' hcm _ hcache _ _ _ hacc h
    simp only [overallLoop, Option.some.injEq, Prod.mk.injEq] at h
    obtain ⟨h1, h2⟩ := h
    subst h1 h2
    exact ⟨hacc, hcm, hcache⟩
  | cons c rest ih =>
    intro s acc res s' hcm htm hcache hkeys hnodup hmiss hacc h
    simp only [overallLoop] at h
    cases hm : computeMaximumTraffic fuel s c with
    | none => simp [hm] at h
    | some ts =>
      obtain ⟨t, s1⟩ := ts
      simp only [hm] at h
      have post := computeMaximumTraffic_correct hg fuel s s1 c t hcm htm
        (hkeys c (List.mem_cons_self _ _)) hcache (hmiss c (List.mem_cons_self _ _)) hm
      rw [List.nodup_cons] at hnodup
      apply ih { s1 with trafficMap := [] } (acc ++ [(c, t)]) res s' post.cityMap_eq rfl
        post.cache_sound (fun x hx => hkeys x (List.mem_cons_of_mem _ hx)) hnodup.2 _ _ h
      · intro x hx
        have hxc : x ≠ c := fun e => hnodup.1 (e ▸ hx)
        simp only
        rw [post.cache_zero x hxc]
        exact hmiss x (List.mem_cons_of_mem _ hx)
      · intro e he
        rcases List.mem_append.1 he with he | he
        · exact hacc e he
        · simp only [List.mem_singleton] at he
          subst he
          exact post.result

/-- On a forest with symmetric adjacency, distinct keys and no city `0`, the batch started
from an empty cache and working set returns, its cities are the keys in ascending order, and
the traffic of every entry is the reference maximum traffic of its city. -/
theorem computeOverallTrafficResult_eq_ref {g : CityMap} (hg : TreeLike g)
    (hunique : UniqueKeys g) (fuel : Nat) (hfuel : g.length < fuel) :
    ∃ res s', computeOverallTrafficResult fuel (State.init g) = some (res, s') ∧
      res.map Prod.fst = List.insertionSort (fun a b : City => a ≤ b) (mapKeys g) ∧
      ∀ e ∈ res, refMaxTraffic g g.length e.1 = some e.2 := by
  obtain ⟨res, s', hres, hfst⟩ := computeOverallTrafficResult_cities fuel (State.init g)
    (lt_of_le_of_lt (allNeighbours_card_le hunique hg.neighboursAreKeys) hfuel)
  refine ⟨res, s', hres, hfst, ?_⟩
  unfold computeOverallTrafficResult at hres
  cases ho : overallLoop fuel (mapKeys (State.init g).cityMap) (State.init g) [] with
  | none => simp [ho] at hres
  | some rs =>
    obtain ⟨res0, s0⟩ := rs
    simp only [ho, Option.some.injEq, Prod.mk.injEq] at hres
    obtain ⟨hall, _, _⟩ := overallLoop_correct hg fuel (mapKeys g) (State.init g) [] res0 s0 rfl
      rfl (fun a b t h => by simp [State.init, mapFind] at h) (fun c hc => hc) hunique
      (fun c _ => rfl) (fun e he => by simp at he) ho
    intro e he
    rw [← hres.1, List.mem_insertionSort] at he
    exact hall e he

/-- C1: on every well-formed forest, the batch started from an empty cache and an empty
working set returns one entry per city, in ascending order of the cities, and the traffic
reported for a city `v` is `maxTraffic(v)`: the maximum over the neighbours `n` of `v` of
`n + T(n, v)` modulo `2 ^ 64`, and `0` when `v` has no neighbour, where `T` is the
un-memoized reference recursion. -/
theorem computeOverallTrafficResult_correct (g : CityMap) (hwf : WellFormed g)
    (hforest : Forest g) (fuel : Nat) (hfuel : g.length < fuel) :
    ∃ res s', computeOverallTrafficResult fuel (State.init g) = some (res, s') ∧
      res.map Prod.fst = List.insertionSort (fun a b : City => a ≤ b) (mapKeys g) ∧
      ∀ e ∈ res, refMaxTraffic g g.length e.1 = some e.2 :=
  computeOverallTrafficResult_eq_ref ⟨hforest, hwf.symmetric, hwf.noZero⟩ hwf.uniqueKeys fuel hfuel

/-! ## Recognising a forest by a depth function -/

theorem IsNBWalk.prefix {g : CityMap} :
    ∀ (l1 l2 : List City), IsNBWalk g (l1 ++ l2) → IsNBWalk g l1 := by
  intro l1
  induction l1 with
  | nil => intro _ _; simp [IsNBWalk]
  | cons a l1' ih =>
    intro l2 h
    cases l1' with
    | nil => simp [IsNBWalk]
    | cons b rest =>
      simp only [List.cons_append, isNBWalk_cons_cons] at h ⊢
      refine ⟨h.1, ?_, ih l2 (by simpa using h.2.2)⟩
      intro c hc
      apply h.2.1 c
      cases rest with
      | nil => simp at hc
      | cons x xs => simpa using hc

/-- Along a walk that never turns straight back, once a step goes to a deeper city every
later city is deeper still. -/
theorem IsNBWalk.deeper {g : CityMap} (hsym : Symmetric g) (d : City → Nat)
    (hne : ∀ u, ∀ v ∈ neighboursOf g u, d v ≠ d u)
    (hparent : ∀ u, ∀ v ∈ neighboursOf g u, ∀ w ∈ neighboursOf g u,
      d v < d u → d w < d u → v = w) :
    ∀ (rest : List City) (a b : City), IsNBWalk g (a :: b :: rest) → d a < d b →
      ∀ x ∈ b :: rest, d a < d x := by
  intro rest
  induction rest with
  | nil =>
    intro a b _ hab x hx
    simp only [List.mem_singleton] at hx
    exact hx ▸ hab
  | cons c rest' ih =>
    intro a b h hab x hx
    rw [isNBWalk_cons_cons] at h
    obtain ⟨hba, hhead, htail⟩ := h
    have hca : c ≠ a := hhead c rfl
    have hcb : c ∈ neighboursOf g b := ((isNBWalk_cons_cons g b c rest').1 htail).1
    have hbc : d b < d c := by
      rcases Nat.lt_or_gt_of_ne (hne b c hcb) with hlt | hgt
      · exact absurd (hparent b c hcb a (hsym a b hba) hlt hab) hca
      · exact hgt
    rcases List.mem_cons.1 hx with rfl | hx
    · exact hab
    · exact lt_trans hab (ih b c htail hbc x hx)

/-- A graph with symmetric adjacency is a forest when some depth function separates
adjacent cities and gives every city at most one neighbour of smaller depth. -/
theorem forest_of_depth {g : CityMap} (hsym : Symmetric g) (d : City → Nat)
    (hne : ∀ u, ∀ v ∈ neighboursOf g u, d v ≠ d u)
    (hparent : ∀ u, ∀ v ∈ neighboursOf g u, ∀ w ∈ neighboursOf g u,
      d v < d u → d w < d u → v = w) : Forest g := by
  intro w
  induction w with
  | nil => intro _; exact List.nodup_nil
  | cons a l ih =>
    intro h
    have hl : l.Nodup := ih h.tail
    rw [List.nodup_cons]
    refine ⟨?_, hl⟩
    intro hmem
    cases l with
    | nil => simp at hmem
    | cons b rest =>
      have h' := (isNBWalk_cons_cons g a b rest).1 h
      have hba : b ∈ neighboursOf g a := h'.1
      rcases Nat.lt_or_gt_of_ne (hne a b hba) with hlt | hgt
      · have hab : a ≠ b := fun e => by rw [e] at hlt; exact lt_irrefl _ hlt
        have hrest : a ∈ rest := by
          rcases List.mem_cons.1 hmem with e | hr
          · exact absurd e hab
          · exact hr
        obtain ⟨P, Q, hPQ⟩ := List.append_of_mem hrest
        subst hPQ
        rcases List.eq_nil_or_concat P with hP | ⟨P', y, hP⟩
        · subst hP
          exact h'.2.1 a rfl rfl
        · subst hP
          have hpre : IsNBWalk g (a :: b :: (P' ++ [y] ++ [a])) := by
            apply IsNBWalk.prefix _ Q
            simpa using h
          have hrev := IsNBWalk.reverse hsym _ hpre
          have hrev' : IsNBWalk g (a :: y :: (P'.reverse ++ [b, a])) := by
            simpa using hrev
          have hya : y ∈ neighboursOf g a := ((isNBWalk_cons_cons g a y _).1 hrev').1
          have hy : d y < d a := by
            rcases Nat.lt_or_gt_of_ne (hne a y hya) with hlt' | hgt'
            · exact hlt'
            · have := IsNBWalk.deeper hsym d hne hparent _ a y hrev' hgt' a (by simp)
              exact absurd this (lt_irrefl _)
          have hyb : y = b := hparent a y hya b hba hy hlt
          subst hyb
          rw [List.nodup_cons] at hl
          exact hl.1 (by simp)
      · have := IsNBWalk.deeper hsym d hne hparent rest a b h hgt a hmem
        exact absurd this (lt_irrefl _)

/-- The depth criterion, stated over the entries of the graph. -/
theorem forest_of_depth_entries {g : CityMap} (hsym : Symmetric g) (d : City → Nat)
    (hne : ∀ e ∈ g, ∀ v ∈ neighboursOf g e.1, d v ≠ d e.1)
    (hparent : ∀ e ∈ g, ∀ v ∈ neighboursOf g e.1, ∀ w ∈ neighboursOf g e.1,
      d v < d e.1 → d w < d e.1 → v = w) : Forest g :=
  forest_of_depth hsym d
    (forall_neighboursOf (Q := fun u l => ∀ v ∈ l, d v ≠ d u) g (fun _ v hv => by simp at hv) hne)
    (forall_neighboursOf (Q := fun u l => ∀ v ∈ l, ∀ w ∈ l, d v < d u → d w < d u → v = w) g
      (fun _ v hv => by simp at hv) hparent)

/-! ## The test graphs are well-formed forests -/

theorem wellFormed_of_entries (g : CityMap) (h1 : (mapKeys g).Nodup)
    (h2 : ∀ e ∈ g, ∀ v ∈ neighboursOf g e.1, e.1 ∈ neighboursOf g v)
    (h3 : ∀ e ∈ g, e.1 ∉ neighboursOf g e.1) (h4 : ∀ e ∈ g, (neighboursOf g e.1).Nodup)
    (h5 : ∀ e ∈ g, ∀ v ∈ neighboursOf g e.1, v ∈ mapKeys g) (h6 : 0 ∉ mapKeys g) :
    WellFormed g :=
  ⟨h1, symmetric_of_entries g h2, noSelfLoop_of_entries g h3, noRepeatedNeighbour_of_entries g h4,
    neighboursAreKeys_of_entries g h5, h6⟩

theorem wellFormed_testGraph1 : WellFormed testGraph1 :=
  wellFormed_of_entries _ (by decide) (by decide) (by decide) (by decide) (by decide) (by decide)

theorem wellFormed_testGraph2 : WellFormed testGraph2 :=
  wellFormed_of_entries _ (by decide) (by decide) (by decide) (by decide) (by decide) (by decide)

theorem wellFormed_testGraph3 : WellFormed testGraph3 :=
  wellFormed_of_entries _ (by decide) (by decide) (by decide) (by decide) (by decide) (by decide)

theorem wellFormed_testGraph4 : WellFormed testGraph4 :=
  wellFormed_of_entries _ (by decide) (by decide) (by decide) (by decide) (by decide) (by decide)

theorem forest_testGraph1 : Forest testGraph1 :=
  forest_of_depth_entries wellFormed_testGraph1.symmetric
    (fun v => (mapFind [(1, 0), (2, 1), (7, 1), (8, 1), (3, 2), (6, 2), (9, 2), (12, 2), (4, 3),
      (5, 3), (10, 3), (11, 3), (13, 0)] v).getD 0) (by decide) (by decide)

theorem forest_testGraph2 : Forest testGraph2 :=
  forest_of_depth_entries wellFormed_testGraph2.symmetric
    (fun v => (mapFind [(5, 0), (1, 1), (4, 1), (3, 1), (2, 1), (15, 2), (7, 2), (8, 3),
      (38, 4)] v).getD 0) (by decide) (by decide)

theorem forest_testGraph3 : Forest testGraph3 :=
  forest_of_depth_entries wellFormed_testGraph3.symmetric (fun v => if v = 5 then 0 else 1)
    (by decide) (by decide)

theorem forest_testGraph4 : Forest testGraph4 :=
  forest_of_depth_entries wellFormed_testGraph4.symmetric
    (fun v => (mapFind [(5, 0), (1, 1), (2, 1), (3, 1), (4, 1), (18, 2), (12, 2)] v).getD 0)
    (by decide) (by decide)

theorem computeOverallTrafficResult_correct_witness :
    (WellFormed testGraph1 ∧ Forest testGraph1 ∧ testGraph1.length < 14 ∧
      ∃ res s', computeOverallTrafficResult 14 (State.init testGraph1) = some (res, s') ∧
        res.map Prod.fst =
          List.insertionSort (fun a b : City => a ≤ b) (mapKeys testGraph1) ∧
        ∀ e ∈ res, refMaxTraffic testGraph1 testGraph1.length e.1 = some e.2) ∧
    (WellFormed testGraph2 ∧ Forest testGraph2 ∧ testGraph2.length < 10 ∧
      ∃ res s', computeOverallTrafficResult 10 (State.init testGraph2) = some (res, s') ∧
        res.map Prod.fst =
          List.insertionSort (fun a b : City => a ≤ b) (mapKeys testGraph2) ∧
        ∀ e ∈ res, refMaxTraffic testGraph2 testGraph2.length e.1 = some e.2) ∧
    (WellFormed testGraph3 ∧ Forest testGraph3 ∧ testGraph3.length < 6 ∧
      ∃ res s', computeOverallTrafficResult 6 (State.init testGraph3) = some (res, s') ∧
        res.map Prod.fst =
          List.insertionSort (fun a b : City => a ≤ b) (mapKeys testGraph3) ∧
        ∀ e ∈ res, refMaxTraffic testGraph3 testGraph3.length e.1 = some e.2) ∧
    (WellFormed testGraph4 ∧ Forest testGraph4 ∧ testGraph4.length < 8 ∧
      ∃ res s', computeOverallTrafficResult 8 (State.init testGraph4) = some (res, s') ∧
        res.map Prod.fst =
          List.insertionSort (fun a b : City => a ≤ b) (mapKeys testGraph4) ∧
        ∀ e ∈ res, refMaxTraffic testGraph4 testGraph4.length e.1 = some e.2) :=
  ⟨⟨wellFormed_testGraph1, forest_testGraph1, by decide,
      computeOverallTrafficResult_correct testGraph1 wellFormed_testGraph1 forest_testGraph1 14
        (by decide)⟩,
    ⟨wellFormed_testGraph2, forest_testGraph2, by decide,
      computeOverallTrafficResult_correct testGraph2 wellFormed_testGraph2 forest_testGraph2 10
        (by decide)⟩,
    ⟨wellFormed_testGraph3, forest_testGraph3, by decide,
      computeOverallTrafficResult_correct testGraph3 wellFormed_testGraph3 forest_testGraph3 6
        (by decide)⟩,
    ⟨wellFormed_testGraph4, forest_testGraph4, by decide,
      computeOverallTrafficResult_correct testGraph4 wellFormed_testGraph4 forest_testGraph4 8
        (by decide)⟩⟩

/-! ## Independence of the iteration order -/

theorem mapFind_eq_some_iff_mem {g : CityMap} (hu : UniqueKeys g) (k : City)
    (l : Neighbourhood) : mapFind g k = some l ↔ (k, l) ∈ g := by
  induction g with
  | nil => simp [mapFind]
  | cons e rest ih =>
    obtain ⟨a, l0⟩ := e
    simp only [UniqueKeys, mapKeys, List.map_cons, List.nodup_cons] at hu
    by_cases hak : a = k
    · subst hak
      simp only [mapFind, if_true, Option.some.injEq, List.mem_cons, Prod.mk.injEq, true_and]
      constructor
      · exact fun h => Or.inl h.symm
      · rintro (h | h)
        · exact h.symm
        · exact absurd (List.mem_map_of_mem Prod.fst h) hu.1
    · simp only [mapFind, hak, if_false, List.mem_cons, Prod.mk.injEq]
      rw [ih hu.2]
      constructor
      · exact fun h => Or.inr h
      · rintro (h | h)
        · exact absurd h.1.symm hak
        · exact h

theorem mapFind_perm {g1 g2 : CityMap} (hu : UniqueKeys g1) (hp : g1.Perm g2) (k : City) :
    mapFind g1 k = mapFind g2 k := by
  have hu2 : UniqueKeys g2 := (hp.map Prod.fst).nodup_iff.1 hu
  cases h1 : mapFind g1 k with
  | some l =>
    exact ((mapFind_eq_some_iff_mem hu2 k l).2
      (hp.mem_iff.1 ((mapFind_eq_some_iff_mem hu k l).1 h1))).symm
  | none =>
    symm
    rw [mapFind_eq_none_iff] at h1 ⊢
    exact fun h => h1 ((hp.map Prod.fst).mem_iff.2 h)

theorem neighboursOf_perm {g1 g2 : CityMap} (hu : UniqueKeys g1) (hp : g1.Perm g2) (v : City) :
    neighboursOf g1 v = neighboursOf g2 v := by
  unfold neighboursOf
  rw [mapFind_perm hu hp v]

theorem refTraffic_congr {g1 g2 : CityMap} (h : ∀ v, neighboursOf g1 v = neighboursOf g2 v) :
    ∀ (fuel : Nat) (n p : City), refTraffic g1 fuel n p = refTraffic g2 fuel n p := by
  intro fuel
  induction fuel with
  | zero => intro n p; rfl
  | succ f ih =>
    intro n p
    rw [refTraffic, refTraffic, h n]
    have hfun : (fun m => refTraffic g1 f m n) = (fun m => refTraffic g2 f m n) :=
      funext (fun m => ih m n)
    rw [hfun]

theorem refMaxTraffic_congr {g1 g2 : CityMap} (h : ∀ v, neighboursOf g1 v = neighboursOf g2 v)
    (fuel : Nat) (v : City) : refMaxTraffic g1 fuel v = refMaxTraffic g2 fuel v := by
  unfold refMaxTraffic
  rw [h v]
  have hfun : (fun n => refTraffic g1 fuel n v) = (fun n => refTraffic g2 fuel n v) :=
    funext (fun n => refTraffic_congr h fuel n v)
  rw [hfun]

theorem isNBWalk_congr {g1 g2 : CityMap} (h : ∀ v, neighboursOf g1 v = neighboursOf g2 v) :
    ∀ (w : List City), IsNBWalk g1 w → IsNBWalk g2 w := by
  intro w
  induction w with
  | nil => intro _; simp [IsNBWalk]
  | cons a l ih =>
    intro hw
    cases l with
    | nil => simp [IsNBWalk]
    | cons b rest =>
      rw [isNBWalk_cons_cons] at hw ⊢
      exact ⟨h a ▸ hw.1, hw.2.1, ih hw.2.2⟩

theorem TreeLike.perm {g1 g2 : CityMap} (hg : TreeLike g1) (hu : UniqueKeys g1)
    (hp : g1.Perm g2) : TreeLike g2 := by
  have hn : ∀ v, neighboursOf g1 v = neighboursOf g2 v := neighboursOf_perm hu hp
  refine ⟨?_, ?_, ?_⟩
  · intro w hw
    exact hg.forest w (isNBWalk_congr (fun v => (hn v).symm) w hw)
  · intro u v hv
    rw [← hn] at hv ⊢
    exact hg.symmetric u v hv
  · intro h0
    exact hg.noZero ((hp.map Prod.fst).mem_iff.2 h0)

theorem insertionSort_perm {l1 l2 : List City} (hp : l1.Perm l2) :
    List.insertionSort (fun a b : City => a ≤ b) l1 =
      List.insertionSort (fun a b : City => a ≤ b) l2 :=
  List.eq_of_perm_of_sorted
    (((List.perm_insertionSort _ l1).trans hp).trans (List.perm_insertionSort _ l2).symm)
    (List.sorted_insertionSort _ l1) (List.sorted_insertionSort _ l2)

/-- Two result sequences with the same cities, whose traffic is the same function of the
city, are equal. -/
theorem result_ext (F : City → Option Traffic) :
    ∀ (r1 r2 : TrafficResult), r1.map Prod.fst = r2.map Prod.fst →
      (∀ e ∈ r1, F e.1 = some e.2) → (∀ e ∈ r2, F e.1 = some e.2) → r1 = r2 := by
  intro r1
  induction r1 with
  | nil =>
    intro r2 h _ _
    cases r2 with
    | nil => rfl
    | cons e r => simp at h
  | cons e1 r1 ih =>
    intro r2 h h1 h2
    cases r2 with
    | nil => simp at h
    | cons e2 r2 =>
      simp only [List.map_cons, List.cons.injEq] at h
      have he1 := h1 e1 (List.mem_cons_self _ _)
      have he2 := h2 e2 (List.mem_cons_self _ _)
      rw [← h.1, he1] at he2
      have hsnd : e1.2 = e2.2 := Option.some.inj he2
      have hpair : e1 = e2 := Prod.ext h.1 hsnd
      rw [hpair, ih r2 h.2 (fun e he => h1 e (List.mem_cons_of_mem _ he))
        (fun e he => h2 e (List.mem_cons_of_mem _ he))]

/-- On a forest the batch does not depend on the iteration order of the graph. -/
theorem computeOverallTrafficResult_perm {g1 g2 : CityMap} (hg1 : TreeLike g1)
    (hunique : UniqueKeys g1) (hperm : g1.Perm g2) (fuel : Nat) (hfuel : g1.length < fuel) :
    ∃ res s1 s2, computeOverallTrafficResult fuel (State.init g1) = some (res, s1) ∧
      computeOverallTrafficResult fuel (State.init g2) = some (res, s2) := by
  have hg2 : TreeLike g2 := hg1.perm hunique hperm
  have hu2 : UniqueKeys g2 := (hperm.map Prod.fst).nodup_iff.1 hunique
  have hlen : g2.length = g1.length := hperm.length_eq.symm
  obtain ⟨r1, s1, hr1, hf1, hv1⟩ := computeOverallTrafficResult_eq_ref hg1 hunique fuel hfuel
  obtain ⟨r2, s2, hr2, hf2, hv2⟩ := computeOverallTrafficResult_eq_ref hg2 hu2 fuel
    (by rw [hlen]; exact hfuel)
  have hr : r2 = r1 := by
    apply result_ext (refMaxTraffic g1 g1.length) r2 r1
    · rw [hf1, hf2]
      exact (insertionSort_perm (hperm.map Prod.fst)).symm
    · intro e he
      rw [refMaxTraffic_congr (neighboursOf_perm hunique hperm), ← hlen]
      exact hv2 e he
    · exact hv1
  exact ⟨r1, s1, s2, hr1, hr ▸ hr2⟩

/-- The result of the batch on a forest in every iteration order, from its result in one
order. -/
theorem computeOverallTrafficResult_of_perm {g1 g2 : CityMap} (hg1 : TreeLike g1)
    (hunique : UniqueKeys g1) (hperm : g1.Perm g2) (fuel : Nat) (hfuel : g1.length < fuel)
    {res : TrafficResult}
    (h : (computeOverallTrafficResult (g1.length + 1) (State.init g1)).map Prod.fst = some res) :
    (computeOverallTrafficResult fuel (State.init g2)).map Prod.fst = some res := by
  obtain ⟨r, s1, s2, h1, h2⟩ := computeOverallTrafficResult_perm hg1 hunique hperm fuel hfuel
  have h3 := computeOverallTrafficResult_fst_mono hfuel h
  rw [h1] at h3
  rw [h2]
  exact h3

/-- C2: for a graph with distinct keys, symmetric adjacency, no city `0` and no cycle (a
tree in particular; a forest has no self-loop), presented in any two iteration orders `g1`
and `g2`, the batch started from an empty cache and working set returns the same result
sequence. -/
theorem computeOverallTrafficResult_order_independent (g1 g2 : CityMap) (hperm : g1.Perm g2)
    (hunique : UniqueKeys g1) (hsym : Symmetric g1) (hzero : NoZero g1) (htree : Forest g1)
    (fuel : Nat) (hfuel : g1.length < fuel) :
    ∃ res s1 s2, computeOverallTrafficResult fuel (State.init g1) = some (res, s1) ∧
      computeOverallTrafficResult fuel (State.init g2) = some (res, s2) :=
  computeOverallTrafficResult_perm ⟨htree, hsym, hzero⟩ hunique hperm fuel hfuel

theorem computeOverallTrafficResult_order_independent_witness :
    testGraph4.Perm testGraph4.reverse ∧ UniqueKeys testGraph4 ∧ Symmetric testGraph4 ∧
      NoZero testGraph4 ∧ Forest testGraph4 ∧ testGraph4.length < 8 ∧
      ∃ res s1 s2, computeOverallTrafficResult 8 (State.init testGraph4) = some (res, s1) ∧
        computeOverallTrafficResult 8 (State.init testGraph4.reverse) = some (res, s2) :=
  ⟨(List.reverse_perm testGraph4).symm, wellFormed_testGraph4.uniqueKeys,
    wellFormed_testGraph4.symmetric, wellFormed_testGraph4.noZero, forest_testGraph4, by decide,
    computeOverallTrafficResult_order_independent testGraph4 testGraph4.reverse
      (List.reverse_perm testGraph4).symm wellFormed_testGraph4.uniqueKeys
      wellFormed_testGraph4.symmetric wellFormed_testGraph4.noZero forest_testGraph4 8
      (by decide)⟩

/-! ## End-to-end examples in every iteration order -/

theorem treeLike_testGraph1 : TreeLike testGraph1 :=
  ⟨forest_testGraph1, wellFormed_testGraph1.symmetric, wellFormed_testGraph1.noZero⟩

theorem treeLike_testGraph3 : TreeLike testGraph3 :=
  ⟨forest_testGraph3, wellFormed_testGraph3.symmetric, wellFormed_testGraph3.noZero⟩

theorem treeLike_testGraph4 : TreeLike testGraph4 :=
  ⟨forest_testGraph4, wellFormed_testGraph4.symmetric, wellFormed_testGraph4.noZero⟩

/-- C4: on the 13-city graph, in whatever order the map iterates, from an empty cache and
working set, the batch returns `1:50, 2:58, 3:66, 4:74, 5:73, 6:72, 7:71, 8:30, 9:48, 10:68,
11:67, 12:66, 13:0`; city `13`, which has no neighbour, gets `0`. -/
theorem testGraph1_result_any_order (g : CityMap) (hg : testGraph1.Perm g) (fuel : Nat)
    (hfuel : 14 ≤ fuel) :
    (computeOverallTrafficResult fuel (State.init g)).map Prod.fst =
      some [(1, 50), (2, 58), (3, 66), (4, 74), (5, 73), (6, 72), (7, 71), (8, 30), (9, 48),
        (10, 68), (11, 67), (12, 66), (13, 0)] :=
  computeOverallTrafficResult_of_perm treeLike_testGraph1 wellFormed_testGraph1.uniqueKeys hg fuel
    hfuel (by decide)

theorem testGraph1_result_any_order_witness :
    testGraph1.Perm testGraph1.reverse ∧ 14 ≤ 20 ∧
      (computeOverallTrafficResult 20 (State.init testGraph1.reverse)).map Prod.fst =
        some [(1, 50), (2, 58), (3, 66), (4, 74), (5, 73), (6, 72), (7, 71), (8, 30), (9, 48),
          (10, 68), (11, 67), (12, 66), (13, 0)] :=
  ⟨(List.reverse_perm testGraph1).symm, by decide,
    testGraph1_result_any_order testGraph1.reverse (List.reverse_perm testGraph1).symm 20
      (by decide)⟩

/-- C5: on the star with centre `5`, in whatever order the map iterates, from an empty
cache and working set, the batch returns `1:14, 2:13, 3:12, 4:11, 5:4`. -/
theorem testGraph3_result_any_order (g : CityMap) (hg : testGraph3.Perm g) (fuel : Nat)
    (hfuel : 6 ≤ fuel) :
    (computeOverallTrafficResult fuel (State.init g)).map Prod.fst =
      some [(1, 14), (2, 13), (3, 12), (4, 11), (5, 4)] :=
  computeOverallTrafficResult_of_perm treeLike_testGraph3 wellFormed_testGraph3.uniqueKeys hg fuel
    hfuel (by decide)

theorem testGraph3_result_any_order_witness :
    testGraph3.Perm testGraph3.reverse ∧ 6 ≤ 6 ∧
      (computeOverallTrafficResult 6 (State.init testGraph3.reverse)).map Prod.fst =
        some [(1, 14), (2, 13), (3, 12), (4, 11), (5, 4)] :=
  ⟨(List.reverse_perm testGraph3).symm, by decide,
    testGraph3_result_any_order testGraph3.reverse (List.reverse_perm testGraph3).symm 6
      (by decide)⟩

/-- C6: on the star with the extra leaves `18` and `12`, in whatever order the map
iterates, from an empty cache and working set, the batch returns `1:44, 2:25, 3:30, 4:41,
5:20, 12:33, 18:27`. -/
theorem testGraph4_result_any_order (g : CityMap) (hg : testGraph4.Perm g) (fuel : Nat)
    (hfuel : 8 ≤ fuel) :
    (computeOverallTrafficResult fuel (State.init g)).map Prod.fst =
      some [(1, 44), (2, 25), (3, 30), (4, 41), (5, 20), (12, 33), (18, 27)] :=
  computeOverallTrafficResult_of_perm treeLike_testGraph4 wellFormed_testGraph4.uniqueKeys hg fuel
    hfuel (by decide)

theorem testGraph4_result_any_order_witness :
    testGraph4.Perm testGraph4.reverse ∧ 8 ≤ 9 ∧
      (computeOverallTrafficResult 9 (State.init testGraph4.reverse)).map Prod.fst =
        some [(1, 44), (2, 25), (3, 30), (4, 41), (5, 20), (12, 33), (18, 27)] :=
  ⟨(List.reverse_perm testGraph4).symm, by decide,
    testGraph4_result_any_order testGraph4.reverse (List.reverse_perm testGraph4).symm 9
      (by decide)⟩

/-! ## Serialization -/

theorem popBack_append_comma (s : String) : popBack (s ++ ",") = s := by
  apply String.ext
  show (s.data ++ [',']).dropLast = s.data
  simp

theorem serializeLoop_data_ne_nil :
    ∀ (res : TrafficResult) (acc : String), acc.data ≠ [] → (serializeLoop res acc).data ≠ [] := by
  intro res
  induction res with
  | nil => intro acc h; exact h
  | cons e rest ih =>
    intro acc h
    obtain ⟨city, traffic⟩ := e
    rw [serializeLoop]
    apply ih
    rw [String.data_append]
    simp [h]

/-- After the first entry, removing the final comma of the output of the loop gives the
renderings joined by commas. -/
theorem popBack_serializeLoop :
    ∀ (rest : TrafficResult) (acc : String) (e : CityTraffic),
      popBack (serializeLoop rest (acc ++ (Nat.repr e.1 ++ ":" ++ Nat.repr e.2 ++ ","))) =
        String.intercalate.go (acc ++ (Nat.repr e.1 ++ ":" ++ Nat.repr e.2)) ","
          (rest.map (fun e => Nat.repr e.1 ++ ":" ++ Nat.repr e.2)) := by
  intro rest
  induction rest with
  | nil =>
    intro acc e
    simp only [serializeLoop, List.map_nil, String.intercalate.go]
    rw [← String.append_assoc acc, popBack_append_comma]
  | cons e' rest ih =>
    intro acc e
    obtain ⟨city, traffic⟩ := e'
    simp only [serializeLoop, List.map_cons, String.intercalate.go]
    have h := ih (acc ++ (Nat.repr e.1 ++ ":" ++ Nat.repr e.2 ++ ",")) (city, traffic)
    rw [h]
    congr 1
    simp only [String.append_assoc]

/-- C19: `serializeTrafficResult` returns the decimal renderings `city:traffic` of the
entries, in sequence order, joined by single commas, without a leading or a trailing comma,
and the empty string for the empty sequence. -/
theorem serializeTrafficResult_eq_joined (trafficResult : TrafficResult) :
    serializeTrafficResult trafficResult = joinedRenderings trafficResult ∧
      serializeTrafficResult [] = "" ∧
      serializeTrafficResult [(1, 14), (5, 4)] = "1:14,5:4" := by
  refine ⟨?_, by decide, by decide⟩
  cases trafficResult with
  | nil => decide
  | cons e rest =>
    obtain ⟨city, traffic⟩ := e
    have hne : serializeLoop ((city, traffic) :: rest) "" ≠ "" := by
      intro h
      have hd := congrArg String.data h
      rw [serializeLoop] at hd
      exact serializeLoop_data_ne_nil rest _ (by simp [String.data_append]) hd
    unfold serializeTrafficResult joinedRenderings
    simp only [hne, ne_eq, not_false_eq_true, if_true, List.map_cons, String.intercalate]
    rw [serializeLoop]
    have := popBack_serializeLoop rest "" (city, traffic)
    simpa using this

/-! ## Reset and replay -/

/-- C11 (as stated, refuted): on a graph with a cycle the result of the batch depends on the
iteration order of `cityMap`, which a reset and a reload do not preserve.  On the triangle
the root order `3, 2, 1` gives `1:9, 2:10, 3:7` and the root order `1, 2, 3` gives
`1:7, 2:9, 3:8`.  On the cycle of 14 cities the first batch returns `1:132, 2:130, ...` and,
after `resetDataStructures` and a reload of the same graph, the second batch returns
`1:170, 2:168, ...`. -/
theorem replay_differs_on_cycle :
    cycle14First.Perm cycle14Second ∧
    (computeOverallTrafficResult 15 (State.init cycle14First)).bind (fun r =>
      (computeOverallTrafficResult 15
        { resetDataStructures r.2 with cityMap := cycle14Second }).map (fun r2 => (r.1, r2.1))) =
      some ([(1, 132), (2, 130), (3, 127), (4, 123), (5, 118), (6, 112), (7, 105), (8, 97),
          (9, 88), (10, 78), (11, 82), (12, 93), (13, 105), (14, 118)],
        [(1, 170), (2, 168), (3, 165), (4, 161), (5, 156), (6, 150), (7, 143), (8, 135),
          (9, 126), (10, 116), (11, 210), (12, 198), (13, 185), (14, 118)]) ∧
    (computeOverallTrafficResult 4 (State.init [(3, [1, 2]), (2, [1, 3]), (1, [2, 3])])).map
      Prod.fst = some [(1, 9), (2, 10), (3, 7)] ∧
    (computeOverallTrafficResult 4 (State.init [(1, [2, 3]), (2, [1, 3]), (3, [1, 2])])).map
      Prod.fst = some [(1, 7), (2, 9), (3, 8)] := by
  refine ⟨?_, by decide, by decide, by decide⟩
  exact List.Perm.cons _ (List.reverse_perm _).symm

/-- C11 (amended): `resetDataStructures` leaves the graph, the working set and the
directed-edge cache empty, whatever they held.  On every well-formed forest the batch
returns; and after a reset of the state it has left and a reload of the same graph, in
whatever order the reloaded map iterates, the second batch returns the result of the
first. -/
theorem resetDataStructures_replay (g g' : CityMap) (hwf : WellFormed g) (hforest : Forest g)
    (hperm : g.Perm g') (s : State) (fuel : Nat) (hfuel : g.length < fuel) :
    ((resetDataStructures s).cityMap = [] ∧ (resetDataStructures s).trafficMap = [] ∧
      (resetDataStructures s).cityPathTrafficCache = []) ∧
    ∃ res s1, computeOverallTrafficResult fuel (State.init g) = some (res, s1) ∧
      ∃ s2, computeOverallTrafficResult fuel { resetDataStructures s1 with cityMap := g' } =
        some (res, s2) := by
  obtain ⟨res, s1, s2, h1, h2⟩ := computeOverallTrafficResult_perm
    ⟨hforest, hwf.symmetric, hwf.noZero⟩ hwf.uniqueKeys hperm fuel hfuel
  exact ⟨⟨rfl, rfl, rfl⟩, res, s1, h1, s2, h2⟩

theorem resetDataStructures_replay_witness :
    WellFormed testGraph3 ∧ Forest testGraph3 ∧ testGraph3.Perm testGraph3.reverse ∧
    testGraph3.length < 6 ∧
    parseInput ["1:[5]", "2:[5]", "3:[5]", "4:[5]", "5:[1,2,3,4]"]
      (resetDataStructures ⟨testGraph3, [(2, 7)], testGraph3Cache⟩).cityMap = some testGraph3 ∧
    ((resetDataStructures ⟨testGraph3, [(2, 7)], testGraph3Cache⟩).cityMap = [] ∧
      (resetDataStructures ⟨testGraph3, [(2, 7)], testGraph3Cache⟩).trafficMap = [] ∧
      (resetDataStructures ⟨testGraph3, [(2, 7)], testGraph3Cache⟩).cityPathTrafficCache = []) ∧
    ∃ res s1, computeOverallTrafficResult 6 (State.init testGraph3) = some (res, s1) ∧
      ∃ s2, computeOverallTrafficResult 6
          { resetDataStructures s1 with cityMap := testGraph3.reverse } = some (res, s2) :=
  ⟨wellFormed_testGraph3, forest_testGraph3, (List.reverse_perm testGraph3).symm, by decide,
    by decide,
    resetDataStructures_replay testGraph3 testGraph3.reverse wellFormed_testGraph3
      forest_testGraph3 (List.reverse_perm testGraph3).symm
      ⟨testGraph3, [(2, 7)], testGraph3Cache⟩ 6 (by decide)⟩

/-! ## Cache entries, neighbour sequences and graph entries are kept -/

theorem Extends.extends_refl (s : State) : Extends s s :=
  ⟨fun _ h => h, fun _ _ h => h, fun _ => rfl, fun _ _ h => h⟩

theorem Extends.extends_trans {s1 s2 s3 : State} (h12 : Extends s1 s2) (h23 : Extends s2 s3) :
    Extends s1 s3 :=
  ⟨fun x hx => h23.grows x (h12.grows x hx), fun k x h => h23.cache k x (h12.cache k x h),
    fun v => (h23.neighbours v).trans (h12.neighbours v),
    fun k l h => h23.entries k l (h12.entries k l h)⟩

theorem mapFind_mapEmplace_of_some {κ β : Type} [DecidableEq κ] (m : List (κ × β)) (k j : κ)
    (v x : β) (h : mapFind m j = some x) : mapFind (mapEmplace m k v) j = some x := by
  by_cases hkj : k = j
  · subst hkj
    rw [mapEmplace_of_some v h]
    exact h
  · rw [mapFind_mapEmplace_ne m v hkj]
    exact h

theorem neighboursOf_mapEmplace_nil (cm : CityMap) (k v : City) :
    neighboursOf (mapEmplace cm k []) v = neighboursOf cm v := by
  unfold neighboursOf
  by_cases hkv : k = v
  · subst hkv
    rw [mapFind_mapEmplace_self]
    cases mapFind cm k <;> rfl
  · rw [mapFind_mapEmplace_ne cm [] hkv]

theorem Extends.emplace_city (s : State) (k : City) :
    Extends s { s with cityMap := mapEmplace s.cityMap k [] } :=
  ⟨fun _ h => h, fun _ _ h => h, fun _ => neighboursOf_mapEmplace_nil _ _ _,
    fun _ _ h => mapFind_mapEmplace_of_some _ _ _ _ _ h⟩

theorem Extends.emplace_traffic (s : State) (k : City) (t : Traffic) :
    Extends s { s with trafficMap := mapEmplace s.trafficMap k t } :=
  ⟨fun _ h => mapFind_mapEmplace_ne_none _ _ _ _ h, fun _ _ h => h, fun _ => rfl,
    fun _ _ h => h⟩

/-- Every call of `traverseCitiesViaPath` extends the state, on every graph. -/
theorem traverseCitiesViaPath_extends :
    ∀ (fuel : Nat) (s s' : State) (p : CityPath),
      traverseCitiesViaPath fuel s p = some s' → Extends s s' := by
  intro fuel
  induction fuel with
  | zero => intro s s' p h; simp [traverseCitiesViaPath] at h
  | succ f ih =>
    intro s s' p h
    rw [traverseCitiesViaPath] at h
    cases hc : mapFind s.cityPathTrafficCache p with
    | some c =>
      simp only [hc, Option.some.injEq] at h
      subst h
      exact ⟨fun x hx => mapFind_mapAssign_ne_none _ _ _ _ hx, fun _ _ h => h, fun _ => rfl,
        fun _ _ h => h⟩
    | none =>
      simp only [hc] at h
      cases hv : visitNeighbours (traverseCitiesViaPath f) p.1 ((mapFind s.cityMap p.1).getD [])
          { s with cityMap := mapEmplace s.cityMap p.1 [] } with
      | none => simp [hv] at h
      | some s1 =>
        simp only [hv, Option.some.injEq] at h
        obtain ⟨hext, _, _⟩ := visitNeighbours_invariant
          (fun sc => Extends s sc) (traverseCitiesViaPath f) p.1 _ (by
            intro n _ sc s2 hsc _ hrec
            have h2 := ih _ s2 _ hrec
            exact ⟨(hsc.extends_trans (Extends.emplace_traffic sc n 0)).extends_trans h2,
              h2.grows⟩)
          _ s1 (Extends.emplace_city s p.1) hv
        subst h
        refine ⟨?_, ?_, hext.neighbours, hext.entries⟩
        · intro x hx
          exact mapFind_mapAssign_ne_none _ _ _ _
            (computeTrafficLoop_grows _ _ _ _ _ (hext.grows x hx))
        · intro k x hk
          exact mapFind_mapEmplace_of_some _ _ _ _ _ (hext.cache k x hk)

theorem maxTrafficLoop_grows :
    ∀ (l : Neighbourhood) (tm : TrafficMap) (acc : Traffic) (x : City),
      mapFind tm x ≠ none → mapFind (maxTrafficLoop l tm acc).2 x ≠ none := by
  intro l
  induction l with
  | nil => intro tm acc x h; exact h
  | cons n rest ih =>
    intro tm acc x h
    rw [maxTrafficLoop]
    exact ih _ _ _ (mapFind_mapEmplace_ne_none _ _ _ _ h)

theorem computeMaximumTraffic_extends {fuel : Nat} {s : State} {city : City} {t : Traffic}
    {s' : State} (h : computeMaximumTraffic fuel s city = some (t, s')) : Extends s s' := by
  unfold computeMaximumTraffic at h
  cases ht : traverseCitiesViaPath fuel s (city, 0) with
  | none => simp [ht] at h
  | some s1 =>
    simp only [ht, Option.some.injEq, Prod.mk.injEq] at h
    have hext := traverseCitiesViaPath_extends fuel s s1 _ ht
    rw [← h.2]
    refine ⟨?_, hext.cache, ?_, ?_⟩
    · intro x hx
      exact maxTrafficLoop_grows _ _ _ _ (hext.grows x hx)
    · intro v
      exact (neighboursOf_mapEmplace_nil _ _ _).trans (hext.neighbours v)
    · intro k l hk
      exact mapFind_mapEmplace_of_some _ _ _ _ _ (hext.entries k l hk)

/-- The batch keeps every cache entry, neighbour sequence and graph entry. -/
theorem overallLoop_keeps (fuel : Nat) :
    ∀ (cities : List City) (s : State) (acc res : TrafficResult) (s' : State),
      overallLoop fuel cities s acc = some (res, s') →
      (∀ k x, mapFind s.cityPathTrafficCache k = some x →
        mapFind s'.cityPathTrafficCache k = some x) ∧
      (∀ v, neighboursOf s'.cityMap v = neighboursOf s.cityMap v) ∧
      (∀ k l, mapFind s.cityMap k = some l → mapFind s'.cityMap k = some l) := by
  intro cities
  induction cities with
  | nil =>
    intro s acc res s' h
    simp only [overallLoop, Option.some.injEq, Prod.mk.injEq] at h
    rw [← h.2]
    exact ⟨fun _ _ h => h, fun _ => rfl, fun _ _ h => h⟩
  | cons c rest ih =>
    intro s acc res s' h
    simp only [overallLoop] at h
    cases hm : computeMaximumTraffic fuel s c with
    | none => simp [hm] at h
    | some ts =>
      obtain ⟨t, s1⟩ := ts
      simp only [hm] at h
      have hext := computeMaximumTraffic_extends hm
      obtain ⟨h1, h2, h3⟩ := ih _ _ _ _ h
      exact ⟨fun k x hk => h1 k x (hext.cache k x hk),
        fun v => (h2 v).trans (hext.neighbours v),
        fun k l hk => h3 k l (hext.entries k l hk)⟩

/-! ## Cache entries are never invalidated -/

theorem traverseCitiesViaPath_hit {fuel : Nat} {s s' : State} {p : CityPath} {x : Traffic}
    (hx : mapFind s.cityPathTrafficCache p = some x)
    (h : traverseCitiesViaPath fuel s p = some s') :
    s' = { s with trafficMap := mapAssign s.trafficMap p.1 x } := by
  cases fuel with
  | zero => simp [traverseCitiesViaPath] at h
  | succ f =>
    rw [traverseCitiesViaPath] at h
    simp only [hx, Option.some.injEq] at h
    exact h.symm

theorem computeOverallTrafficResult_keeps {fuel : Nat} {s : State} {res : TrafficResult}
    {s' : State} (h : computeOverallTrafficResult fuel s = some (res, s')) :
    (∀ k x, mapFind s.cityPathTrafficCache k = some x →
      mapFind s'.cityPathTrafficCache k = some x) ∧
    (∀ v, neighboursOf s'.cityMap v = neighboursOf s.cityMap v) ∧
    (∀ k l, mapFind s.cityMap k = some l → mapFind s'.cityMap k = some l) := by
  unfold computeOverallTrafficResult at h
  cases ho : overallLoop fuel (mapKeys s.cityMap) s [] with
  | none => simp [ho] at h
  | some rs =>
    obtain ⟨res0, s0⟩ := rs
    simp only [ho, Option.some.injEq, Prod.mk.injEq] at h
    rw [← h.2]
    exact overallLoop_keeps fuel _ _ _ _ _ ho

/-- C12: an entry `(u, excluded) ↦ x` of the directed-edge cache is still there, with the
same value, after any call of `traverseCitiesViaPath`, of `computeMaximumTraffic` and of
`computeOverallTrafficResult`, on every graph and from every state.  Resolving
`(u, excluded)` then leaves `x` in the working set for `u`, and so does a second resolution
from any later state whose cache has kept the entries. -/
theorem cache_never_invalidated (s : State) (u excluded : City) (x : Traffic)
    (hx : mapFind s.cityPathTrafficCache (u, excluded) = some x) :
    (∀ fuel p s', traverseCitiesViaPath fuel s p = some s' →
      mapFind s'.cityPathTrafficCache (u, excluded) = some x) ∧
    (∀ fuel root t s', computeMaximumTraffic fuel s root = some (t, s') →
      mapFind s'.cityPathTrafficCache (u, excluded) = some x) ∧
    (∀ fuel res s', computeOverallTrafficResult fuel s = some (res, s') →
      mapFind s'.cityPathTrafficCache (u, excluded) = some x) ∧
    (∀ fuel s1, traverseCitiesViaPath fuel s (u, excluded) = some s1 →
      mapFind s1.trafficMap u = some x ∧
      ∀ s2, (∀ k y, mapFind s1.cityPathTrafficCache k = some y →
          mapFind s2.cityPathTrafficCache k = some y) →
        ∀ fuel2 s3, traverseCitiesViaPath fuel2 s2 (u, excluded) = some s3 →
          mapFind s3.trafficMap u = some x) := by
  refine ⟨?_, ?_, ?_, ?_⟩
  · intro fuel p s' h
    exact (traverseCitiesViaPath_extends fuel s s' p h).cache _ _ hx
  · intro fuel root t s' h
    exact (computeMaximumTraffic_extends h).cache _ _ hx
  · intro fuel res s' h
    exact (computeOverallTrafficResult_keeps h).1 _ _ hx
  · intro fuel s1 h1
    have hs1 := traverseCitiesViaPath_hit hx h1
    refine ⟨by rw [hs1]; exact mapFind_mapAssign_self _ _ _, ?_⟩
    intro s2 hkeep fuel2 s3 h3
    have hx1 : mapFind s1.cityPathTrafficCache (u, excluded) = some x := by rw [hs1]; exact hx
    have hs3 := traverseCitiesViaPath_hit (hkeep _ _ hx1) h3
    rw [hs3]
    exact mapFind_mapAssign_self _ _ _

theorem cache_never_invalidated_witness :
    mapFind (State.mk testGraph3 [] testGraph3Cache).cityPathTrafficCache (5, 1) = some 9 ∧
    computeOverallTrafficResult 6 ⟨testGraph3, [], testGraph3Cache⟩ =
      some ([(1, 5), (2, 5), (3, 5), (4, 5), (5, 4)], ⟨testGraph3, [], testGraph3Cache⟩) ∧
    mapFind (State.mk testGraph3 [] testGraph3Cache).cityPathTrafficCache (5, 1) = some 9 :=
  ⟨by decide, by decide,
    (cache_never_invalidated ⟨testGraph3, [], testGraph3Cache⟩ 5 1 9 (by decide)).2.2.1 6
      [(1, 5), (2, 5), (3, 5), (4, 5), (5, 4)] ⟨testGraph3, [], testGraph3Cache⟩ (by decide)⟩

/-! ## Termination on every graph -/

/-- C16: on every graph (with cycles, self-loops, asymmetric adjacency or neighbours that are
not keys) and from every cache and working set, `traverseCitiesViaPath` returns for every
directed edge and `computeMaximumTraffic` for every root, once the fuel exceeds the number
of cities that are named in a neighbour list and absent from the working set.  Every
recursive call is preceded by the insertion of such a city. -/
theorem traversal_terminates (fuel : Nat) (s : State) (hfuel : (unvisited s).card < fuel) :
    (∀ cityPath, ∃ s', traverseCitiesViaPath fuel s cityPath = some s') ∧
    (∀ root, ∃ t s', computeMaximumTraffic fuel s root = some (t, s')) := by
  constructor
  · intro p
    obtain ⟨s', h, _⟩ := traverseCitiesViaPath_terminates fuel s p hfuel
    exact ⟨s', h⟩
  · intro root
    obtain ⟨t, s', h, _⟩ := computeMaximumTraffic_terminates fuel s root hfuel
    exact ⟨t, s', h⟩

theorem traversal_terminates_witness :
    (unvisited ⟨[(1, [1, 2, 3]), (2, [3, 1]), (3, [9, 2])], [(2, 7)], [((3, 2), 5)]⟩).card < 4 ∧
    (∀ cityPath, ∃ s', traverseCitiesViaPath 4
      ⟨[(1, [1, 2, 3]), (2, [3, 1]), (3, [9, 2])], [(2, 7)], [((3, 2), 5)]⟩ cityPath = some s') ∧
    (∀ root, ∃ t s', computeMaximumTraffic 4
      ⟨[(1, [1, 2, 3]), (2, [3, 1]), (3, [9, 2])], [(2, 7)], [((3, 2), 5)]⟩ root = some (t, s')) :=
  ⟨by decide, traversal_terminates 4 _ (by decide)⟩

/-! ## A second evaluation without reset -/

theorem traverseCitiesViaPath_cached {fuel : Nat} {s s' : State} {p : CityPath}
    (h : traverseCitiesViaPath fuel s p = some s') :
    mapFind s'.cityPathTrafficCache p ≠ none := by
  cases fuel with
  | zero => simp [traverseCitiesViaPath] at h
  | succ f =>
    rw [traverseCitiesViaPath] at h
    cases hc : mapFind s.cityPathTrafficCache p with
    | some c =>
      simp only [hc, Option.some.injEq] at h
      rw [← h]
      simp [hc]
    | none =>
      simp only [hc] at h
      cases hv : visitNeighbours (traverseCitiesViaPath f) p.1 ((mapFind s.cityMap p.1).getD [])
          { s with cityMap := mapEmplace s.cityMap p.1 [] } with
      | none => simp [hv] at h
      | some s1 =>
        simp only [hv, Option.some.injEq] at h
        rw [← h]
        simp [mapFind_mapEmplace_self]

theorem foldr_max_map_congr (f g : City → Nat) :
    ∀ (l : List City), (∀ n ∈ l, f n = g n) →
      (l.map f).foldr max 0 = (l.map g).foldr max 0 := by
  intro l
  induction l with
  | nil => intro _; rfl
  | cons a rest ih =>
    intro h
    simp only [List.map_cons, List.foldr_cons]
    rw [h a (List.mem_cons_self _ _), ih (fun n hn => h n (List.mem_cons_of_mem _ hn))]

/-- C17 (as stated, refuted): on the star graph the first `computeMaximumTraffic(1)` returns
`14` and, the working set cleared and the cache kept, the second returns `5`; a second batch
without reset returns `1:5, 2:5, 3:5, 4:5, 5:4` after `1:14, 2:13, 3:12, 4:11, 5:4`. -/
theorem second_evaluation_differs :
    (computeMaximumTraffic 6 (State.init testGraph3) 1).bind (fun r =>
      (computeMaximumTraffic 6 { r.2 with trafficMap := [] } 1).map (fun r2 => (r.1, r2.1))) =
        some (14, 5) ∧
    (computeOverallTrafficResult 6 (State.init testGraph3)).bind (fun r =>
      (computeOverallTrafficResult 6 r.2).map (fun r2 => (r.1, r2.1))) =
        some ([(1, 14), (2, 13), (3, 12), (4, 11), (5, 4)],
          [(1, 5), (2, 5), (3, 5), (4, 5), (5, 4)]) := by
  decide

/-- C17 (amended): after `computeMaximumTraffic(v)` has returned, on any graph in which `v`
does not list itself, a second call made with the working set cleared and the cache kept
finds `(v, 0)` cached, visits no neighbour and returns the largest neighbour identifier of
`v` modulo `2 ^ 64`: every neighbour is read from the working set as `0`. -/
theorem computeMaximumTraffic_again (fuel : Nat) (s : State) (v : City) (t1 : Traffic)
    (s1 : State) (hfirst : computeMaximumTraffic fuel s v = some (t1, s1))
    (hself : v ∉ neighboursOf s.cityMap v) (fuel2 : Nat) :
    ∃ s2, computeMaximumTraffic (fuel2 + 1) { s1 with trafficMap := [] } v =
      some (((neighboursOf s.cityMap v).map (fun n => n % UINT64_MOD)).foldr max 0, s2) := by
  have hext := computeMaximumTraffic_extends hfirst
  have hcached : mapFind s1.cityPathTrafficCache (v, 0) ≠ none := by
    unfold computeMaximumTraffic at hfirst
    cases ht : traverseCitiesViaPath fuel s (v, 0) with
    | none => simp [ht] at hfirst
    | some s0 =>
      have hc := traverseCitiesViaPath_cached ht
      simp only [ht, Option.some.injEq, Prod.mk.injEq] at hfirst
      rw [← hfirst.2]
      exact hc
  obtain ⟨x, hx⟩ := Option.ne_none_iff_exists'.1 hcached
  have hnb : (mapFind s1.cityMap v).getD [] = neighboursOf s.cityMap v := hext.neighbours v
  have hval : (maxTrafficLoop (neighboursOf s.cityMap v) (mapAssign [] v x) 0).1 =
      ((neighboursOf s.cityMap v).map (fun n => n % UINT64_MOD)).foldr max 0 := by
    rw [maxTrafficLoop_fst, Nat.zero_max]
    apply foldr_max_map_congr
    intro n hn
    have hnv : v ≠ n := fun e => hself (e ▸ hn)
    simp [mapAssign, mapFind, hnv]
  unfold computeMaximumTraffic
  rw [traverseCitiesViaPath]
  simp only [hx, hnb, hval]
  exact ⟨_, rfl⟩

theorem computeMaximumTraffic_again_witness :
    computeMaximumTraffic 6 (State.init testGraph3) 1 =
      some (14, ⟨testGraph3, [(5, 9), (1, 14), (2, 0), (3, 0), (4, 0)],
        [((1, 5), 0), ((2, 5), 0), ((3, 5), 0), ((4, 5), 0), ((5, 1), 9), ((1, 0), 14)]⟩) ∧
    1 ∉ neighboursOf (State.init testGraph3).cityMap 1 ∧
    ∃ s2, computeMaximumTraffic (0 + 1)
        { (State.mk testGraph3 [(5, 9), (1, 14), (2, 0), (3, 0), (4, 0)]
            [((1, 5), 0), ((2, 5), 0), ((3, 5), 0), ((4, 5), 0), ((5, 1), 9), ((1, 0), 14)]) with
          trafficMap := [] } 1 =
      some (((neighboursOf (State.init testGraph3).cityMap 1).map
        (fun n => n % UINT64_MOD)).foldr max 0, s2) :=
  ⟨by decide, by decide,
    computeMaximumTraffic_again 6 (State.init testGraph3) 1 14
      ⟨testGraph3, [(5, 9), (1, 14), (2, 0), (3, 0), (4, 0)],
        [((1, 5), 0), ((2, 5), 0), ((3, 5), 0), ((4, 5), 0), ((5, 1), 9), ((1, 0), 14)]⟩
      (by decide) (by decide) 0⟩

/-! ## Dropping the log -/

theorem visitNeighboursLog_erase {r1 : State → CityPath → Option (State × List CallRecord)}
    {r2 : State → CityPath → Option State}
    (h : ∀ s p, (r1 s p).map Prod.fst = r2 s p) (city : City) :
    ∀ (l : Neighbourhood) (s : State),
      (visitNeighboursLog r1 city l s).map Prod.fst = visitNeighbours r2 city l s := by
  intro l
  induction l with
  | nil => intro s; rfl
  | cons n rest ih =>
    intro s
    simp only [visitNeighboursLog, visitNeighbours]
    cases hf : mapFind s.trafficMap n with
    | some x => exact ih s
    | none =>
      simp only
      rw [← h]
      cases hr : r1 { s with trafficMap := mapEmplace s.trafficMap n 0 } (n, city) with
      | none => rfl
      | some sl =>
        obtain ⟨s1, log1⟩ := sl
        simp only [Option.map_some']
        rw [← ih s1]
        cases visitNeighboursLog r1 city rest s1 with
        | none => rfl
        | some sl2 => rfl

theorem traverseCitiesViaPathLog_erase :
    ∀ (fuel : Nat) (s : State) (p : CityPath),
      (traverseCitiesViaPathLog fuel s p).map Prod.fst = traverseCitiesViaPath fuel s p := by
  intro fuel
  induction fuel with
  | zero => intro s p; rfl
  | succ f ih =>
    intro s p
    rw [traverseCitiesViaPathLog, traverseCitiesViaPath]
    cases hc : mapFind s.cityPathTrafficCache p with
    | some c => rfl
    | none =>
      simp only
      rw [← visitNeighboursLog_erase ih]
      cases visitNeighboursLog (traverseCitiesViaPathLog f) p.1 ((mapFind s.cityMap p.1).getD [])
          { s with cityMap := mapEmplace s.cityMap p.1 [] } with
      | none => rfl
      | some sl => rfl

theorem computeMaximumTrafficLog_erase (fuel : Nat) (s : State) (city : City) :
    (computeMaximumTrafficLog fuel s city).map (fun r => (r.1, r.2.1)) =
      computeMaximumTraffic fuel s city := by
  unfold computeMaximumTrafficLog computeMaximumTraffic
  rw [← traverseCitiesViaPathLog_erase]
  cases traverseCitiesViaPathLog fuel s (city, 0) with
  | none => rfl
  | some sl => rfl

theorem overallLoopLog_erase (fuel : Nat) :
    ∀ (cities : List City) (s : State) (acc : TrafficResult),
      (overallLoopLog fuel cities s acc).map (fun r => (r.1, r.2.1)) =
        overallLoop fuel cities s acc := by
  intro cities
  induction cities with
  | nil => intro s acc; rfl
  | cons c rest ih =>
    intro s acc
    simp only [overallLoopLog, overallLoop]
    rw [← computeMaximumTrafficLog_erase]
    cases hm : computeMaximumTrafficLog fuel s c with
    | none => rfl
    | some r =>
      obtain ⟨t, s1, calls⟩ := r
      simp only [Option.map_some']
      rw [← ih]
      cases overallLoopLog fuel rest { s1 with trafficMap := [] } (acc ++ [(c, t)]) with
      | none => rfl
      | some r2 => rfl

theorem computeOverallTrafficResultLog_erase (fuel : Nat) (s : State) :
    (computeOverallTrafficResultLog fuel s).map (fun r => (r.1, r.2.1)) =
      computeOverallTrafficResult fuel s := by
  unfold computeOverallTrafficResultLog computeOverallTrafficResult
  rw [← overallLoopLog_erase]
  cases overallLoopLog fuel (mapKeys s.cityMap) s [] with
  | none => rfl
  | some r => rfl

/-! ## The log of a call -/

theorem traverseCitiesViaPath_of_log {fuel : Nat} {s s' : State} {p : CityPath}
    {log : List CallRecord} (h : traverseCitiesViaPathLog fuel s p = some (s', log)) :
    traverseCitiesViaPath fuel s p = some s' := by
  rw [← traverseCitiesViaPathLog_erase, h]
  rfl

theorem traverseCitiesViaPathLog_of_some {fuel : Nat} {s s' : State} {p : CityPath}
    (h : traverseCitiesViaPath fuel s p = some s') :
    ∃ log, traverseCitiesViaPathLog fuel s p = some (s', log) := by
  rw [← traverseCitiesViaPathLog_erase] at h
  cases hl : traverseCitiesViaPathLog fuel s p with
  | none => simp [hl] at h
  | some sl =>
    obtain ⟨s1, log⟩ := sl
    simp only [hl, Option.map_some', Option.some.injEq] at h
    exact ⟨log, by rw [h]⟩

theorem missPaths_append (l1 l2 : List CallRecord) :
    missPaths (l1 ++ l2) = missPaths l1 ++ missPaths l2 := by
  simp [missPaths]

theorem mem_missPaths {log : List CallRecord} {q : CityPath} (h : q ∈ missPaths log) :
    ∃ r ∈ log, r.path = q := by
  simp only [missPaths, List.mem_map, List.mem_filter] at h
  obtain ⟨r, hr, hq⟩ := h
  exact ⟨r, hr.1, hq⟩

theorem mapKeys_mapEmplace_of_none {κ β : Type} [DecidableEq κ] {m : List (κ × β)} {k : κ}
    (v : β) (h : mapFind m k = none) : mapKeys (mapEmplace m k v) = mapKeys m ++ [k] := by
  rw [mapEmplace_of_none v h]
  simp [mapKeys]

/-- C14: when the cache holds `x` for `(vertex, excluded)`, the call returns with this call
as the only entry of its log, so it makes no recursive call (one unit of fuel is enough);
the graph and the cache are unchanged, the working set holds `x` for `vertex` and is
unchanged at every other city, so no neighbour is inserted. -/
theorem cache_hit_short_circuits (fuel : Nat) (s : State) (vertex excluded : City) (x : Traffic)
    (hx : mapFind s.cityPathTrafficCache (vertex, excluded) = some x) :
    ∃ s', traverseCitiesViaPathLog (fuel + 1) s (vertex, excluded) =
        some (s', [⟨(vertex, excluded), false, s'⟩]) ∧
      traverseCitiesViaPath (fuel + 1) s (vertex, excluded) = some s' ∧
      s'.cityMap = s.cityMap ∧ s'.cityPathTrafficCache = s.cityPathTrafficCache ∧
      mapFind s'.trafficMap vertex = some x ∧
      ∀ k, k ≠ vertex → mapFind s'.trafficMap k = mapFind s.trafficMap k := by
  refine ⟨{ s with trafficMap := mapAssign s.trafficMap vertex x }, ?_, ?_, rfl, rfl,
    mapFind_mapAssign_self _ _ _, fun k hk => mapFind_mapAssign_ne _ _ (fun e => hk e.symm)⟩
  · rw [traverseCitiesViaPathLog]
    simp only [hx]
  · rw [traverseCitiesViaPath]
    simp only [hx]

theorem cache_hit_short_circuits_witness :
    mapFind (State.mk testGraph3 [(2, 7)] testGraph3Cache).cityPathTrafficCache (5, 1) = some 9 ∧
    ∃ s', traverseCitiesViaPathLog (0 + 1) ⟨testGraph3, [(2, 7)], testGraph3Cache⟩ (5, 1) =
        some (s', [⟨(5, 1), false, s'⟩]) ∧
      traverseCitiesViaPath (0 + 1) ⟨testGraph3, [(2, 7)], testGraph3Cache⟩ (5, 1) = some s' ∧
      s'.cityMap = (State.mk testGraph3 [(2, 7)] testGraph3Cache).cityMap ∧
      s'.cityPathTrafficCache =
        (State.mk testGraph3 [(2, 7)] testGraph3Cache).cityPathTrafficCache ∧
      mapFind s'.trafficMap 5 = some 9 ∧
      ∀ k, k ≠ 5 → mapFind s'.trafficMap k =
        mapFind (State.mk testGraph3 [(2, 7)] testGraph3Cache).trafficMap k :=
  ⟨by decide,
    cache_hit_short_circuits 0 ⟨testGraph3, [(2, 7)], testGraph3Cache⟩ 5 1 9 (by decide)⟩

/-- The log of the neighbour loop, given the contract of the recursive calls. -/
theorem visitNeighboursLog_spec
    {recurse : State → CityPath → Option (State × List CallRecord)} (city : City)
    (hrec : ∀ s p s' log, neighboursOf s.cityMap 0 = [] → mapFind s.trafficMap p.1 ≠ none →
      recurse s p = some (s', log) → CallLog s s' p log) :
    ∀ (l : Neighbourhood) (s s' : State) (log : List CallRecord),
      neighboursOf s.cityMap 0 = [] → (∀ n ∈ l, n ∈ neighboursOf s.cityMap city) →
      visitNeighboursLog recurse city l s = some (s', log) → LoopLog s s' log := by
  intro l
  induction l with
  | nil =>
    intro s s' log _ _ h
    simp only [visitNeighboursLog, Option.some.injEq, Prod.mk.injEq] at h
    obtain ⟨h1, h2⟩ := h
    subst h1 h2
    exact ⟨Extends.extends_refl s, by simp [missPaths], fun h => h,
      fun r hr => by simp at hr, fun r hr => by simp at hr⟩
  | cons n rest ih =>
    intro s s' log hzero hl h
    simp only [visitNeighboursLog] at h
    cases hf : mapFind s.trafficMap n with
    | some t =>
      simp only [hf] at h
      exact ih s s' log hzero (fun m hm => hl m (List.mem_cons_of_mem _ hm)) h
    | none =>
      simp only [hf] at h
      cases hr : recurse { s with trafficMap := mapEmplace s.trafficMap n 0 } (n, city) with
      | none => simp [hr] at h
      | some sl =>
        obtain ⟨s1, log1⟩ := sl
        simp only [hr] at h
        cases hv : visitNeighboursLog recurse city rest s1 with
        | none => simp [hv] at h
        | some sl2 =>
          obtain ⟨s2, log2⟩ := sl2
          simp only [hv, Option.some.injEq, Prod.mk.injEq] at h
          obtain ⟨h1, h2⟩ := h
          subst h1 h2
          have hc1 : CallLog { s with trafficMap := mapEmplace s.trafficMap n 0 } s1 (n, city)
              log1 := hrec _ _ _ _ hzero (by simp [mapFind_mapEmplace_self]) hr
          have hext01 : Extends s s1 :=
            (Extends.emplace_traffic s n 0).extends_trans hc1.ext
          have hl2 : LoopLog s1 s2 log2 := ih s1 s2 log2
            (by rw [hext01.neighbours]; exact hzero)
            (fun m hm => by
              rw [hext01.neighbours]
              exact hl m (List.mem_cons_of_mem _ hm)) hv
          refine ⟨hext01.extends_trans hl2.ext, ?_, fun hn => hl2.nodup (hc1.nodup hn), ?_, ?_⟩
          · rw [hl2.keys, hc1.keys, missPaths_append, List.append_assoc]
          · intro r hr
            rcases List.mem_append.1 hr with hr | hr
            · exact hc1.ok r hr
            · exact hl2.ok r hr
          · intro r hr
            rcases List.mem_append.1 hr with hr | hr
            · rcases hc1.inner r hr with hp | hin
              · rw [hp]
                exact ⟨hf, hl n (List.mem_cons_self _ _)⟩
              · refine ⟨?_, hin.2⟩
                by_contra hne
                exact mapFind_mapEmplace_ne_none _ n _ 0 hne hin.1
            · obtain ⟨hfresh, hadj⟩ := hl2.inner r hr
              refine ⟨?_, by rw [← hext01.neighbours]; exact hadj⟩
              by_contra hne
              exact hext01.grows _ hne hfresh

/-! ## The postcondition of every call -/

/-- The contract of a call about its log, on every graph in which `0` has no neighbour: for
a call whose first city is in the working set or whose excluded city is `0`, the cache
grows exactly by the directed edges whose cache-miss body was executed, and every call of
the log returned with its edge cached and the same value in the working set. -/
theorem traverseCitiesViaPathLog_spec :
    ∀ (fuel : Nat) (s : State) (p : CityPath) (s' : State) (log : List CallRecord),
      neighboursOf s.cityMap 0 = [] → (mapFind s.trafficMap p.1 ≠ none ∨ p.2 = 0) →
      traverseCitiesViaPathLog fuel s p = some (s', log) → CallLog s s' p log := by
  intro fuel
  induction fuel with
  | zero => intro s p s' log _ _ h; simp [traverseCitiesViaPathLog] at h
  | succ f ih =>
    intro s p s' log hzero hpre h
    have hext : Extends s s' := traverseCitiesViaPath_extends _ _ _ _ (traverseCitiesViaPath_of_log h)
    rw [traverseCitiesViaPathLog] at h
    cases hc : mapFind s.cityPathTrafficCache p with
    | some c =>
      simp only [hc, Option.some.injEq, Prod.mk.injEq] at h
      obtain ⟨h1, h2⟩ := h
      subst h1
      refine ⟨hext, by rw [← h2]; simp [missPaths], fun hn => hn, ?_, ?_, ⟨[], false, h2.symm⟩⟩
      · intro r hr
        rw [← h2, List.mem_singleton] at hr
        subst hr
        exact ⟨c, hc, mapFind_mapAssign_self _ _ _⟩
      · intro r hr
        rw [← h2, List.mem_singleton] at hr
        subst hr
        exact Or.inl rfl
    | none =>
      simp only [hc] at h
      cases hv : visitNeighboursLog (traverseCitiesViaPathLog f) p.1
          ((mapFind s.cityMap p.1).getD []) { s with cityMap := mapEmplace s.cityMap p.1 [] } with
      | none => simp [hv] at h
      | some sl =>
        obtain ⟨s1, log1⟩ := sl
        simp only [hv, Option.some.injEq, Prod.mk.injEq] at h
        obtain ⟨h1, h2⟩ := h
        have hn0 : ∀ v, neighboursOf (mapEmplace s.cityMap p.1 []) v = neighboursOf s.cityMap v :=
          fun v => neighboursOf_mapEmplace_nil _ _ _
        have hloop : LoopLog { s with cityMap := mapEmplace s.cityMap p.1 [] } s1 log1 :=
          visitNeighboursLog_spec p.1
            (fun s p s' log hz hp hr => ih s p s' log hz (Or.inl hp) hr) _ _ _ _
            (by rw [hn0]; exact hzero)
            (fun n hn => by rw [hn0]; exact hn) hv
        have hkeys1 : mapKeys s1.cityPathTrafficCache =
            mapKeys s.cityPathTrafficCache ++ missPaths log1 := hloop.keys
        have habsent : mapFind s1.cityPathTrafficCache p = none := by
          rw [mapFind_eq_none_iff, hkeys1, List.mem_append]
          rintro (hk | hk)
          · exact (mapFind_eq_none_iff _ _).1 hc hk
          · obtain ⟨r, hr, hrp⟩ := mem_missPaths hk
            obtain ⟨hfresh, hadj⟩ := hloop.inner r hr
            rw [hrp] at hfresh hadj
            rcases hpre with hp | hp
            · exact hp hfresh
            · rw [hn0, hp, hzero] at hadj
              simp at hadj
        subst h1
        refine ⟨hext, ?_, ?_, ?_, ?_, ⟨log1, true, h2.symm⟩⟩
        · rw [← h2, missPaths_append]
          simp only
          rw [mapKeys_mapEmplace_of_none _ habsent, hkeys1]
          simp [missPaths]
        · intro hn
          simp only
          rw [mapKeys_mapEmplace_of_none _ habsent, List.nodup_append]
          refine ⟨hloop.nodup hn, List.nodup_singleton _, ?_⟩
          intro q hq hq'
          rw [List.mem_singleton] at hq'
          rw [hq'] at hq
          exact (mapFind_eq_none_iff _ _).1 habsent hq
        · intro r hr
          rw [← h2] at hr
          rcases List.mem_append.1 hr with hr | hr
          · exact hloop.ok r hr
          · rw [List.mem_singleton] at hr
            subst hr
            exact ⟨_, mapFind_mapEmplace_self_of_none _ habsent, mapFind_mapAssign_self _ _ _⟩
        · intro r hr
          rw [← h2] at hr
          rcases List.mem_append.1 hr with hr | hr
          · obtain ⟨hfresh, hadj⟩ := hloop.inner r hr
            exact Or.inr ⟨hfresh, by rw [← hn0]; exact hadj⟩
          · rw [List.mem_singleton] at hr
            subst hr
            exact Or.inl rfl

/-! ## The evaluation of a root, with its log -/

theorem neighboursOf_zero_of_noZero {g : CityMap} (h : NoZero g) : neighboursOf g 0 = [] := by
  have hnone : mapFind g 0 = none := (mapFind_eq_none_iff g 0).2 h
  simp [neighboursOf, hnone]

theorem computeMaximumTrafficLog_of_some {fuel : Nat} {s : State} {city : City} {t : Traffic}
    {s' : State} (h : computeMaximumTraffic fuel s city = some (t, s')) :
    ∃ log, computeMaximumTrafficLog fuel s city = some (t, s', log) := by
  rw [← computeMaximumTrafficLog_erase] at h
  cases hl : computeMaximumTrafficLog fuel s city with
  | none => simp [hl] at h
  | some r =>
    obtain ⟨t1, s1, log⟩ := r
    simp only [hl, Option.map_some', Option.some.injEq, Prod.mk.injEq] at h
    exact ⟨log, by rw [h.1, h.2]⟩

theorem computeMaximumTraffic_of_log {fuel : Nat} {s : State} {city : City} {t : Traffic}
    {s' : State} {log : List CallRecord}
    (h : computeMaximumTrafficLog fuel s city = some (t, s', log)) :
    computeMaximumTraffic fuel s city = some (t, s') := by
  rw [← computeMaximumTrafficLog_erase, h]
  rfl

/-- The log of the evaluation of a root is the log of the call on `(root, 0)`. -/
theorem computeMaximumTrafficLog_calls {fuel : Nat} {s : State} {city : City} {t : Traffic}
    {s' : State} {log : List CallRecord}
    (h : computeMaximumTrafficLog fuel s city = some (t, s', log)) :
    ∃ s1, traverseCitiesViaPathLog fuel s (city, 0) = some (s1, log) ∧
      s'.cityPathTrafficCache = s1.cityPathTrafficCache := by
  unfold computeMaximumTrafficLog at h
  cases ht : traverseCitiesViaPathLog fuel s (city, 0) with
  | none => simp [ht] at h
  | some sl =>
    obtain ⟨s1, log1⟩ := sl
    simp only [ht, Option.some.injEq, Prod.mk.injEq] at h
    obtain ⟨_, h2, h3⟩ := h
    subst h3
    exact ⟨s1, rfl, by rw [← h2]⟩

/-- C15: on every graph without the city `0`, cyclic or not, the evaluation of a root
returns once the fuel suffices, whatever the cache and the working set at its start, and
every call of `traverseCitiesViaPath` made during it, the call on `(root, 0)` included,
returned with an entry for its directed edge in the cache and the same value in the working
set for its first city. -/
theorem resolve_postcondition (fuel : Nat) (s : State) (root : City)
    (hzero : NoZero s.cityMap) (hfuel : (unvisited s).card < fuel) :
    ∃ t s' log, computeMaximumTrafficLog fuel s root = some (t, s', log) ∧
      computeMaximumTraffic fuel s root = some (t, s') ∧
      (∃ log' m s1, log = log' ++ [⟨(root, 0), m, s1⟩]) ∧
      ∀ r ∈ log, ∃ x, mapFind r.after.cityPathTrafficCache r.path = some x ∧
        mapFind r.after.trafficMap r.path.1 = some x := by
  obtain ⟨t, s', h, _⟩ := computeMaximumTraffic_terminates fuel s root hfuel
  obtain ⟨log, hlog⟩ := computeMaximumTrafficLog_of_some h
  obtain ⟨s1, hcall, _⟩ := computeMaximumTrafficLog_calls hlog
  have hspec := traverseCitiesViaPathLog_spec fuel s (root, 0) s1 log
    (neighboursOf_zero_of_noZero hzero) (Or.inr rfl) hcall
  obtain ⟨log', m, hlast⟩ := hspec.last
  exact ⟨t, s', log, hlog, h, ⟨log', m, s1, hlast⟩, hspec.ok⟩

theorem resolve_postcondition_witness :
    NoZero (State.init [(1, [2, 3]), (2, [1, 3]), (3, [1, 2])]).cityMap ∧
    (unvisited (State.init [(1, [2, 3]), (2, [1, 3]), (3, [1, 2])])).card < 4 ∧
    ∃ t s' log, computeMaximumTrafficLog 4 (State.init [(1, [2, 3]), (2, [1, 3]), (3, [1, 2])]) 1 =
        some (t, s', log) ∧
      computeMaximumTraffic 4 (State.init [(1, [2, 3]), (2, [1, 3]), (3, [1, 2])]) 1 =
        some (t, s') ∧
      (∃ log' m s1, log = log' ++ [⟨(1, 0), m, s1⟩]) ∧
      ∀ r ∈ log, ∃ x, mapFind r.after.cityPathTrafficCache r.path = some x ∧
        mapFind r.after.trafficMap r.path.1 = some x :=
  have hz : NoZero (State.init [(1, [2, 3]), (2, [1, 3]), (3, [1, 2])]).cityMap := by
    unfold NoZero; decide
  ⟨hz, by decide, resolve_postcondition 4 _ 1 hz (by decide)⟩

/-! ## The graph is left as it was -/

theorem traverseCitiesViaPath_cityMap {g : CityMap} (hk : NeighboursAreKeys g) :
    ∀ (fuel : Nat) (s s' : State) (p : CityPath), s.cityMap = g → p.1 ∈ mapKeys g →
      traverseCitiesViaPath fuel s p = some s' → s'.cityMap = g := by
  intro fuel
  induction fuel with
  | zero => intro s s' p _ _ h; simp [traverseCitiesViaPath] at h
  | succ f ih =>
    intro s s' p hcm hp h
    rw [traverseCitiesViaPath] at h
    cases hc : mapFind s.cityPathTrafficCache p with
    | some c =>
      simp only [hc, Option.some.injEq] at h
      rw [← h]
      exact hcm
    | none =>
      simp only [hc] at h
      obtain ⟨l, hl⟩ := Option.ne_none_iff_exists'.1
        (fun e => ((mapFind_eq_none_iff g p.1).1 e) hp)
      rw [hcm, mapEmplace_of_some [] hl] at h
      cases hv : visitNeighbours (traverseCitiesViaPath f) p.1 ((mapFind g p.1).getD [])
          { s with cityMap := g } with
      | none => simp [hv] at h
      | some s1 =>
        simp only [hv, Option.some.injEq] at h
        obtain ⟨hcm1, _, _⟩ := visitNeighbours_invariant (fun sc => sc.cityMap = g)
          (traverseCitiesViaPath f) p.1 ((mapFind g p.1).getD []) (by
            intro n hn sc s2 hsc _ hrec
            exact ⟨ih { sc with trafficMap := mapEmplace sc.trafficMap n 0 } s2 (n, p.1) hsc
                (hk p.1 n hn) hrec,
              (traverseCitiesViaPath_extends _ _ _ _ hrec).grows⟩)
          { s with cityMap := g } s1 rfl hv
        rw [← h]
        exact hcm1

theorem computeMaximumTraffic_cityMap {g : CityMap} (hk : NeighboursAreKeys g) {fuel : Nat}
    {s s' : State} {city : City} {t : Traffic} (hcm : s.cityMap = g) (hc : city ∈ mapKeys g)
    (h : computeMaximumTraffic fuel s city = some (t, s')) : s'.cityMap = g := by
  unfold computeMaximumTraffic at h
  cases ht : traverseCitiesViaPath fuel s (city, 0) with
  | none => simp [ht] at h
  | some s1 =>
    simp only [ht, Option.some.injEq, Prod.mk.injEq] at h
    have hcm1 := traverseCitiesViaPath_cityMap hk fuel s s1 (city, 0) hcm hc ht
    obtain ⟨l, hl⟩ := Option.ne_none_iff_exists'.1
      (fun e => ((mapFind_eq_none_iff g city).1 e) hc)
    rw [← h.2]
    simp only
    rw [hcm1, mapEmplace_of_some [] hl]

theorem overallLoopLog_frame {g : CityMap} (hk : NeighboursAreKeys g) (fuel : Nat) :
    ∀ (cities : List City) (s : State) (acc res : TrafficResult) (s' : State)
      (roots : List RootRecord), s.cityMap = g → s.trafficMap = [] →
      (∀ c ∈ cities, c ∈ mapKeys g) →
      overallLoopLog fuel cities s acc = some (res, s', roots) →
      s'.cityMap = g ∧ s'.trafficMap = [] ∧ roots.map (fun r => r.city) = cities ∧
        ∀ r ∈ roots, r.before.cityMap = g ∧ r.before.trafficMap = [] := by
  intro cities
  induction cities with
  | nil =>
    intro s acc res s' roots hcm htm _ h
    simp only [overallLoopLog, Option.some.injEq, Prod.mk.injEq] at h
    obtain ⟨_, h2, h3⟩ := h
    subst h2 h3
    exact ⟨hcm, htm, rfl, fun r hr => by simp at hr⟩
  | cons c rest ih =>
    intro s acc res s' roots hcm htm hkeys h
    simp only [overallLoopLog] at h
    cases hm : computeMaximumTrafficLog fuel s c with
    | none => simp [hm] at h
    | some r1 =>
      obtain ⟨t, s1, calls⟩ := r1
      simp only [hm] at h
      cases ho : overallLoopLog fuel rest { s1 with trafficMap := [] } (acc ++ [(c, t)]) with
      | none => simp [ho] at h
      | some r2 =>
        obtain ⟨res2, s2, roots2⟩ := r2
        simp only [ho, Option.some.injEq, Prod.mk.injEq] at h
        obtain ⟨_, h2, h3⟩ := h
        subst h2 h3
        have hcm1 : s1.cityMap = g := computeMaximumTraffic_cityMap hk hcm
          (hkeys c (List.mem_cons_self _ _)) (computeMaximumTraffic_of_log hm)
        obtain ⟨hA, hB, hC, hD⟩ := ih { s1 with trafficMap := [] } (acc ++ [(c, t)]) res2 s2
          roots2 hcm1 rfl (fun x hx => hkeys x (List.mem_cons_of_mem _ hx)) ho
        refine ⟨hA, hB, by simp [hC], ?_⟩
        intro r hr
        rcases List.mem_cons.1 hr with hr | hr
        · subst hr
          exact ⟨hcm, htm⟩
        · exact hD r hr

theorem computeOverallTrafficResultLog_of_some {fuel : Nat} {s : State} {res : TrafficResult}
    {s' : State} (h : computeOverallTrafficResult fuel s = some (res, s')) :
    ∃ roots, computeOverallTrafficResultLog fuel s = some (res, s', roots) := by
  rw [← computeOverallTrafficResultLog_erase] at h
  cases hl : computeOverallTrafficResultLog fuel s with
  | none => simp [hl] at h
  | some r =>
    obtain ⟨res1, s1, roots⟩ := r
    simp only [hl, Option.map_some', Option.some.injEq, Prod.mk.injEq] at h
    exact ⟨roots, by rw [h.1, h.2]⟩

theorem computeOverallTrafficResultLog_loop {fuel : Nat} {s : State} {res : TrafficResult}
    {s' : State} {roots : List RootRecord}
    (h : computeOverallTrafficResultLog fuel s = some (res, s', roots)) :
    ∃ res0, overallLoopLog fuel (mapKeys s.cityMap) s [] = some (res0, s', roots) ∧
      res = List.insertionSort (fun a b : CityTraffic => a.1 ≤ b.1) res0 := by
  unfold computeOverallTrafficResultLog at h
  cases ho : overallLoopLog fuel (mapKeys s.cityMap) s [] with
  | none => simp [ho] at h
  | some r =>
    obtain ⟨res0, s0, roots0⟩ := r
    simp only [ho, Option.some.injEq, Prod.mk.injEq] at h
    obtain ⟨h1, h2, h3⟩ := h
    subst h2 h3
    exact ⟨res0, rfl, h1.symm⟩

/-- C18: when every neighbour is a key (and the keys are distinct), the batch started with
an empty working set returns once the fuel exceeds the number of cities, leaves the graph
exactly as it was and the working set empty, and has evaluated every key as a root, in
iteration order, each from the unchanged graph and an empty working set. -/
theorem computeOverallTrafficResult_frame (fuel : Nat) (s : State)
    (hunique : UniqueKeys s.cityMap) (hkeys : NeighboursAreKeys s.cityMap)
    (htm : s.trafficMap = []) (hfuel : s.cityMap.length < fuel) :
    ∃ res s' roots, computeOverallTrafficResultLog fuel s = some (res, s', roots) ∧
      computeOverallTrafficResult fuel s = some (res, s') ∧
      s'.cityMap = s.cityMap ∧ s'.trafficMap = [] ∧
      roots.map (fun r => r.city) = mapKeys s.cityMap ∧
      ∀ r ∈ roots, r.before.cityMap = s.cityMap ∧ r.before.trafficMap = [] := by
  obtain ⟨res, s', hres, _⟩ := computeOverallTrafficResult_cities fuel s
    (lt_of_le_of_lt (allNeighbours_card_le hunique hkeys) hfuel)
  obtain ⟨roots, hlog⟩ := computeOverallTrafficResultLog_of_some hres
  obtain ⟨res0, hloop, _⟩ := computeOverallTrafficResultLog_loop hlog
  obtain ⟨hA, hB, hC, hD⟩ := overallLoopLog_frame hkeys fuel _ _ _ _ _ _ rfl htm
    (fun c hc => hc) hloop
  exact ⟨res, s', roots, hlog, hres, hA, hB, hC, hD⟩

theorem computeOverallTrafficResult_frame_witness :
    UniqueKeys (State.mk [(1, [2, 3]), (2, [3]), (3, [1, 1])] [] [((2, 1), 9)]).cityMap ∧
    NeighboursAreKeys (State.mk [(1, [2, 3]), (2, [3]), (3, [1, 1])] [] [((2, 1), 9)]).cityMap ∧
    (State.mk [(1, [2, 3]), (2, [3]), (3, [1, 1])] [] [((2, 1), 9)]).trafficMap = [] ∧
    (State.mk [(1, [2, 3]), (2, [3]), (3, [1, 1])] [] [((2, 1), 9)]).cityMap.length < 4 ∧
    ∃ res s' roots, computeOverallTrafficResultLog 4
        ⟨[(1, [2, 3]), (2, [3]), (3, [1, 1])], [], [((2, 1), 9)]⟩ = some (res, s', roots) ∧
      computeOverallTrafficResult 4 ⟨[(1, [2, 3]), (2, [3]), (3, [1, 1])], [], [((2, 1), 9)]⟩ =
        some (res, s') ∧
      s'.cityMap = (State.mk [(1, [2, 3]), (2, [3]), (3, [1, 1])] [] [((2, 1), 9)]).cityMap ∧
      s'.trafficMap = [] ∧
      roots.map (fun r => r.city) =
        mapKeys (State.mk [(1, [2, 3]), (2, [3]), (3, [1, 1])] [] [((2, 1), 9)]).cityMap ∧
      ∀ r ∈ roots,
        r.before.cityMap = (State.mk [(1, [2, 3]), (2, [3]), (3, [1, 1])] [] [((2, 1), 9)]).cityMap ∧
        r.before.trafficMap = [] :=
  have hu : UniqueKeys (State.mk [(1, [2, 3]), (2, [3]), (3, [1, 1])] [] [((2, 1), 9)]).cityMap := by
    unfold UniqueKeys; decide
  have hk : NeighboursAreKeys
      (State.mk [(1, [2, 3]), (2, [3]), (3, [1, 1])] [] [((2, 1), 9)]).cityMap :=
    neighboursAreKeys_of_entries _ (by decide)
  ⟨hu, hk, rfl, by decide, computeOverallTrafficResult_frame 4 _ hu hk rfl (by decide)⟩

/-! ## Every directed edge met is cached -/

theorem Covered.transfer {g : CityMap} {s s' : State} {v p : City} (h : Covered g s v p)
    (hcache : ∀ k x, mapFind s.cityPathTrafficCache k = some x →
      mapFind s'.cityPathTrafficCache k = some x)
    (htm : ∀ k ∈ neighboursOf g v, k ≠ p → mapFind s'.trafficMap k ≠ none →
      mapFind s.trafficMap k ≠ none) : Covered g s' v p := by
  intro k hk hkp hpres
  obtain ⟨x, hx⟩ := Option.ne_none_iff_exists'.1 (h k hk hkp (htm k hk hkp hpres))
  rw [hcache _ x hx]
  simp

/-- One visit of a fresh neighbour `n` of `v` inside the call `(v, p)` keeps the coverage
invariant, provided the recursive call `(n, v)` fulfils its contracts. -/
theorem CovInv.cov_step {g : CityMap} (hg : TreeLike g) {s0 sc s2 : State} {v p n : City}
    (hp : p ∈ neighboursOf g v) (hn : n ∈ neighboursOf g v)
    (hvc : mapFind sc.trafficMap v ≠ none)
    (inv : CovInv g s0 sc v p)
    (post : TraversePost g { sc with trafficMap := mapEmplace sc.trafficMap n 0 } s2 n v)
    (hext : Extends { sc with trafficMap := mapEmplace sc.trafficMap n 0 } s2)
    (hcached : mapFind s2.cityPathTrafficCache (n, v) ≠ none)
    (hrec : Covered g s2 n v) : CovInv g s0 s2 v p := by
  have hv1 : mapFind (mapEmplace sc.trafficMap n 0) v ≠ none :=
    mapFind_mapEmplace_ne_none _ _ _ _ hvc
  have hagree : AgreeOff (InBranch g v n) sc.trafficMap s2.trafficMap :=
    (AgreeOff.agree_emplace _ sc.trafficMap (InBranch.self hn) 0).agree_trans (post.frame hv1)
  have hcache : ∀ k x, mapFind sc.cityPathTrafficCache k = some x →
      mapFind s2.cityPathTrafficCache k = some x := fun k x hk => hext.cache k x hk
  have hother : n ≠ p → Covered g sc p v → Covered g s2 p v := by
    intro hnp hc
    refine Covered.transfer hc hcache ?_
    intro j hj hjv hpres
    have hjb : InBranch g v p j := InBranch.extend hp hjv (InBranch.self hj)
    have hnot : ¬ InBranch g v n j := fun hb =>
      InBranch.disjoint hg.forest hg.symmetric hnp hb hjb
    rw [← hagree j hnot]
    exact hpres
  refine ⟨?_, ?_, ?_⟩
  · intro k hk hkp hpres
    by_cases hkn : k = n
    · rw [hkn]
      exact hcached
    · have hnot : ¬ InBranch g v n k := fun hb =>
        InBranch.disjoint hg.forest hg.symmetric hkn (InBranch.self hk) hb
      rw [hagree k hnot] at hpres
      obtain ⟨x, hx⟩ := Option.ne_none_iff_exists'.1 (inv.cov k hk hkp hpres)
      rw [hcache _ x hx]
      simp
  · by_cases hnp : n = p
    · left
      obtain ⟨t, ht, _⟩ := post.settled
      rw [← hnp, ht]
      simp
    · rcases inv.up with hpres | hc
      · left
        exact post.grows p (mapFind_mapEmplace_ne_none _ _ _ _ hpres)
      · exact Or.inr (hother hnp hc)
  · intro h0
    by_cases hnp : n = p
    · rw [← hnp]
      exact hrec
    · exact hother hnp (inv.keep h0)

/-- The coverage contract of `traverseCitiesViaPath((v, p))` on a forest: under the
hypotheses of `traverseCitiesViaPath_post`, if every neighbour of `v` other than `p` that is
in the working set has its directed edge cached, this is so after the call, and the same
property of `p` is kept. -/
theorem traverseCitiesViaPath_covered {g : CityMap} (hg : TreeLike g) :
    ∀ (fuel : Nat) (s s' : State) (v p : City), s.cityMap = g → p ∈ neighboursOf g v →
      CacheSound g s.cityPathTrafficCache → mapFind s.trafficMap v ≠ none →
      Ready g s.trafficMap v p → (mapFind s.trafficMap p ≠ none ∨ Ready g s.trafficMap p v) →
      Covered g s v p → (mapFind s.trafficMap p ≠ none ∨ Covered g s p v) →
      traverseCitiesViaPath fuel s (v, p) = some s' →
      Covered g s' v p ∧ (Covered g s p v → Covered g s' p v) := by
  intro fuel
  induction fuel with
  | zero => intro s s' v p _ _ _ _ _ _ _ _ h; simp [traverseCitiesViaPath] at h
  | succ f ih =>
    intro s s' v p hcm hp hcache hv hready hup hcov hcup h
    obtain ⟨cm, tm, cache⟩ := s
    simp only at hcm hcache hv hready hup
    subst hcm
    have hvp : v ∈ neighboursOf cm p := hg.symmetric v p hp
    have hvkey : v ∈ mapKeys cm := hg.neighboursAreKeys p v hvp
    rw [traverseCitiesViaPath] at h
    cases hc : mapFind cache (v, p) with
    | some c =>
      simp only [hc, Option.some.injEq] at h
      subst h
      constructor
      · refine Covered.transfer hcov (fun _ _ hk => hk) ?_
        intro k hk _ hpres
        have hkv : v ≠ k := fun e => hg.forest.noSelfLoop v (e ▸ hk)
        simp only at hpres
        rw [mapFind_mapAssign_ne _ _ hkv] at hpres
        exact hpres
      · intro h0
        refine Covered.transfer h0 (fun _ _ hk => hk) ?_
        intro j _ hjv hpres
        simp only at hpres
        rw [mapFind_mapAssign_ne _ _ (fun e => hjv e.symm)] at hpres
        exact hpres
    | none =>
      simp only [hc] at h
      obtain ⟨l, hl⟩ := Option.ne_none_iff_exists'.1
        (fun e => ((mapFind_eq_none_iff cm v).1 e) hvkey)
      have hnb : (mapFind cm v).getD [] = neighboursOf cm v := rfl
      rw [mapEmplace_of_some [] hl, hnb] at h
      cases hvis : visitNeighbours (traverseCitiesViaPath f) v (neighboursOf cm v)
          ⟨cm, tm, cache⟩ with
      | none => simp [hvis] at h
      | some s1 =>
        simp only [hvis, Option.some.injEq] at h
        have inv0 : LoopInv cm ⟨cm, tm, cache⟩ ⟨cm, tm, cache⟩ v p :=
          ⟨rfl, hcache, fun _ => rfl, TrafficMapGrows.grows_refl _, hready, hup,
            fun _ => AgreeOff.agree_refl _ _, fun hr => hr⟩
        have cov0 : CovInv cm ⟨cm, tm, cache⟩ ⟨cm, tm, cache⟩ v p := ⟨hcov, hcup, fun h0 => h0⟩
        obtain ⟨⟨inv, cinv⟩, hgrow, hall⟩ := visitNeighbours_invariant
          (fun sc => LoopInv cm ⟨cm, tm, cache⟩ sc v p ∧ CovInv cm ⟨cm, tm, cache⟩ sc v p)
          (traverseCitiesViaPath f) v (neighboursOf cm v) (by
            intro n hn sc s2 hboth hfresh hrec
            obtain ⟨hinv, hcinv⟩ := hboth
            have hnv : v ∈ neighboursOf cm n := hg.symmetric v n hn
            have hvc : mapFind sc.trafficMap v ≠ none := hinv.grows v hv
            have hself : mapFind (mapEmplace sc.trafficMap n 0) n ≠ none := by
              simp [mapFind_mapEmplace_self]
            have hrdy : Ready cm (mapEmplace sc.trafficMap n 0) n v := by
              by_cases hnp : n = p
              · rcases hinv.up with hpres | hr
                · rw [hnp] at hfresh
                  exact absurd hfresh hpres
                · rw [hnp]
                  exact hr.emplace_self hg 0
              · exact Ready.of_untouched hg hn
                  (hinv.ready.untouched_of_absent hn hnp hfresh) 0
            have hvin : mapFind (mapEmplace sc.trafficMap n 0) v ≠ none :=
              mapFind_mapEmplace_ne_none _ _ _ _ hvc
            have post : TraversePost cm { sc with trafficMap := mapEmplace sc.trafficMap n 0 }
                s2 n v :=
              traverseCitiesViaPath_post hg f
                { sc with trafficMap := mapEmplace sc.trafficMap n 0 } s2 n v hinv.cityMap_eq hnv
                hinv.cache_sound hself hrdy (Or.inl hvin) hrec
            have hpre : Covered cm { sc with trafficMap := mapEmplace sc.trafficMap n 0 } n v := by
              by_cases hnp : n = p
              · rcases hcinv.up with hpres | hc
                · rw [hnp] at hfresh
                  exact absurd hfresh hpres
                · rw [hnp]
                  refine Covered.transfer hc (fun _ _ hk => hk) ?_
                  intro j hj _ hpres
                  have hjp : p ≠ j := fun e => hg.forest.noSelfLoop p (e ▸ hj)
                  simp only at hpres
                  rw [mapFind_mapEmplace_ne _ _ (hnp ▸ hjp)] at hpres
                  exact hpres
              · intro j hj hjv hpres
                have hjn : n ≠ j := fun e => hg.forest.noSelfLoop n (e ▸ hj)
                simp only at hpres
                rw [mapFind_mapEmplace_ne _ _ hjn] at hpres
                exact absurd ((hinv.ready.untouched_of_absent hn hnp hfresh) j
                  (InBranch.extend hn hjv (InBranch.self hj))) hpres
            have hrecov := ih { sc with trafficMap := mapEmplace sc.trafficMap n 0 } s2 n v
              hinv.cityMap_eq hnv hinv.cache_sound hself hrdy (Or.inl hvin) hpre (Or.inl hvin) hrec
            exact ⟨⟨LoopInv.loop_step hg hp hn hv hinv hfresh post,
              CovInv.cov_step hg hp hn hvc hcinv post (traverseCitiesViaPath_extends _ _ _ _ hrec)
                (traverseCitiesViaPath_cached hrec) hrecov.1⟩, post.grows⟩)
          ⟨cm, tm, cache⟩ s1 ⟨inv0, cov0⟩ hvis
        have hsettled : ∀ k ∈ neighboursOf cm v, k ≠ p →
            ∃ t, mapFind s1.trafficMap k = some t ∧ IsTraffic cm k v t :=
          fun k hk hkp => inv.ready.settled_of_present hk hkp (hall k hk)
        obtain ⟨_, htm⟩ := computeTrafficFromNeighbourhood_of_settled cm s1.trafficMap v p hsettled
        subst h
        rw [htm]
        constructor
        · refine Covered.transfer cinv.cov (fun k x hk => mapFind_mapEmplace_of_some _ _ _ _ _ hk) ?_
          intro k hk _ hpres
          have hkv : v ≠ k := fun e => hg.forest.noSelfLoop v (e ▸ hk)
          simp only at hpres
          rw [mapFind_mapAssign_ne _ _ hkv] at hpres
          exact hpres
        · intro h0
          refine Covered.transfer (cinv.keep h0) (fun k x hk => mapFind_mapEmplace_of_some _ _ _ _ _ hk) ?_
          intro j _ hjv hpres
          simp only at hpres
          rw [mapFind_mapAssign_ne _ _ (fun e => hjv e.symm)] at hpres
          exact hpres

/-- On a forest, the root call `traverseCitiesViaPath((r, 0))` from an empty working set
leaves the directed edge `(k, r)` of every neighbour `k` of `r` in the cache. -/
theorem traverseCitiesViaPath_root_covered {g : CityMap} (hg : TreeLike g) (fuel : Nat)
    (s s' : State) (r : City) (hcm : s.cityMap = g) (htm : s.trafficMap = [])
    (hr : r ∈ mapKeys g) (hcache : CacheSound g s.cityPathTrafficCache)
    (hmiss : mapFind s.cityPathTrafficCache (r, 0) = none)
    (h : traverseCitiesViaPath fuel s (r, 0) = some s') :
    ∀ k ∈ neighboursOf g r, mapFind s'.cityPathTrafficCache (k, r) ≠ none := by
  obtain ⟨cm, tm, cache⟩ := s
  simp only at hcm htm hcache hmiss
  subst hcm htm
  cases fuel with
  | zero => simp [traverseCitiesViaPath] at h
  | succ f =>
    rw [traverseCitiesViaPath] at h
    simp only [hmiss] at h
    obtain ⟨l, hl⟩ := Option.ne_none_iff_exists'.1
      (fun e => ((mapFind_eq_none_iff cm r).1 e) hr)
    have hnb : (mapFind cm r).getD [] = neighboursOf cm r := rfl
    rw [mapEmplace_of_some [] hl, hnb] at h
    cases hvis : visitNeighbours (traverseCitiesViaPath f) r (neighboursOf cm r)
        ⟨cm, [], cache⟩ with
    | none => simp [hvis] at h
    | some s1 =>
      simp only [hvis, Option.some.injEq] at h
      have inv0 : RootInv cm ⟨cm, [], cache⟩ ⟨cm, [], cache⟩ r :=
        ⟨rfl, hcache, fun _ => rfl, fun k _ _ => Or.inr (fun _ _ => rfl)⟩
      have cov0 : Covered cm ⟨cm, [], cache⟩ r 0 :=
        fun k _ _ hpres => absurd rfl hpres
      obtain ⟨⟨_, cov⟩, _, hall⟩ := visitNeighbours_invariant
        (fun sc => RootInv cm ⟨cm, [], cache⟩ sc r ∧ Covered cm sc r 0)
        (traverseCitiesViaPath f) r (neighboursOf cm r) (by
          intro n hn sc s2 hboth hfresh hrec
          obtain ⟨hinv, hcov⟩ := hboth
          have hnr : r ∈ neighboursOf cm n := hg.symmetric r n hn
          have hn0 : n ≠ 0 := hg.neighbour_ne_zero hn
          have hup : Ready cm (mapEmplace sc.trafficMap n 0) r n := by
            have hready : Ready cm sc.trafficMap r n :=
              fun k hk _ => hinv.ready k hk (hg.neighbour_ne_zero hk)
            apply hready.ready_agreeOff (AgreeOff.agree_emplace (fun x => x = n) sc.trafficMap rfl 0)
            intro k _ hkn x hx hx'
            subst hx
            exact InBranch.disjoint hg.forest hg.symmetric hkn hx' (InBranch.self hn)
          have hself : mapFind (mapEmplace sc.trafficMap n 0) n ≠ none := by
            simp [mapFind_mapEmplace_self]
          have hrdy : Ready cm (mapEmplace sc.trafficMap n 0) n r :=
            Ready.of_untouched hg hn (hinv.ready.untouched_of_absent hn hn0 hfresh) 0
          have post : TraversePost cm { sc with trafficMap := mapEmplace sc.trafficMap n 0 }
              s2 n r :=
            traverseCitiesViaPath_post hg f
              { sc with trafficMap := mapEmplace sc.trafficMap n 0 } s2 n r hinv.cityMap_eq hnr
              hinv.cache_sound hself hrdy (Or.inr hup) hrec
          have hpre : Covered cm { sc with trafficMap := mapEmplace sc.trafficMap n 0 } n r := by
            intro j hj hjr hpres
            have hjn : n ≠ j := fun e => hg.forest.noSelfLoop n (e ▸ hj)
            simp only at hpres
            rw [mapFind_mapEmplace_ne _ _ hjn] at hpres
            exact absurd ((hinv.ready.untouched_of_absent hn hn0 hfresh) j
              (InBranch.extend hn hjr (InBranch.self hj))) hpres
          have hcup : Covered cm { sc with trafficMap := mapEmplace sc.trafficMap n 0 } r n := by
            intro k hk hkn hpres
            simp only at hpres
            rw [mapFind_mapEmplace_ne _ _ (fun e => hkn e.symm)] at hpres
            exact hcov k hk (hg.neighbour_ne_zero hk) hpres
          have hrecov := traverseCitiesViaPath_covered hg f
            { sc with trafficMap := mapEmplace sc.trafficMap n 0 } s2 n r hinv.cityMap_eq hnr
            hinv.cache_sound hself hrdy (Or.inr hup) hpre (Or.inr hcup) hrec
          refine ⟨⟨RootInv.root_step hinv post hup, ?_⟩, post.grows⟩
          intro k hk _ hpres
          by_cases hkn : k = n
          · rw [hkn]
            exact traverseCitiesViaPath_cached hrec
          · exact hrecov.2 hcup k hk hkn hpres)
        ⟨cm, [], cache⟩ s1 ⟨inv0, cov0⟩ hvis
      intro k hk
      obtain ⟨x, hx⟩ := Option.ne_none_iff_exists'.1
        (cov k hk (hg.neighbour_ne_zero hk) (hall k hk))
      rw [← h]
      simp only
      rw [mapFind_mapEmplace_of_some _ _ _ _ _ hx]
      simp

/-- On a forest, the evaluation of a root `r` from an empty working set leaves `(r, 0)` and
the directed edge `(k, r)` of every neighbour `k` of `r` in the cache. -/
theorem computeMaximumTraffic_covered {g : CityMap} (hg : TreeLike g) (fuel : Nat)
    (s s' : State) (r : City) (t : Traffic) (hcm : s.cityMap = g) (htm : s.trafficMap = [])
    (hr : r ∈ mapKeys g) (hcache : CacheSound g s.cityPathTrafficCache)
    (hmiss : mapFind s.cityPathTrafficCache (r, 0) = none)
    (h : computeMaximumTraffic fuel s r = some (t, s')) :
    mapFind s'.cityPathTrafficCache (r, 0) ≠ none ∧
      ∀ k ∈ neighboursOf g r, mapFind s'.cityPathTrafficCache (k, r) ≠ none := by
  unfold computeMaximumTraffic at h
  cases ht : traverseCitiesViaPath fuel s (r, 0) with
  | none => simp [ht] at h
  | some s1 =>
    simp only [ht, Option.some.injEq, Prod.mk.injEq] at h
    have h1 : mapFind s1.cityPathTrafficCache (r, 0) ≠ none := traverseCitiesViaPath_cached ht
    have h2 := traverseCitiesViaPath_root_covered hg fuel s s1 r hcm htm hr hcache hmiss ht
    rw [← h.2]
    exact ⟨h1, h2⟩

/-- On a forest, the root loop of the batch leaves in the cache the entry `(c, 0)` of every
root `c` it evaluates and the directed edge `(k, c)` of every neighbour `k` of `c`. -/
theorem overallLoop_covered {g : CityMap} (hg : TreeLike g) (fuel : Nat) :
    ∀ (cities : List City) (s : State) (acc res : TrafficResult) (s' : State),
      s.cityMap = g → s.trafficMap = [] → CacheSound g s.cityPathTrafficCache →
      (∀ c ∈ cities, c ∈ mapKeys g) → cities.Nodup →
      (∀ c ∈ cities, mapFind s.cityPathTrafficCache (c, 0) = none) →
      overallLoop fuel cities s acc = some (res, s') →
      ∀ c ∈ cities, mapFind s'.cityPathTrafficCache (c, 0) ≠ none ∧
        ∀ k ∈ neighboursOf g c, mapFind s'.cityPathTrafficCache (k, c) ≠ none := by
  intro cities
  induction cities with
  | nil => intro s acc res s' _ _ _ _ _ _ _ c hc; simp at hc
  | cons c rest ih =>
    intro s acc res s' hcm htm hcache hkeys hnodup hmiss h
    simp only [overallLoop] at h
    cases hm : computeMaximumTraffic fuel s c with
    | none => simp [hm] at h
    | some ts =>
      obtain ⟨t, s1⟩ := ts
      simp only [hm] at h
      have post := computeMaximumTraffic_correct hg fuel s s1 c t hcm htm
        (hkeys c (List.mem_cons_self _ _)) hcache (hmiss c (List.mem_cons_self _ _)) hm
      have hcov := computeMaximumTraffic_covered hg fuel s s1 c t hcm htm
        (hkeys c (List.mem_cons_self _ _)) hcache (hmiss c (List.mem_cons_self _ _)) hm
      rw [List.nodup_cons] at hnodup
      have hkeep := (overallLoop_keeps fuel rest { s1 with trafficMap := [] } (acc ++ [(c, t)])
        res s' h).1
      have hkept : ∀ q, mapFind s1.cityPathTrafficCache q ≠ none →
          mapFind s'.cityPathTrafficCache q ≠ none := by
        intro q hq
        obtain ⟨x, hx⟩ := Option.ne_none_iff_exists'.1 hq
        rw [hkeep q x hx]
        simp
      have hrest := ih { s1 with trafficMap := [] } (acc ++ [(c, t)]) res s' post.cityMap_eq rfl
        post.cache_sound (fun x hx => hkeys x (List.mem_cons_of_mem _ hx)) hnodup.2 (by
          intro x hx
          have hxc : x ≠ c := fun e => hnodup.1 (e ▸ hx)
          simp only
          rw [post.cache_zero x hxc]
          exact hmiss x (List.mem_cons_of_mem _ hx)) h
      intro x hx
      rcases List.mem_cons.1 hx with hx | hx
      · subst hx
        exact ⟨hkept _ hcov.1, fun k hk => hkept _ (hcov.2 k hk)⟩
      · exact hrest x hx

/-! ## The log of the batch -/

theorem overallLoop_of_log {fuel : Nat} {cities : List City} {s : State} {acc res : TrafficResult}
    {s' : State} {roots : List RootRecord}
    (h : overallLoopLog fuel cities s acc = some (res, s', roots)) :
    overallLoop fuel cities s acc = some (res, s') := by
  rw [← overallLoopLog_erase, h]
  rfl

/-- On every graph without the city `0`, the root loop of the batch started with an empty
working set appends to the keys of the cache exactly the directed edges on which the
cache-miss body was executed, in order of execution; it keeps the keys distinct; and every
call was made on `(c, 0)` for a root `c` or on `(n, v)` for a neighbour `n` of `v`. -/
theorem overallLoopLog_spec (fuel : Nat) :
    ∀ (cities : List City) (s : State) (acc res : TrafficResult) (s' : State)
      (roots : List RootRecord), neighboursOf s.cityMap 0 = [] →
      overallLoopLog fuel cities s acc = some (res, s', roots) →
      mapKeys s'.cityPathTrafficCache =
          mapKeys s.cityPathTrafficCache ++ missPaths (allCalls roots) ∧
        ((mapKeys s.cityPathTrafficCache).Nodup → (mapKeys s'.cityPathTrafficCache).Nodup) ∧
        ∀ r ∈ allCalls roots, (r.path.2 = 0 ∧ r.path.1 ∈ cities) ∨
          r.path.1 ∈ neighboursOf s.cityMap r.path.2 := by
  intro cities
  induction cities with
  | nil =>
    intro s acc res s' roots _ h
    simp only [overallLoopLog, Option.some.injEq, Prod.mk.injEq] at h
    obtain ⟨_, h2, h3⟩ := h
    subst h2 h3
    exact ⟨by simp [allCalls, missPaths], fun hn => hn, fun r hr => by simp [allCalls] at hr⟩
  | cons c rest ih =>
    intro s acc res s' roots hzero h
    simp only [overallLoopLog] at h
    cases hm : computeMaximumTrafficLog fuel s c with
    | none => simp [hm] at h
    | some r1 =>
      obtain ⟨t, s1, calls⟩ := r1
      simp only [hm] at h
      cases ho : overallLoopLog fuel rest { s1 with trafficMap := [] } (acc ++ [(c, t)]) with
      | none => simp [ho] at h
      | some r2 =>
        obtain ⟨res2, s2, roots2⟩ := r2
        simp only [ho, Option.some.injEq, Prod.mk.injEq] at h
        obtain ⟨_, h2, h3⟩ := h
        subst h2 h3
        obtain ⟨s0, hcall, hcache⟩ := computeMaximumTrafficLog_calls hm
        have hspec := traverseCitiesViaPathLog_spec fuel s (c, 0) s0 calls hzero (Or.inr rfl) hcall
        have hext := computeMaximumTraffic_extends (computeMaximumTraffic_of_log hm)
        have hzero1 : neighboursOf s1.cityMap 0 = [] := by rw [hext.neighbours 0]; exact hzero
        obtain ⟨hA, hB, hC⟩ := ih { s1 with trafficMap := [] } (acc ++ [(c, t)]) res2 s2 roots2
          hzero1 ho
        simp only at hA hB hC
        rw [hcache] at hA hB
        refine ⟨?_, fun hn => hB (hspec.nodup hn), ?_⟩
        · rw [hA, hspec.keys]
          simp [allCalls, missPaths_append]
        · intro r hr
          simp only [allCalls, List.mem_append] at hr
          rcases hr with hr | hr
          · rcases hspec.inner r hr with hp | hp
            · left
              rw [hp]
              exact ⟨rfl, List.mem_cons_self _ _⟩
            · exact Or.inr hp.2
          · rcases hC r hr with hp | hp
            · exact Or.inl ⟨hp.1, List.mem_cons_of_mem _ hp.2⟩
            · right
              rw [← hext.neighbours r.path.2]
              exact hp

/-! ## Counting the directed edges -/

theorem orderedPairs_length (g : CityMap) :
    (orderedPairs g).length = (allNeighbours g).length := by
  induction g with
  | nil => rfl
  | cons e rest ih =>
    obtain ⟨v, l⟩ := e
    simp [orderedPairs, allNeighbours, ih]

theorem mem_orderedPairs (g : CityMap) (q : CityPath) :
    q ∈ orderedPairs g ↔ ∃ l, (q.2, l) ∈ g ∧ q.1 ∈ l := by
  induction g with
  | nil => simp [orderedPairs]
  | cons e rest ih =>
    obtain ⟨v, l⟩ := e
    obtain ⟨a, b⟩ := q
    simp only [orderedPairs, List.mem_append, List.mem_map, Prod.mk.injEq, List.mem_cons, ih]
    constructor
    · rintro (⟨n, hn, rfl, rfl⟩ | ⟨l', hl', ha⟩)
      · exact ⟨l, Or.inl ⟨rfl, rfl⟩, hn⟩
      · exact ⟨l', Or.inr hl', ha⟩
    · rintro ⟨l', (⟨rfl, rfl⟩ | hl'), ha⟩
      · exact Or.inl ⟨a, ha, rfl, rfl⟩
      · exact Or.inr ⟨l', hl', ha⟩

theorem mem_orderedPairs_iff {g : CityMap} (hu : UniqueKeys g) (q : CityPath) :
    q ∈ orderedPairs g ↔ q.1 ∈ neighboursOf g q.2 := by
  rw [mem_orderedPairs]
  constructor
  · rintro ⟨l, hl, hq⟩
    have hfind := (mapFind_eq_some_iff_mem hu q.2 l).2 hl
    simpa [neighboursOf, hfind] using hq
  · intro hq
    cases hfind : mapFind g q.2 with
    | none => simp [neighboursOf, hfind] at hq
    | some l =>
      refine ⟨l, (mapFind_eq_some_iff_mem hu q.2 l).1 hfind, ?_⟩
      simpa [neighboursOf, hfind] using hq

theorem orderedPairs_nodup :
    ∀ (g : CityMap), (mapKeys g).Nodup → (∀ e ∈ g, e.2.Nodup) → (orderedPairs g).Nodup := by
  intro g
  induction g with
  | nil => intro _ _; simp [orderedPairs]
  | cons e rest ih =>
    obtain ⟨v, l⟩ := e
    intro hkeys hlists
    simp only [mapKeys, List.map_cons, List.nodup_cons] at hkeys
    simp only [orderedPairs]
    rw [List.nodup_append]
    refine ⟨?_, ih hkeys.2 (fun e he => hlists e (List.mem_cons_of_mem _ he)), ?_⟩
    · apply List.Nodup.map _ (hlists (v, l) (List.mem_cons_self _ _))
      intro a b hab
      simp only [Prod.mk.injEq] at hab
      exact hab.1
    · intro q hq hq'
      simp only [List.mem_map] at hq
      obtain ⟨n, _, rfl⟩ := hq
      obtain ⟨l', hl', _⟩ := (mem_orderedPairs rest (n, v)).1 hq'
      exact hkeys.1 (List.mem_map.2 ⟨(v, l'), hl', rfl⟩)

theorem edges_nodup {g : CityMap} (hu : UniqueKeys g) (hrep : NoRepeatedNeighbour g)
    (hzero : NoZero g) : (sentinelPaths g ++ orderedPairs g).Nodup := by
  rw [List.nodup_append]
  refine ⟨?_, ?_, ?_⟩
  · apply List.Nodup.map _ hu
    intro a b hab
    simp only [Prod.mk.injEq] at hab
    exact hab.1
  · apply orderedPairs_nodup g hu
    intro e he
    have hfind := (mapFind_eq_some_iff_mem hu e.1 e.2).2 he
    have hnd := hrep e.1
    simpa [neighboursOf, hfind] using hnd
  · intro q hq hq'
    simp only [sentinelPaths, List.mem_map] at hq
    obtain ⟨v, _, rfl⟩ := hq
    obtain ⟨l, hl, _⟩ := (mem_orderedPairs g (v, 0)).1 hq'
    exact hzero (List.mem_map.2 ⟨(0, l), hl, rfl⟩)

theorem mem_mapKeys_of_mapFind_ne_none {κ β : Type} [DecidableEq κ] {m : List (κ × β)} {k : κ}
    (h : mapFind m k ≠ none) : k ∈ mapKeys m := by
  by_contra hk
  exact h ((mapFind_eq_none_iff m k).2 hk)

/-! ## A forest has fewer edges than cities -/

/-- If every city of a nonempty set `V` has two neighbours in `V`, there are walks in `V`
of every length that never turn straight back. -/
theorem exists_long_walk {g : CityMap} (hsym : Symmetric g) (V : Finset City)
    (hne : V.Nonempty)
    (hdeg : ∀ a ∈ V, 1 < (V.filter (fun b => b ∈ neighboursOf g a)).card) :
    ∀ n : Nat, ∃ w, IsNBWalk g w ∧ w.length = n + 1 ∧ ∀ x ∈ w, x ∈ V := by
  intro n
  induction n with
  | zero =>
    obtain ⟨a, ha⟩ := hne
    exact ⟨[a], by simp [IsNBWalk], rfl, fun x hx => by
      simp only [List.mem_singleton] at hx
      exact hx ▸ ha⟩
  | succ n ih =>
    obtain ⟨w, hw, hlen, hV⟩ := ih
    cases w with
    | nil => simp at hlen
    | cons a rest =>
      have ha : a ∈ V := hV a (List.mem_cons_self _ _)
      cases rest with
      | nil =>
        obtain ⟨c, hc, _⟩ := Finset.exists_mem_ne (hdeg a ha) a
        rw [Finset.mem_filter] at hc
        refine ⟨[c, a], ?_, by simpa using hlen, ?_⟩
        · rw [isNBWalk_cons_cons]
          exact ⟨hsym a c hc.2, fun x hx => by simp at hx, hw⟩
        · intro x hx
          simp only [List.mem_cons, List.mem_singleton, List.not_mem_nil, or_false] at hx
          rcases hx with rfl | rfl
          · exact hc.1
          · exact ha
      | cons b rest' =>
        obtain ⟨c, hc, hcb⟩ := Finset.exists_mem_ne (hdeg a ha) b
        rw [Finset.mem_filter] at hc
        refine ⟨c :: a :: b :: rest', ?_, by simpa using hlen, ?_⟩
        · rw [isNBWalk_cons_cons]
          refine ⟨hsym a c hc.2, ?_, hw⟩
          intro x hx
          simp only [List.head?_cons, Option.some.injEq] at hx
          exact hx ▸ fun e => hcb e.symm
        · intro x hx
          rcases List.mem_cons.1 hx with rfl | hx
          · exact hc.1
          · exact hV x hx

/-- In a forest, every nonempty set of cities has a city with at most one neighbour in the
set. -/
theorem exists_leaf {g : CityMap} (hf : Forest g) (hsym : Symmetric g) (V : Finset City)
    (hne : V.Nonempty) :
    ∃ a ∈ V, (V.filter (fun b => b ∈ neighboursOf g a)).card ≤ 1 := by
  by_contra hno
  push_neg at hno
  obtain ⟨w, hw, hlen, hV⟩ := exists_long_walk hsym V hne hno V.card
  have hnd : w.Nodup := hf w hw
  have hsub : w.toFinset ⊆ V := fun x hx => hV x (List.mem_toFinset.1 hx)
  have hcard := Finset.card_le_card hsub
  rw [List.toFinset_card_of_nodup hnd, hlen] at hcard
  exact absurd hcard (by simp)

/-- In a forest, a set of `n` cities has at most `2 * n` ordered pairs of adjacent
cities. -/
theorem edgesWithin_card_le {g : CityMap} (hf : Forest g) (hsym : Symmetric g) :
    ∀ (n : Nat) (V : Finset City), V.card = n → (edgesWithin g V).card ≤ 2 * n := by
  intro n
  induction n with
  | zero =>
    intro V hV
    rw [Finset.card_eq_zero] at hV
    subst hV
    simp [edgesWithin]
  | succ n ih =>
    intro V hV
    have hne : V.Nonempty := Finset.card_pos.1 (by rw [hV]; exact Nat.succ_pos n)
    obtain ⟨a, ha, hleaf⟩ := exists_leaf hf hsym V hne
    have hcard : (V.erase a).card = n := by
      rw [Finset.card_erase_of_mem ha, hV]
      rfl
    have hsub : edgesWithin g V ⊆
        (edgesWithin g (V.erase a) ∪
          (V.filter (fun b => b ∈ neighboursOf g a)).image (fun b => (b, a))) ∪
          (V.filter (fun b => b ∈ neighboursOf g a)).image (fun b => (a, b)) := by
      intro q hq
      obtain ⟨x, y⟩ := q
      simp only [edgesWithin, Finset.mem_filter, Finset.mem_product] at hq
      obtain ⟨⟨hx, hy⟩, hxy⟩ := hq
      simp only [Finset.mem_union, Finset.mem_image, Finset.mem_filter, Prod.mk.injEq,
        edgesWithin, Finset.mem_product, Finset.mem_erase]
      by_cases hya : y = a
      · subst hya
        exact Or.inl (Or.inr ⟨x, ⟨hx, hxy⟩, rfl, rfl⟩)
      · by_cases hxa : x = a
        · subst hxa
          exact Or.inr ⟨y, ⟨hy, hsym y x hxy⟩, rfl, rfl⟩
        · exact Or.inl (Or.inl ⟨⟨⟨hxa, hx⟩, hya, hy⟩, hxy⟩)
    have h1 := Finset.card_le_card hsub
    have h2 := Finset.card_union_le
      (edgesWithin g (V.erase a) ∪
        (V.filter (fun b => b ∈ neighboursOf g a)).image (fun b => (b, a)))
      ((V.filter (fun b => b ∈ neighboursOf g a)).image (fun b => (a, b)))
    have h3 := Finset.card_union_le (edgesWithin g (V.erase a))
      ((V.filter (fun b => b ∈ neighboursOf g a)).image (fun b => (b, a)))
    have h4 : ((V.filter (fun b => b ∈ neighboursOf g a)).image (fun b => (b, a))).card ≤ 1 :=
      le_trans Finset.card_image_le hleaf
    have h5 : ((V.filter (fun b => b ∈ neighboursOf g a)).image (fun b => (a, b))).card ≤ 1 :=
      le_trans Finset.card_image_le hleaf
    have h6 := ih (V.erase a) hcard
    omega

/-- In a well-formed forest the ordered pairs of adjacent cities are at most twice as many
as the cities. -/
theorem orderedPairs_length_le {g : CityMap} (hwf : WellFormed g) (hf : Forest g) :
    (orderedPairs g).length ≤ 2 * g.length := by
  have hnd : (orderedPairs g).Nodup := by
    have h := edges_nodup hwf.uniqueKeys hwf.noRepeatedNeighbour hwf.noZero
    rw [List.nodup_append] at h
    exact h.2.1
  have hsub : (orderedPairs g).toFinset ⊆ edgesWithin g (mapKeys g).toFinset := by
    intro q hq
    rw [List.mem_toFinset] at hq
    have hn := (mem_orderedPairs_iff hwf.uniqueKeys q).1 hq
    simp only [edgesWithin, Finset.mem_filter, Finset.mem_product, List.mem_toFinset]
    exact ⟨⟨hwf.neighboursAreKeys q.2 q.1 hn,
      hwf.neighboursAreKeys q.1 q.2 (hwf.symmetric q.2 q.1 hn)⟩, hn⟩
  have h1 := Finset.card_le_card hsub
  rw [List.toFinset_card_of_nodup hnd] at h1
  have h2 := edgesWithin_card_le hf hwf.symmetric _ (mapKeys g).toFinset rfl
  have h3 : (mapKeys g).toFinset.card ≤ g.length := by
    have := List.toFinset_card_le (mapKeys g)
    simpa [mapKeys] using this
  omega

/-- C13: on every well-formed forest (so on every well-formed tree), the batch started from
an empty cache and an empty working set returns, and the directed edges on which the
cache-miss body of `traverseCitiesViaPath` was executed during it are pairwise distinct: the
body runs at most once per directed edge.  These edges are exactly the keys of the final
cache, in order of execution, so the number of body executions is the number of cache
entries; and the keys of the final cache are, up to order, the sentinel edges `(v, 0)` of
the cities together with the ordered pairs of adjacent cities, so their number is the number
of cities plus the number of ordered pairs of adjacent cities, which is at most three times
the number of cities. -/
theorem cache_populated_once_per_edge (g : CityMap) (hwf : WellFormed g) (hforest : Forest g)
    (fuel : Nat) (hfuel : g.length < fuel) :
    ∃ res s' roots, computeOverallTrafficResultLog fuel (State.init g) = some (res, s', roots) ∧
      computeOverallTrafficResult fuel (State.init g) = some (res, s') ∧
      (missPaths (allCalls roots)).Nodup ∧
      mapKeys s'.cityPathTrafficCache = missPaths (allCalls roots) ∧
      (missPaths (allCalls roots)).length = s'.cityPathTrafficCache.length ∧
      (mapKeys s'.cityPathTrafficCache).Perm (sentinelPaths g ++ orderedPairs g) ∧
      s'.cityPathTrafficCache.length = g.length + (orderedPairs g).length ∧
      s'.cityPathTrafficCache.length ≤ 3 * g.length := by
  have hg : TreeLike g := ⟨hforest, hwf.symmetric, hwf.noZero⟩
  obtain ⟨res, s', hres, _⟩ := computeOverallTrafficResult_cities fuel (State.init g)
    (lt_of_le_of_lt (allNeighbours_card_le hwf.uniqueKeys hwf.neighboursAreKeys) hfuel)
  obtain ⟨roots, hlog⟩ := computeOverallTrafficResultLog_of_some hres
  obtain ⟨res0, hloop, _⟩ := computeOverallTrafficResultLog_loop hlog
  have hzero : neighboursOf (State.init g).cityMap 0 = [] :=
    neighboursOf_zero_of_noZero hwf.noZero
  obtain ⟨hkeys, hnd, hclass⟩ := overallLoopLog_spec fuel _ _ _ _ _ _ hzero hloop
  have hcov := overallLoop_covered hg fuel (mapKeys g) (State.init g) [] res0 s' rfl rfl
    (fun a b t h => by simp [State.init, mapFind] at h) (fun c hc => hc) hwf.uniqueKeys
    (fun c _ => rfl) (overallLoop_of_log hloop)
  have hkeys' : mapKeys s'.cityPathTrafficCache = missPaths (allCalls roots) := by
    simpa [State.init, mapKeys] using hkeys
  have hnodup : (mapKeys s'.cityPathTrafficCache).Nodup := hnd (by simp [State.init, mapKeys])
  have hperm : (mapKeys s'.cityPathTrafficCache).Perm (sentinelPaths g ++ orderedPairs g) := by
    rw [List.perm_ext_iff_of_nodup hnodup
      (edges_nodup hwf.uniqueKeys hwf.noRepeatedNeighbour hwf.noZero)]
    intro q
    constructor
    · intro hq
      rw [hkeys'] at hq
      obtain ⟨r, hr, rfl⟩ := mem_missPaths hq
      rcases hclass r hr with ⟨h0, hk⟩ | hn
      · exact List.mem_append_left _ (List.mem_map.2 ⟨r.path.1, hk, Prod.ext rfl h0.symm⟩)
      · exact List.mem_append_right _ ((mem_orderedPairs_iff hwf.uniqueKeys _).2 hn)
    · intro hq
      rcases List.mem_append.1 hq with hq | hq
      · obtain ⟨v, hv, rfl⟩ := List.mem_map.1 hq
        exact mem_mapKeys_of_mapFind_ne_none (hcov v hv).1
      · have hn := (mem_orderedPairs_iff hwf.uniqueKeys q).1 hq
        have hkey : q.2 ∈ mapKeys g :=
          hwf.neighboursAreKeys q.1 q.2 (hwf.symmetric q.2 q.1 hn)
        exact mem_mapKeys_of_mapFind_ne_none ((hcov q.2 hkey).2 q.1 hn)
  have hlen : s'.cityPathTrafficCache.length = g.length + (orderedPairs g).length := by
    have h1 := hperm.length_eq
    simpa [mapKeys, sentinelPaths] using h1
  refine ⟨res, s', roots, hlog, hres, ?_, hkeys', ?_, hperm, hlen, ?_⟩
  · rw [← hkeys']
    exact hnodup
  · rw [← hkeys']
    simp [mapKeys]
  · have hle := orderedPairs_length_le hwf hforest
    omega

theorem cache_populated_once_per_edge_witness :
    WellFormed testGraph3 ∧ Forest testGraph3 ∧ testGraph3.length < 6 ∧
    ∃ res s' roots, computeOverallTrafficResultLog 6 (State.init testGraph3) =
        some (res, s', roots) ∧
      computeOverallTrafficResult 6 (State.init testGraph3) = some (res, s') ∧
      (missPaths (allCalls roots)).Nodup ∧
      mapKeys s'.cityPathTrafficCache = missPaths (allCalls roots) ∧
      (missPaths (allCalls roots)).length = s'.cityPathTrafficCache.length ∧
      (mapKeys s'.cityPathTrafficCache).Perm (sentinelPaths testGraph3 ++ orderedPairs testGraph3) ∧
      s'.cityPathTrafficCache.length = testGraph3.length + (orderedPairs testGraph3).length ∧
      s'.cityPathTrafficCache.length ≤ 3 * testGraph3.length :=
  ⟨wellFormed_testGraph3, forest_testGraph3, by decide,
    cache_populated_once_per_edge testGraph3 wellFormed_testGraph3 forest_testGraph3 6 (by decide)⟩

end Rerooting
